import Mathlib

/-!
# Touch-pattern feature extraction (`src/tg/autoschedule/touch_extractor.cc`)

A shallow embedding of the touch extractor: the index parser, the scope stack,
the per-statement aggregator, the memory-access combiner `EnterMem_` and the
flattened serializer `GetInnerStatementFeatureFlatten`.

Conventions of the embedding.

* A `std::string` is the list of its characters; `std::sort` on strings is the
  lexicographic order on such lists.
* A `std::map` / `std::unordered_map` is an association list whose first entry
  for a key is the live one; `m[k]` follows `operator[]` (a missing key is
  created with the default value).
* `int64_t` values are `Int` and their arithmetic is exact: it is that of the
  source as long as every value stays within `int64_t` (signed overflow is
  undefined behaviour in C++).  A statement that rests on such a product or sum
  says so with `fitsInt64` / `extentsFit`.  The one narrowing conversion of the
  source (the `int` accumulator of `std::accumulate`) is modelled with an
  explicit wrap.
* A `const StoreNode*` is `Option Nat` with `none` for `nullptr`.
* Floating values produced by the serializer are kept symbolically
  (`FloatImm`), since only their shape and their integer arguments matter here.
-/

namespace tg

/-! ## Association lists as maps -/

/-- The value stored for `k`, if any (`find`). -/
def mapFind {κ ν : Type} [DecidableEq κ] : List (κ × ν) → κ → Option ν
  | [], _ => none
  | (k', v) :: rest, k => if k' = k then some v else mapFind rest k

/-- The value read through `m[k]`: the stored one, or the default one. -/
def mapAt {κ ν : Type} [DecidableEq κ] (m : List (κ × ν)) (k : κ) (dflt : ν) : ν :=
  (mapFind m k).getD dflt

/-- The map after `m[k] = f (m[k])`, the entry being created from `dflt` when missing. -/
def mapModify {κ ν : Type} [DecidableEq κ] : List (κ × ν) → κ → ν → (ν → ν) → List (κ × ν)
  | [], k, dflt, f => [(k, f dflt)]
  | (k', v) :: rest, k, dflt, f =>
    if k' = k then (k', f v) :: rest else (k', v) :: mapModify rest k dflt f

/-- The map after `m[k] = v`. -/
def mapSet {κ ν : Type} [DecidableEq κ] (m : List (κ × ν)) (k : κ) (v : ν) : List (κ × ν) :=
  mapModify m k v (fun _ => v)

/-- The keys of a map, in iteration order. -/
def mapKeys {κ ν : Type} (m : List (κ × ν)) : List κ := m.map Prod.fst

/-! ## Identities -/

/-- A `std::string` key naming a touched buffer. -/
abbrev TouchedBuffer := List Char

/-- A `tir::Var`: the identity of its node and its `name_hint`. -/
structure Var where
  id : Nat
  name_hint : List Char
deriving DecidableEq, Repr

/-- A `const StoreNode*`; `none` is `nullptr`. -/
abbrev StmtPtr := Option Nat

/-! ## Index expressions and `IndexParser` -/

/-- Binary expression nodes that neither parser nor mutator treats specially. -/
inductive BinOp
  | add | sub | mod | floormod | min | max
deriving DecidableEq, Repr

/-- The index expressions: variables, literals and binary arithmetic.
A `floatImm mant exp` literal has the value `mant * 2 ^ exp`. -/
inductive PrimExpr
  | var (v : Var)
  | intImm (value : Int)
  | floatImm (mant : Int) (exp : Int)
  | mul (a b : PrimExpr)
  | div (a b : PrimExpr)
  | floordiv (a b : PrimExpr)
  | binop (op : BinOp) (a b : PrimExpr)
deriving DecidableEq, Repr

/-- `IndexMutator`: every floor division becomes an ordinary division. -/
def IndexMutator : PrimExpr → PrimExpr
  | .var v => .var v
  | .intImm value => .intImm value
  | .floatImm mant exp => .floatImm mant exp
  | .mul a b => .mul (IndexMutator a) (IndexMutator b)
  | .div a b => .div (IndexMutator a) (IndexMutator b)
  | .floordiv a b => .div (IndexMutator a) (IndexMutator b)
  | .binop op a b => .binop op (IndexMutator a) (IndexMutator b)

/-- Round `n / 2 ^ sh` to the nearest integer, ties to even. -/
def roundHalfEven (n sh : Nat) : Nat :=
  let q := n / 2 ^ sh
  let r := n % 2 ^ sh
  if 2 * r > 2 ^ sh ∨ (2 * r = 2 ^ sh ∧ q % 2 = 1) then q + 1 else q

/-- The `int64_t` read back from the `float` member `next_stride_` after the
value `mant * 2 ^ exp` was stored in it: rounding to a 24-bit significand, then
truncation toward zero.  This is the source's value when the result is within
`int64_t` (`fitsInt64`); beyond it the conversion of the source is undefined. -/
def viaFloat (mant exp : Int) : Int :=
  let a := mant.natAbs
  let l := Nat.log2 a
  let sh := l - 23
  let n := if l ≤ 23 then a else roundHalfEven a sh
  let e := (sh : Int) + exp
  let mag : Nat := if 0 ≤ e then n * 2 ^ e.toNat else n / 2 ^ (-e).toNat
  if mant < 0 then -(mag : Int) else (mag : Int)

/-- The state of an `IndexParser`; `next_stride_` is kept as the integer it
converts to when it is stored in `pattern_map`. -/
structure IndexParser where
  pattern_map : List (Var × Int) := []
  next_stride_ : Int := 1
deriving Repr

/-- The visitor of `IndexParser`: `VisitExpr_(const VarNode*)`,
`VisitExpr_(const MulNode*)`, and the default traversal (left operand, then
right operand) elsewhere. -/
def IndexParser.VisitExpr : IndexParser → PrimExpr → IndexParser
  | p, .var v =>
    if (mapFind p.pattern_map v).isNone then
      { pattern_map := p.pattern_map ++ [(v, p.next_stride_)], next_stride_ := 1 }
    else p
  | p, .intImm _ => p
  | p, .floatImm _ _ => p
  | p, .mul a b =>
    let p1 : IndexParser :=
      match a, b with
      | .var _, .intImm value => { p with next_stride_ := viaFloat value 0 }
      | .var _, .floatImm mant exp => { p with next_stride_ := viaFloat mant exp }
      | _, _ => p
    IndexParser.VisitExpr (IndexParser.VisitExpr p1 a) b
  | p, .div a b => IndexParser.VisitExpr (IndexParser.VisitExpr p a) b
  | p, .floordiv a b => IndexParser.VisitExpr (IndexParser.VisitExpr p a) b
  | p, .binop _ a b => IndexParser.VisitExpr (IndexParser.VisitExpr p a) b

/-- `IndexParser::Parse`; `CanonicalSimplify` is the external simplifier. -/
def IndexParser.Parse (CanonicalSimplify : PrimExpr → PrimExpr) (p : IndexParser)
    (expr : PrimExpr) : IndexParser :=
  IndexParser.VisitExpr { p with pattern_map := [] } (CanonicalSimplify (IndexMutator expr))

/-! ## Feature records -/

/-- The loop annotations; `kOther` stands for the thread/block bindings and the
remaining enumerators, which the extractor never tests for. -/
inductive AnnotationType
  | kVectorized | kUnrolled | kParallel | kOther (tag : Nat)
deriving DecidableEq, Repr

/-- Modelled from the spec: the enumerators of `AccessType` (feature.h is not
among the sources), a bitmask over read and write. -/
def kRead : Nat := 1

/-- Modelled from the spec: the write bit of `AccessType`. -/
def kWrite : Nat := 2

/-- Modelled from the spec: the loop-multiple-read bit of `ReuseType`. -/
def kLoopMultipleRead : Nat := 1

/-- Modelled from the spec: the serial-multiple-read bit of `ReuseType`. -/
def kSerialMultipleRead : Nat := 2

/-- Modelled from the spec: the fields of `BufferAccessFeature` and their
default member initialisers (feature.h is not among the sources); every
counter starts at zero. -/
structure BufferAccessFeature where
  access_type : Nat := 0
  bytes : Int := 0
  unique_bytes : Int := 0
  lines : Int := 0
  unique_lines : Int := 0
  reuse_type : Nat := 0
  reuse_distance : Int := 0
  reuse_counter : Int := 0
  stride : Int := 0
  topdown : Int := 0
deriving DecidableEq, Repr

/-- Modelled from the spec: the fields of `InnermostStatementFeature` and
their defaults (feature.h is not among the sources); counts start at zero and
products at one. -/
structure InnermostStatementFeature where
  order : Nat := 0
  num_outer_loops : Int := 0
  prod_outer_loops : Int := 1
  vectorize_len_imost : Int := 0
  vectorize_len_prod : Int := 1
  vectorize_loop_num : Int := 0
  unroll_len_imost : Int := 0
  unroll_len_prod : Int := 1
  unroll_loop_num : Int := 0
  parallel_len_imost : Int := 0
  parallel_len_prod : Int := 1
  parallel_loop_num : Int := 0
  thread_bind_len : List (AnnotationType × Int) := []
  output_buffer_size : List Int := []
  buffer_access_feature : List (TouchedBuffer × BufferAccessFeature) := []
deriving DecidableEq, Repr

/-- The registered metadata of a buffer: shape, `dtype.bytes()` and scope. -/
structure BufferInfo where
  shape : List Int
  dtype_bytes : Int
  scope : List Char
deriving DecidableEq, Repr

/-- An entry of `itervar_stack_`: variable, `is_attr_stmt`, annotation. -/
abbrev StackItem := Var × Bool × AnnotationType

/-- The mutable members of `TouchExtractor`.  `itervar_stack_` has its top at
the end of the list, as `push_back` builds it. -/
structure TouchExtractor where
  itervar_stack_ : List StackItem := []
  extent : List (Var × Int) := []
  loop_min : List (Var × Int) := []
  current_stmt : StmtPtr := none
  innermost_stmt_counter_ : Nat := 0
  innermost_stmt_map : List (StmtPtr × InnermostStatementFeature) := []
  buffervar_stmt_map : List (Var × List StmtPtr) := []
  buffer_info_ : List (Var × BufferInfo) := []
deriving Repr

/-- An extractor before the traversal: nothing recorded, the buffer registry given. -/
def TouchExtractor.fresh (buffer_info_ : List (Var × BufferInfo)) : TouchExtractor :=
  { buffer_info_ := buffer_info_ }

/-! ## Scope stack and statement aggregator -/

/-- `TouchExtractor::EnterItervar_`. -/
def EnterItervar_ (s : TouchExtractor) (var : Var) (min length : Int) (is_attr_stmt : Bool)
    (ann : AnnotationType) : TouchExtractor :=
  { s with
    itervar_stack_ := s.itervar_stack_ ++ [(var, is_attr_stmt, ann)]
    extent := mapSet s.extent var length
    loop_min := mapSet s.loop_min var min }

/-- `TouchExtractor::ExitItervar_` (on an empty stack `back()` is undefined;
the model leaves the stack empty). -/
def ExitItervar_ (s : TouchExtractor) : TouchExtractor :=
  { s with itervar_stack_ := s.itervar_stack_.dropLast }

/-- One iteration of the loop of `EnterInnermostStmt_` over `itervar_stack_`. -/
def stmtLoopStep (extent : List (Var × Int)) (fea : InnermostStatementFeature)
    (item : StackItem) : InnermostStatementFeature :=
  let length := mapAt extent item.1 0
  let fea := { fea with
    num_outer_loops := fea.num_outer_loops + 1
    prod_outer_loops := fea.prod_outer_loops * length }
  if item.2.1 then
    { fea with thread_bind_len := mapSet fea.thread_bind_len item.2.2 length }
  else if item.2.2 = AnnotationType.kVectorized then
    { fea with
      vectorize_len_imost := length
      vectorize_len_prod := fea.vectorize_len_prod * length
      vectorize_loop_num := fea.vectorize_loop_num + 1 }
  else if item.2.2 = AnnotationType.kUnrolled then
    { fea with
      unroll_len_imost := length
      unroll_len_prod := fea.unroll_len_prod * length
      unroll_loop_num := fea.unroll_loop_num + 1 }
  else if item.2.2 = AnnotationType.kParallel then
    { fea with
      parallel_len_imost := length
      parallel_len_prod := fea.parallel_len_prod * length
      parallel_loop_num := fea.parallel_loop_num + 1 }
  else fea

/-- `TouchExtractor::EnterInnermostStmt_`: the record of the statement is
replaced by a new one carrying the next `order`, then the scope stack is
walked from the outermost scope to the innermost one. -/
def EnterInnermostStmt_ (s : TouchExtractor) (innermost_stmt : Nat) : TouchExtractor :=
  let fea0 : InnermostStatementFeature := { order := s.innermost_stmt_counter_ }
  { s with
    current_stmt := some innermost_stmt
    innermost_stmt_counter_ := s.innermost_stmt_counter_ + 1
    innermost_stmt_map :=
      mapSet s.innermost_stmt_map (some innermost_stmt)
        (s.itervar_stack_.foldl (stmtLoopStep s.extent) fea0) }

/-- `TouchExtractor::ExitInnermostStmt_`. -/
def ExitInnermostStmt_ (s : TouchExtractor) : TouchExtractor :=
  { s with current_stmt := none }

/-! ## Buffer metadata -/

/-- What the registry loop of `EnterMem_` leaves in `buffer_shape`,
`buffer_scope` and `buffer_elem_bytes`. -/
structure ResolvedBuffer where
  buffer_shape : List Int := []
  buffer_scope : List Char := []
  buffer_elem_bytes : Int := -1
deriving DecidableEq, Repr

/-- The position `s.rfind(c)`: the index of the last occurrence; `none` is `npos`. -/
def rfind (s : List Char) (c : Char) : Option Nat :=
  let n := s.reverse.indexOf c
  if n < s.length then some (s.length - 1 - n) else none

/-- The scope taken from an accessed name that is not the registered one:
`s1.substr(s1.rfind(".") + 1, s1.size())`, where `npos + 1` wraps to `0`. -/
def scopeOfName (s1 : List Char) : List Char :=
  match rfind s1 '.' with
  | some i => s1.drop (i + 1)
  | none => s1.drop 0

/-- The registry loop of `EnterMem_`: the first registered buffer, in iteration
order, whose name is a prefix of the accessed name `s1` decides. -/
def resolveBuffer : List (Var × BufferInfo) → List Char → ResolvedBuffer
  | [], _ => {}
  | item :: rest, s1 =>
    if item.1.name_hint.isPrefixOf s1 then
      { buffer_shape := item.2.shape
        buffer_elem_bytes := item.2.dtype_bytes
        buffer_scope := if s1 = item.1.name_hint then item.2.scope else scopeOfName s1 }
    else resolveBuffer rest s1

/-- Conversion of a 64-bit value to `int` (two's complement wrap to 32 bits). -/
def wrapInt32 (x : Int) : Int := (x + 2147483648) % 4294967296 - 2147483648

/-- The element count
`std::accumulate(shape.begin(), shape.end(), 1, std::multiplies<int64_t>())`:
the accumulator has the type of the initial value `1`, an `int`. -/
def bufferNelems (buffer_shape : List Int) : Int :=
  buffer_shape.foldl (fun acc d => wrapInt32 (acc * d)) 1

/-! ## Memory-access combiner -/

/-- The record `innermost_stmt_map[stmt].buffer_access_feature[buf]` as read. -/
def featureAt (m : List (StmtPtr × InnermostStatementFeature)) (stmt : StmtPtr)
    (buf : TouchedBuffer) : BufferAccessFeature :=
  mapAt (mapAt m stmt {}).buffer_access_feature buf {}

/-- An update through the reference
`innermost_stmt_map[stmt].buffer_access_feature[buf]`. -/
def modifyFeature (m : List (StmtPtr × InnermostStatementFeature)) (stmt : StmtPtr)
    (buf : TouchedBuffer) (f : BufferAccessFeature → BufferAccessFeature) :
    List (StmtPtr × InnermostStatementFeature) :=
  mapModify m stmt {} (fun fea =>
    { fea with buffer_access_feature := mapModify fea.buffer_access_feature buf {} f })

/-- Insertion into a `std::set`: nothing happens when the element is there. -/
def setInsert (set : List StmtPtr) (x : StmtPtr) : List StmtPtr :=
  if x ∈ set then set else set ++ [x]

/-- The update `rt = ReuseType(rt | ReuseType::kSerialMultipleRead)` of the
serial-reuse loop of `EnterMem_`. -/
def markSerial (v : BufferAccessFeature) : BufferAccessFeature :=
  { v with reuse_type := v.reuse_type ||| kSerialMultipleRead }

/-- The locals of the first scope loop of `EnterMem_`, with the two members of
the record (`stride`, `reuse_type`) that the loop writes through references. -/
structure MemLoop where
  loop_reuse_tag : Bool := false
  bytes : Int
  reuse_counter : Int := 1
  topdown : Int := 1
  stride : Int
  reuse_type : Nat
deriving DecidableEq, Repr

/-- One iteration of the first scope loop of `EnterMem_`.  The `int64_t`
locals `bytes`, `topdown` and `reuse_counter` are multiplied exactly; this is
the source's value while the products stay within `int64_t` (`extentsFit`). -/
def memLoopStep (pattern_map : List (Var × Int)) (extent : List (Var × Int)) (st : MemLoop)
    (item : StackItem) : MemLoop :=
  let length := mapAt extent item.1 0
  let st := { st with
    bytes := st.bytes * length
    topdown := if item.2.1 then st.topdown else st.topdown * length }
  let st :=
    match mapFind pattern_map item.1 with
    | some x => { st with stride := if st.stride = 0 then x else min st.stride x }
    | none => { st with loop_reuse_tag := true, reuse_counter := st.reuse_counter * length }
  if st.loop_reuse_tag then { st with reuse_type := st.reuse_type ||| kLoopMultipleRead } else st

/-- The loop computing `bottomup` in `EnterMem_`, over the stack from the
innermost scope outward: it multiplies while the variable is found in
`pattern_map` and breaks at the first one that is not.  The product is exact;
it is the source's `int64_t` value while it stays within `int64_t`
(`extentsFit`). -/
def bottomupLoop (pattern_map : List (Var × Int)) (extent : List (Var × Int)) :
    List StackItem → Int → Int
  | [], bottomup => bottomup
  | item :: rest, bottomup =>
    if (mapFind pattern_map item.1).isSome then
      bottomupLoop pattern_map extent rest (bottomup * mapAt extent item.1 0)
    else bottomup

/-- `TouchExtractor::EnterMem_`.  The `int64_t` products and sums (`topdown2`,
`unique_bytes`, the updates of `bytes`, `reuse_counter` and `lines`) are exact;
they are the source's values while they stay within `int64_t`. -/
def EnterMem_ (CanonicalSimplify : PrimExpr → PrimExpr) (s : TouchExtractor) (buffer_var : Var)
    (index : PrimExpr) (access_type : Nat) : TouchExtractor :=
  let buf : TouchedBuffer := buffer_var.name_hint
  let cur := s.current_stmt
  let rb := resolveBuffer s.buffer_info_ buffer_var.name_hint
  let m1 := mapModify s.innermost_stmt_map cur {} (fun fea =>
    if access_type ||| kWrite ≠ 0 then { fea with output_buffer_size := rb.buffer_shape }
    else fea)
  let buffer_nelems := bufferNelems rb.buffer_shape
  let parser := IndexParser.Parse CanonicalSimplify {} index
  let m2 := modifyFeature m1 cur buf (fun v =>
    { v with access_type := v.access_type ||| access_type })
  let appearances := setInsert (mapAt s.buffervar_stmt_map buffer_var []) cur
  let serial_reuse_tag : Bool := decide (appearances.length > 1)
  let v0 := featureAt m2 cur buf
  let lp := s.itervar_stack_.foldl (memLoopStep parser.pattern_map s.extent)
    { bytes := rb.buffer_elem_bytes, stride := v0.stride, reuse_type := v0.reuse_type }
  let unique_bytes := buffer_nelems * rb.buffer_elem_bytes
  let m3 := modifyFeature m2 cur buf (fun v =>
    { v with
      stride := lp.stride
      reuse_type := lp.reuse_type
      bytes := v.bytes + lp.bytes
      unique_bytes := unique_bytes
      reuse_counter := v.reuse_counter + lp.reuse_counter
      topdown := lp.topdown })
  let m4 :=
    if serial_reuse_tag then
      appearances.foldl (fun m stmt => modifyFeature m stmt buf markSerial) m3
    else m3
  let topdown2 := s.itervar_stack_.foldl (fun acc item => acc * mapAt s.extent item.1 0) (1 : Int)
  let m5 :=
    if rb.buffer_scope = "global".toList then
      modifyFeature m4 cur buf (fun v =>
        { v with
          lines := v.lines + topdown2
          unique_lines := Int.tdiv (buffer_nelems * rb.buffer_elem_bytes) 128 })
    else m4
  let m6 :=
    if lp.loop_reuse_tag then
      modifyFeature m5 cur buf (fun v =>
        { v with
          reuse_distance := bottomupLoop parser.pattern_map s.extent s.itervar_stack_.reverse 1 })
    else m5
  { s with
    innermost_stmt_map := m6
    buffervar_stmt_map := mapSet s.buffervar_stmt_map buffer_var appearances }

/-! ## Traversals -/

/-- The calls a traversal makes on the extractor. -/
inductive Call
  | enterItervar (var : Var) (min length : Int) (is_attr_stmt : Bool) (ann : AnnotationType)
  | exitItervar
  | enterInnermostStmt (innermost_stmt : Nat)
  | exitInnermostStmt
  | enterMem (buffer_var : Var) (index : PrimExpr) (access_type : Nat)
deriving DecidableEq, Repr

/-- The extractor after one call. -/
def step (CanonicalSimplify : PrimExpr → PrimExpr) (s : TouchExtractor) : Call → TouchExtractor
  | .enterItervar var min length is_attr_stmt ann => EnterItervar_ s var min length is_attr_stmt ann
  | .exitItervar => ExitItervar_ s
  | .enterInnermostStmt innermost_stmt => EnterInnermostStmt_ s innermost_stmt
  | .exitInnermostStmt => ExitInnermostStmt_ s
  | .enterMem buffer_var index access_type =>
    EnterMem_ CanonicalSimplify s buffer_var index access_type

/-- The extractor after a sequence of calls. -/
def run (CanonicalSimplify : PrimExpr → PrimExpr) (s : TouchExtractor) (calls : List Call) :
    TouchExtractor :=
  calls.foldl (step CanonicalSimplify) s

/-! ## Serializer -/

/-- A floating value built by the serializer, kept symbolically. -/
inductive FloatImm
  | ofInt (x : Int)
  | log2 (x : Int)
  | negLog2 (x : Int)
deriving DecidableEq, Repr

/-- The lambda `trans`: with `take_log`, `-log(-x+1)/log(2)` for negative `x`
and `log(x+1)/log(2)` otherwise; without it, `x` itself. -/
def trans (take_log : Bool) (x : Int) : FloatImm :=
  if take_log then
    if x < 0 then FloatImm.negLog2 (-x + 1) else FloatImm.log2 (x + 1)
  else FloatImm.ofInt x

/-- The value of `FloatImm(DataType::Float(32), b)` for a comparison result `b`. -/
def flagImm (b : Bool) : FloatImm := FloatImm.ofInt (if b then 1 else 0)

/-- The 16 values pushed for one buffer by `GetInnerStatementFeatureFlatten`. -/
def featureBlock (take_log : Bool) (v : BufferAccessFeature) : List FloatImm :=
  (List.range 4).map (fun j => flagImm (decide (j = v.access_type)))
    ++ [trans take_log v.bytes, trans take_log v.unique_bytes, trans take_log v.lines,
        trans take_log v.unique_lines]
    ++ (List.range 4).map (fun j => flagImm (decide (j = v.reuse_type)))
    ++ [trans take_log v.reuse_distance, trans take_log v.reuse_counter,
        trans take_log v.stride, trans take_log v.topdown]

/-- The vector `bufs` of a statement record: its buffer keys after `std::sort`. -/
def sortedBufs (fea : InnermostStatementFeature) : List TouchedBuffer :=
  (mapKeys fea.buffer_access_feature).insertionSort (fun a b => a ≤ b)

/-- The body of the serializing loop of `GetInnerStatementFeatureFlatten`:
the row `feature_vec` of one statement record. -/
def flattenRow (take_log : Bool) (fea : InnermostStatementFeature) : List FloatImm :=
  let bufs := sortedBufs fea
  (bufs.take (min bufs.length 5)).flatMap (fun k =>
      featureBlock take_log (mapAt fea.buffer_access_feature k {}))
    ++ (List.range (5 - bufs.length)).flatMap (fun _ =>
      (List.range 16).map (fun _ => FloatImm.ofInt 0))

/-- The vector `innermost_stmts`: the statements of the result map sorted by
`order`.  Records of equal order keep their map order here; `std::sort` leaves
their relative order unspecified. -/
def sortedStmts (touch_analyzer : TouchExtractor) : List StmtPtr :=
  (mapKeys touch_analyzer.innermost_stmt_map).insertionSort (fun lhs rhs =>
    (mapAt touch_analyzer.innermost_stmt_map lhs {}).order
      ≤ (mapAt touch_analyzer.innermost_stmt_map rhs {}).order)

/-- `GetInnerStatementFeatureFlatten`, from the extractor left by `Analyze`. -/
def GetInnerStatementFeatureFlatten (touch_analyzer : TouchExtractor) (take_log : Bool) :
    List (List FloatImm) :=
  (sortedStmts touch_analyzer).map (fun stmt =>
    flattenRow take_log (mapAt touch_analyzer.innermost_stmt_map stmt {}))

/-! ## Vocabulary of the statements proved below -/

/-- The extent the extractor holds for the variable of a stack entry. -/
def extentOf (extent : List (Var × Int)) (item : StackItem) : Int := mapAt extent item.1 0

/-- Whether the variable of a stack entry occurs in a parsed stride map. -/
def isPresent (pattern_map : List (Var × Int)) (item : StackItem) : Bool :=
  (mapFind pattern_map item.1).isSome

/-- The product of the extents of the given stack entries. -/
def prodExtents (extent : List (Var × Int)) (items : List StackItem) : Int :=
  (items.map (extentOf extent)).prod

/-- The stride map `EnterMem_` parses from an index. -/
def parsedMap (CanonicalSimplify : PrimExpr → PrimExpr) (index : PrimExpr) : List (Var × Int) :=
  (IndexParser.Parse CanonicalSimplify {} index).pattern_map

/-- Whether a reuse-type value carries the serial-multiple-read bit. -/
def hasSerialFlag (reuse_type : Nat) : Bool := reuse_type &&& kSerialMultipleRead != 0

/-- Whether a reuse-type value carries the loop-multiple-read bit. -/
def hasLoopFlag (reuse_type : Nat) : Bool := reuse_type &&& kLoopMultipleRead != 0

/-- One call together with the log of accesses: an `EnterMem_` call is logged
with the statement that is current when it is made. -/
def logStep (CanonicalSimplify : PrimExpr → PrimExpr)
    (sl : TouchExtractor × List (StmtPtr × Var)) (c : Call) :
    TouchExtractor × List (StmtPtr × Var) :=
  (step CanonicalSimplify sl.1 c,
    match c with
    | .enterMem buffer_var _ _ => sl.2 ++ [(sl.1.current_stmt, buffer_var)]
    | _ => sl.2)

/-- The accesses made by a sequence of calls started in `s`: for each
`EnterMem_` call, the current statement and the buffer variable. -/
def accessLog (CanonicalSimplify : PrimExpr → PrimExpr) (s : TouchExtractor)
    (calls : List Call) : List (StmtPtr × Var) :=
  (calls.foldl (logStep CanonicalSimplify) (s, [])).2

/-- The record that `EnterMem_` leaves for the current statement and the
accessed buffer, written out field by field from the record it finds. -/
def recordAfterMem (CanonicalSimplify : PrimExpr → PrimExpr) (s : TouchExtractor)
    (buffer_var : Var) (index : PrimExpr) (access_type : Nat) : BufferAccessFeature :=
  let v := featureAt s.innermost_stmt_map s.current_stmt buffer_var.name_hint
  let rb := resolveBuffer s.buffer_info_ buffer_var.name_hint
  let pm := parsedMap CanonicalSimplify index
  let lp := s.itervar_stack_.foldl (memLoopStep pm s.extent)
    { bytes := rb.buffer_elem_bytes, stride := v.stride, reuse_type := v.reuse_type }
  let serial : Bool :=
    decide ((setInsert (mapAt s.buffervar_stmt_map buffer_var []) s.current_stmt).length > 1)
  let global : Bool := decide (rb.buffer_scope = "global".toList)
  { access_type := v.access_type ||| access_type
    bytes := v.bytes + lp.bytes
    unique_bytes := bufferNelems rb.buffer_shape * rb.buffer_elem_bytes
    lines := if global then v.lines + prodExtents s.extent s.itervar_stack_ else v.lines
    unique_lines :=
      if global then Int.tdiv (bufferNelems rb.buffer_shape * rb.buffer_elem_bytes) 128
      else v.unique_lines
    reuse_type := if serial then lp.reuse_type ||| kSerialMultipleRead else lp.reuse_type
    reuse_distance :=
      if lp.loop_reuse_tag then bottomupLoop pm s.extent s.itervar_stack_.reverse 1
      else v.reuse_distance
    reuse_counter := v.reuse_counter + lp.reuse_counter
    stride := lp.stride
    topdown := lp.topdown }

/-- The extractor after `EnterInnermostStmt_` was called on each of the given
store nodes in turn. -/
def enterAll (s : TouchExtractor) (stmts : List Nat) : TouchExtractor :=
  stmts.foldl EnterInnermostStmt_ s

/-- The `order` values assigned by successive `EnterInnermostStmt_` calls, each
read in the record right after the call that creates it. -/
def assignedOrders (s : TouchExtractor) : List Nat → List Nat
  | [] => []
  | stmt :: rest =>
    (mapAt (EnterInnermostStmt_ s stmt).innermost_stmt_map (some stmt) {}).order
      :: assignedOrders (EnterInnermostStmt_ s stmt) rest

/-- The `order` values of the statements in output order. -/
def outputOrders (touch_analyzer : TouchExtractor) : List Nat :=
  (sortedStmts touch_analyzer).map (fun stmt =>
    (mapAt touch_analyzer.innermost_stmt_map stmt {}).order)

/-- What a traversal keeps true between the extractor and the log of its
accesses: the cross-statement index holds exactly the logged accesses, without
repetition, and a record carries the serial-multiple-read bit only if some
buffer variable of that name was accessed by its statement and by another one. -/
structure TraceInv (s : TouchExtractor) (log : List (StmtPtr × Var)) : Prop where
  log_sub : ∀ st v, (st, v) ∈ log → st ∈ mapAt s.buffervar_stmt_map v []
  sub_log : ∀ st v, st ∈ mapAt s.buffervar_stmt_map v [] → (st, v) ∈ log
  nodup : ∀ v, (mapAt s.buffervar_stmt_map v []).Nodup
  flagged : ∀ st name, hasSerialFlag (featureAt s.innermost_stmt_map st name).reuse_type = true →
    ∃ v st', v.name_hint = name ∧ (st, v) ∈ log ∧ (st', v) ∈ log ∧ st' ≠ st

/-! ## Concrete scenarios -/

/-- A loop variable `i`. -/
def exI : Var := ⟨0, "i".toList⟩

/-- A loop variable `j`. -/
def exJ : Var := ⟨1, "j".toList⟩

/-- A buffer variable `B`. -/
def exB : Var := ⟨2, "B".toList⟩

/-- A registry holding `B`: 32 elements of 4 bytes in global scope. -/
def exRegistry : List (Var × BufferInfo) := [(exB, ⟨[32], 4, "global".toList⟩)]

/-- The scenario of two nested ordinary loops, `i` of extent 4 around `j` of
extent 8, with statement `0` entered and nothing accessed yet. -/
def exNest (CanonicalSimplify : PrimExpr → PrimExpr) : TouchExtractor :=
  run CanonicalSimplify (TouchExtractor.fresh exRegistry)
    [.enterItervar exI 0 4 false (.kOther 0), .enterItervar exJ 0 8 false (.kOther 0),
     .enterInnermostStmt 0]

/-- One loop `i` of extent 4 with statement `0` entered, no buffer registered. -/
def exLoop : TouchExtractor :=
  run id (TouchExtractor.fresh [])
    [.enterItervar exI 0 4 false (.kOther 0), .enterInnermostStmt 0]

/-- A statement record touching seven buffers, with distinguishable records. -/
def exSeven : InnermostStatementFeature :=
  { buffer_access_feature :=
      [("g".toList, { bytes := 7 }), ("c".toList, { bytes := 3 }), ("a".toList, { bytes := 1 }),
       ("f".toList, { bytes := 6 }), ("b".toList, { bytes := 2 }), ("e".toList, { bytes := 5 }),
       ("d".toList, { bytes := 4 })] }

/-- A traversal in which statement `0` reads buffer `B` and statement `1` is then entered. -/
def exTwoStmts : List Call :=
  [.enterInnermostStmt 0, .enterMem exB (.intImm 0) kRead, .exitInnermostStmt,
   .enterInnermostStmt 1]

/-- A traversal in which statement `0` alone writes and then reads buffer `B`. -/
def exOneStmt : List Call :=
  [.enterInnermostStmt 0, .enterMem exB (.intImm 0) kWrite, .enterMem exB (.intImm 1) kRead,
   .exitInnermostStmt]

/-- A buffer variable `A`. -/
def exA : Var := ⟨3, "A".toList⟩

/-- A buffer variable `A.shared`, whose name extends that of `A`. -/
def exAShared : Var := ⟨4, "A.shared".toList⟩

/-- A registry that lists `A` before `A.shared`. -/
def exShortFirst : List (Var × BufferInfo) :=
  [(exA, ⟨[16], 4, "global".toList⟩), (exAShared, ⟨[8], 2, "shared".toList⟩)]

/-- The same registry iterated in the other order. -/
def exLongFirst : List (Var × BufferInfo) :=
  [(exAShared, ⟨[8], 2, "shared".toList⟩), (exA, ⟨[16], 4, "global".toList⟩)]

/-- A registry holding the output `B` (32 elements) and an input `A` (16 elements). -/
def exInOut : List (Var × BufferInfo) :=
  [(exB, ⟨[32], 4, "global".toList⟩), (exA, ⟨[16], 4, "global".toList⟩)]

/-- A thread-binding (attribute) scope `i` of extent 4 around an ordinary loop
`j` of extent 8, with statement `0` entered. -/
def exAttrNest : TouchExtractor :=
  run id (TouchExtractor.fresh exRegistry)
    [.enterItervar exI 0 4 true (.kOther 3), .enterItervar exJ 0 8 false (.kOther 0),
     .enterInnermostStmt 0]

/-- A registry holding `B` with shape 65536 x 65536 (2^32 elements) of 4 bytes, global. -/
def exBig : List (Var × BufferInfo) := [(exB, ⟨[65536, 65536], 4, "global".toList⟩)]

/-- Statement `0` entered on a fresh extractor with the registry `exBig`. -/
def exBigStmt : TouchExtractor :=
  run id (TouchExtractor.fresh exBig) [.enterInnermostStmt 0]

/-- The extractor after a sequence of accesses to one buffer variable, each
given by its index and access type, with no other call in between. -/
def accessAll (CanonicalSimplify : PrimExpr → PrimExpr) (s : TouchExtractor) (buffer_var : Var)
    (accesses : List (PrimExpr × Nat)) : TouchExtractor :=
  accesses.foldl (fun t a => EnterMem_ CanonicalSimplify t buffer_var a.1 a.2) s

/-- The non-attribute scopes of a stack that carry the annotation `ann`. -/
def loopsWith (ann : AnnotationType) (items : List StackItem) : List StackItem :=
  items.filter (fun item => !item.2.1 && decide (item.2.2 = ann))

/-- The extent of the last of the given stack entries, or `dflt` when there is none. -/
def lastExtent (extent : List (Var × Int)) (items : List StackItem) (dflt : Int) : Int :=
  match items.getLast? with
  | some item => extentOf extent item
  | none => dflt

/-- The thread-binding map written by the attribute scopes of a stack, in
stack order, starting from `m`. -/
def threadBinds (extent : List (Var × Int)) (items : List StackItem)
    (m : List (AnnotationType × Int)) : List (AnnotationType × Int) :=
  (items.filter (fun item => item.2.1)).foldl
    (fun m item => mapSet m item.2.2 (extentOf extent item)) m

/-- A scope stack mixing a thread binding, two vectorized loops, one unrolled
loop and one loop without annotation, with the extents 2, 3, 5, 7, 11. -/
def exMixed : TouchExtractor :=
  run id (TouchExtractor.fresh [])
    [.enterItervar ⟨10, "t".toList⟩ 0 2 true (.kOther 3),
     .enterItervar ⟨11, "a".toList⟩ 0 3 false .kVectorized,
     .enterItervar ⟨12, "b".toList⟩ 0 5 false .kUnrolled,
     .enterItervar ⟨13, "c".toList⟩ 0 7 false .kVectorized,
     .enterItervar ⟨14, "d".toList⟩ 0 11 false (.kOther 9)]

/-- The variable occurrences of an expression, in the order in which the
visitor of `IndexParser` meets them. -/
def exprVars : PrimExpr → List Var
  | .var v => [v]
  | .intImm _ => []
  | .floatImm _ _ => []
  | .mul a b => exprVars a ++ exprVars b
  | .div a b => exprVars a ++ exprVars b
  | .floordiv a b => exprVars a ++ exprVars b
  | .binop _ a b => exprVars a ++ exprVars b

/-- The stride that goes with each variable occurrence of an expression: the
literal of a product `var * c` for its left operand, as read back from the
`float` member, and 1 for any other occurrence. -/
def occurrenceStrides : PrimExpr → List (Var × Int)
  | .var v => [(v, 1)]
  | .intImm _ => []
  | .floatImm _ _ => []
  | .mul a b =>
    match a, b with
    | .var v, .intImm value => [(v, viaFloat value 0)]
    | .var v, .floatImm mant exp => [(v, viaFloat mant exp)]
    | _, _ => occurrenceStrides a ++ occurrenceStrides b
  | .div a b => occurrenceStrides a ++ occurrenceStrides b
  | .floordiv a b => occurrenceStrides a ++ occurrenceStrides b
  | .binop _ a b => occurrenceStrides a ++ occurrenceStrides b

/-- The index `min(i, 7) + i * 4 + j`: the second occurrence of `i` is the left
operand of a product, and `j` comes after it. -/
def exRepeated : PrimExpr :=
  .binop .add (.binop .add (.binop .min (.var exI) (.intImm 7)) (.mul (.var exI) (.intImm 4)))
    (.var exJ)

/-- The index `i * 16777217`, whose literal is `2 ^ 24 + 1`. -/
def exWide : PrimExpr := .mul (.var exI) (.intImm 16777217)

/-- The index `i * 4 + j`. -/
def exLinear : PrimExpr := .binop .add (.mul (.var exI) (.intImm 4)) (.var exJ)

/-- Modelled from the spec: the enum `AccessType` has the four values 0..3
(none, read, write, read-write), so the `access_type` argument of an
`EnterMem_` call is one of them; the other calls carry no such argument. -/
def wellTyped : Call → Bool
  | .enterMem _ _ access_type => decide (access_type ≤ 3)
  | _ => true

/-- The 16 values at block position `i` of a flattened row. -/
def blockAt (row : List FloatImm) (i : Nat) : List FloatImm := (row.drop (16 * i)).take 16

/-- The four access-type slots of a 16-value block. -/
def accessSlots (block : List FloatImm) : List FloatImm := block.take 4

/-- The four reuse-type slots of a 16-value block. -/
def reuseSlots (block : List FloatImm) : List FloatImm := (block.drop 8).take 4

/-- Exactly one of the slots is 1 and each of the others is 0. -/
def oneHot (slots : List FloatImm) : Bool :=
  decide (slots.count (FloatImm.ofInt 1) = 1
    ∧ slots.count (FloatImm.ofInt 0) + 1 = slots.length)

/-- A traversal under a loop `i` of extent 4 in which statement `0` writes and
reads `B` at a constant index and statement `1` then reads `B`. -/
def exBoth : List Call :=
  [.enterItervar exI 0 4 false (.kOther 0),
   .enterInnermostStmt 0, .enterMem exB (.intImm 0) kWrite, .enterMem exB (.intImm 0) kRead,
   .exitInnermostStmt,
   .enterInnermostStmt 1, .enterMem exB (.intImm 0) kRead, .exitInnermostStmt,
   .exitItervar]

/-- Whether an integer is a value of `int64_t`. -/
def fitsInt64 (x : Int) : Bool :=
  decide (-9223372036854775808 ≤ x ∧ x ≤ 9223372036854775807)

/-- Whether an `int64_t` variable that starts at `init` and is multiplied in
turn by each of `xs` is representable all along: the factors and every
intermediate product are values of `int64_t`, so no multiplication overflows. -/
def productsFit (init : Int) (xs : List Int) : Bool :=
  xs.all fitsInt64 && (List.scanl (fun acc x => acc * x) init xs).all fitsInt64

/-- Whether the product of the extents of the given stack entries, built up
from `init` one scope at a time as the loops of `EnterMem_` do, stays within
`int64_t` at every step. -/
def extentsFit (extent : List (Var × Int)) (init : Int) (items : List StackItem) : Bool :=
  productsFit init (items.map (extentOf extent))

/-- The stride that a product `a * b` leaves pending in `next_stride_`: the
literal `b` as read back from the `float` member, when `a` is a variable. -/
def pendingOf (a b : PrimExpr) : List Int :=
  match a, b with
  | .var _, .intImm value => [viaFloat value 0]
  | .var _, .floatImm mant exp => [viaFloat mant exp]
  | _, _ => []

/-- The strides that the products `var * literal` of an expression leave
pending during the traversal. -/
def literalStrides : PrimExpr → List Int
  | .var _ => []
  | .intImm _ => []
  | .floatImm _ _ => []
  | .mul a b => pendingOf a b ++ (literalStrides a ++ literalStrides b)
  | .div a b => literalStrides a ++ literalStrides b
  | .floordiv a b => literalStrides a ++ literalStrides b
  | .binop _ a b => literalStrides a ++ literalStrides b

/-- A traversal in which `B` is read outside any store statement, and then
statement `0` writes `B`. -/
def exOutside : List Call :=
  [.enterMem exB (.intImm 0) kRead, .enterInnermostStmt 0, .enterMem exB (.intImm 0) kWrite]

/-- A second buffer variable whose name is `B`. -/
def exB2 : Var := ⟨7, "B".toList⟩

/-- A traversal in which statement `0` accesses the two variables named `B`
and statement `1` accesses the first of them only. -/
def exSameName : List Call :=
  [.enterInnermostStmt 0, .enterMem exB2 (.intImm 0) kRead, .enterMem exB (.intImm 0) kWrite,
   .exitInnermostStmt,
   .enterInnermostStmt 1, .enterMem exB (.intImm 0) kRead, .exitInnermostStmt]

/-- A buffer variable `conv`. -/
def exConv : Var := ⟨5, "conv".toList⟩

/-- A buffer variable `conv.out`, whose name extends that of `conv`. -/
def exConvOut : Var := ⟨6, "conv.out".toList⟩

/-- A registry that lists `conv` before `conv.out`, both of them global. -/
def exConvFirst : List (Var × BufferInfo) :=
  [(exConv, ⟨[16], 4, "global".toList⟩), (exConvOut, ⟨[8], 4, "global".toList⟩)]

/-- The same registry with `conv.out` listed first. -/
def exConvOutFirst : List (Var × BufferInfo) :=
  [(exConvOut, ⟨[8], 4, "global".toList⟩), (exConv, ⟨[16], 4, "global".toList⟩)]

/-! ## Lemmas on maps -/

theorem mapFind_mapModify_same {κ ν : Type} [DecidableEq κ] (m : List (κ × ν)) (k : κ) (d : ν)
    (f : ν → ν) : mapFind (mapModify m k d f) k = some (f (mapAt m k d)) := by
  induction m with
  | nil => simp [mapModify, mapFind, mapAt]
  | cons p rest ih =>
    obtain ⟨k', v⟩ := p
    by_cases h : k' = k
    · simp [mapModify, mapFind, mapAt, h]
    · simp [mapModify, mapFind, mapAt, h]
      simpa [mapAt] using ih

theorem mapFind_mapModify_other {κ ν : Type} [DecidableEq κ] (m : List (κ × ν)) (k k' : κ) (d : ν)
    (f : ν → ν) (h : k' ≠ k) : mapFind (mapModify m k d f) k' = mapFind m k' := by
  induction m with
  | nil => simp [mapModify, mapFind, Ne.symm h]
  | cons p rest ih =>
    obtain ⟨k0, v⟩ := p
    by_cases h0 : k0 = k
    · subst h0
      simp [mapModify, mapFind, Ne.symm h]
    · by_cases h1 : k0 = k'
      · subst h1
        simp [mapModify, mapFind, h0]
      · simp [mapModify, mapFind, h0, h1, ih]

theorem mapAt_mapModify_same {κ ν : Type} [DecidableEq κ] (m : List (κ × ν)) (k : κ) (d d' : ν)
    (f : ν → ν) : mapAt (mapModify m k d f) k d' = f (mapAt m k d) := by
  simp [mapAt, mapFind_mapModify_same]

theorem mapAt_mapModify_other {κ ν : Type} [DecidableEq κ] (m : List (κ × ν)) (k k' : κ)
    (d d' : ν) (f : ν → ν) (h : k' ≠ k) : mapAt (mapModify m k d f) k' d' = mapAt m k' d' := by
  simp [mapAt, mapFind_mapModify_other _ _ _ _ _ h]

theorem featureAt_modifyFeature_same (m : List (StmtPtr × InnermostStatementFeature))
    (stmt : StmtPtr) (buf : TouchedBuffer) (f : BufferAccessFeature → BufferAccessFeature) :
    featureAt (modifyFeature m stmt buf f) stmt buf = f (featureAt m stmt buf) := by
  simp [featureAt, modifyFeature, mapAt_mapModify_same]

theorem featureAt_modifyFeature_other (m : List (StmtPtr × InnermostStatementFeature))
    (stmt stmt' : StmtPtr) (buf buf' : TouchedBuffer)
    (f : BufferAccessFeature → BufferAccessFeature) (h : stmt' ≠ stmt ∨ buf' ≠ buf) :
    featureAt (modifyFeature m stmt buf f) stmt' buf' = featureAt m stmt' buf' := by
  by_cases hs : stmt' = stmt
  · subst hs
    have hb : buf' ≠ buf := by
      rcases h with h | h
      · exact absurd rfl h
      · exact h
    simp [featureAt, modifyFeature, mapAt_mapModify_same, mapAt_mapModify_other _ _ _ _ _ _ hb]
  · simp [featureAt, modifyFeature, mapAt_mapModify_other _ _ _ _ _ _ hs]

/-- An update of a statement record that keeps its buffer map leaves every buffer record as read. -/
theorem featureAt_mapModify_keep (m : List (StmtPtr × InnermostStatementFeature))
    (stmt stmt' : StmtPtr) (buf : TouchedBuffer)
    (g : InnermostStatementFeature → InnermostStatementFeature)
    (hg : ∀ fea, (g fea).buffer_access_feature = fea.buffer_access_feature) :
    featureAt (mapModify m stmt {} g) stmt' buf = featureAt m stmt' buf := by
  by_cases hs : stmt' = stmt
  · subst hs
    simp [featureAt, mapAt_mapModify_same, hg]
  · simp [featureAt, mapAt_mapModify_other _ _ _ _ _ _ hs]

theorem markSerial_idem (v : BufferAccessFeature) : markSerial (markSerial v) = markSerial v := by
  simp [markSerial, Nat.lor_assoc]

/-- The serial-reuse loop marks exactly the records of `buf` in the listed statements. -/
theorem featureAt_serialLoop (appearances : List StmtPtr) (buf : TouchedBuffer)
    (m : List (StmtPtr × InnermostStatementFeature)) (stmt : StmtPtr) (b : TouchedBuffer) :
    featureAt (appearances.foldl (fun m stmt => modifyFeature m stmt buf markSerial) m) stmt b
      = if b = buf ∧ stmt ∈ appearances then markSerial (featureAt m stmt b)
        else featureAt m stmt b := by
  induction appearances generalizing m with
  | nil => simp
  | cons a rest ih =>
    rw [List.foldl_cons, ih]
    by_cases hb : b = buf
    · subst hb
      by_cases ha : stmt = a
      · subst ha
        simp [featureAt_modifyFeature_same, markSerial_idem]
      · have hne : stmt ≠ a ∨ b ≠ b := Or.inl ha
        simp [featureAt_modifyFeature_other _ _ _ _ _ _ hne, ha]
    · have hne : stmt ≠ a ∨ b ≠ buf := Or.inr hb
      simp [featureAt_modifyFeature_other _ _ _ _ _ _ hne, hb]

theorem foldl_topdown2 (extent : List (Var × Int)) (items : List StackItem) (acc : Int) :
    items.foldl (fun acc item => acc * mapAt extent item.1 0) acc
      = acc * prodExtents extent items := by
  induction items generalizing acc with
  | nil => simp [prodExtents]
  | cons a rest ih =>
    rw [List.foldl_cons, ih]
    simp [prodExtents, extentOf, mul_assoc]

theorem mem_setInsert_self (set : List StmtPtr) (x : StmtPtr) : x ∈ setInsert set x := by
  unfold setInsert
  split_ifs with h
  · exact h
  · simp

theorem mem_setInsert_of_mem (set : List StmtPtr) (x y : StmtPtr) (h : y ∈ set) :
    y ∈ setInsert set x := by
  unfold setInsert
  split_ifs
  · exact h
  · simp [h]

/-- The record of the current statement and the accessed buffer after `EnterMem_`. -/
theorem featureAt_EnterMem_ (CanonicalSimplify : PrimExpr → PrimExpr) (s : TouchExtractor)
    (buffer_var : Var) (index : PrimExpr) (access_type : Nat) :
    featureAt (EnterMem_ CanonicalSimplify s buffer_var index access_type).innermost_stmt_map
        s.current_stmt buffer_var.name_hint
      = recordAfterMem CanonicalSimplify s buffer_var index access_type := by
  have hself := mem_setInsert_self (mapAt s.buffervar_stmt_map buffer_var []) s.current_stmt
  have hkeep : ∀ fea : InnermostStatementFeature,
      (if access_type ||| kWrite ≠ 0 then
          { fea with output_buffer_size := (resolveBuffer s.buffer_info_ buffer_var.name_hint).buffer_shape }
        else fea).buffer_access_feature = fea.buffer_access_feature := by
    intro fea
    split_ifs <;> rfl
  simp only [EnterMem_, recordAfterMem, parsedMap]
  split_ifs <;>
    simp_all [featureAt_modifyFeature_same, featureAt_serialLoop, featureAt_mapModify_keep,
      foldl_topdown2, markSerial]

/-! ## Lemmas on the scope loops of `EnterMem_` -/

theorem memLoopStep_present (pm extent : List (Var × Int)) (st : MemLoop) (item : StackItem)
    (x : Int) (h : mapFind pm item.1 = some x) :
    memLoopStep pm extent st item =
      { loop_reuse_tag := st.loop_reuse_tag
        bytes := st.bytes * extentOf extent item
        reuse_counter := st.reuse_counter
        topdown := if item.2.1 then st.topdown else st.topdown * extentOf extent item
        stride := if st.stride = 0 then x else min st.stride x
        reuse_type := if st.loop_reuse_tag then st.reuse_type ||| kLoopMultipleRead
          else st.reuse_type } := by
  simp only [memLoopStep, h, extentOf]
  split_ifs <;> rfl

theorem memLoopStep_absent (pm extent : List (Var × Int)) (st : MemLoop) (item : StackItem)
    (h : mapFind pm item.1 = none) :
    memLoopStep pm extent st item =
      { loop_reuse_tag := true
        bytes := st.bytes * extentOf extent item
        reuse_counter := st.reuse_counter * extentOf extent item
        topdown := if item.2.1 then st.topdown else st.topdown * extentOf extent item
        stride := st.stride
        reuse_type := st.reuse_type ||| kLoopMultipleRead } := by
  simp only [memLoopStep, h, extentOf]
  split_ifs <;> rfl

theorem memLoopStep_cases (pm extent : List (Var × Int)) (st : MemLoop) (item : StackItem) :
    (memLoopStep pm extent st item).bytes = st.bytes * extentOf extent item
    ∧ (memLoopStep pm extent st item).topdown
        = (if item.2.1 then st.topdown else st.topdown * extentOf extent item)
    ∧ (memLoopStep pm extent st item).reuse_counter
        = (if isPresent pm item then st.reuse_counter
            else st.reuse_counter * extentOf extent item)
    ∧ (memLoopStep pm extent st item).loop_reuse_tag
        = (st.loop_reuse_tag || !isPresent pm item)
    ∧ (memLoopStep pm extent st item).reuse_type
        = (if (st.loop_reuse_tag || !isPresent pm item) then st.reuse_type ||| kLoopMultipleRead
            else st.reuse_type) := by
  cases h : mapFind pm item.1 with
  | none => simp [memLoopStep_absent _ _ _ _ h, isPresent, h]
  | some x => simp [memLoopStep_present _ _ _ _ x h, isPresent, h]

theorem memLoop_bytes (pm extent : List (Var × Int)) (items : List StackItem) (st : MemLoop) :
    (items.foldl (memLoopStep pm extent) st).bytes = st.bytes * prodExtents extent items := by
  induction items generalizing st with
  | nil => simp [prodExtents]
  | cons a rest ih =>
    rw [List.foldl_cons, ih, (memLoopStep_cases pm extent st a).1]
    simp [prodExtents, mul_assoc]

theorem memLoop_topdown (pm extent : List (Var × Int)) (items : List StackItem) (st : MemLoop) :
    (items.foldl (memLoopStep pm extent) st).topdown
      = st.topdown * prodExtents extent (items.filter (fun item => !item.2.1)) := by
  induction items generalizing st with
  | nil => simp [prodExtents]
  | cons a rest ih =>
    rw [List.foldl_cons, ih, (memLoopStep_cases pm extent st a).2.1]
    by_cases ha : a.2.1 = true
    · simp [ha, prodExtents]
    · simp [ha, prodExtents, mul_assoc]

theorem memLoop_reuse_counter (pm extent : List (Var × Int)) (items : List StackItem)
    (st : MemLoop) :
    (items.foldl (memLoopStep pm extent) st).reuse_counter
      = st.reuse_counter * prodExtents extent (items.filter (fun item => !isPresent pm item)) := by
  induction items generalizing st with
  | nil => simp [prodExtents]
  | cons a rest ih =>
    rw [List.foldl_cons, ih, (memLoopStep_cases pm extent st a).2.2.1]
    by_cases ha : isPresent pm a = true
    · simp [ha, prodExtents]
    · simp [ha, prodExtents, mul_assoc]

theorem memLoop_tag (pm extent : List (Var × Int)) (items : List StackItem) (st : MemLoop) :
    (items.foldl (memLoopStep pm extent) st).loop_reuse_tag
      = (st.loop_reuse_tag || items.any (fun item => !isPresent pm item)) := by
  induction items generalizing st with
  | nil => simp
  | cons a rest ih =>
    rw [List.foldl_cons, ih, (memLoopStep_cases pm extent st a).2.2.2.1]
    simp [Bool.or_assoc]

theorem memLoop_reuse_type_tagged (pm extent : List (Var × Int)) (items : List StackItem)
    (st : MemLoop) (ht : st.loop_reuse_tag = true) :
    (items.foldl (memLoopStep pm extent) st).reuse_type
      = if items = [] then st.reuse_type else st.reuse_type ||| kLoopMultipleRead := by
  induction items generalizing st with
  | nil => simp
  | cons a rest ih =>
    have htag : (memLoopStep pm extent st a).loop_reuse_tag = true := by
      rw [(memLoopStep_cases pm extent st a).2.2.2.1, ht]; rfl
    have hrt : (memLoopStep pm extent st a).reuse_type = st.reuse_type ||| kLoopMultipleRead := by
      rw [(memLoopStep_cases pm extent st a).2.2.2.2, ht]; rfl
    rw [List.foldl_cons, ih _ htag, hrt]
    by_cases hr : rest = []
    · simp [hr]
    · simp [hr, Nat.lor_assoc]

theorem memLoop_reuse_type (pm extent : List (Var × Int)) (items : List StackItem)
    (st : MemLoop) (ht : st.loop_reuse_tag = false) :
    (items.foldl (memLoopStep pm extent) st).reuse_type
      = if items.any (fun item => !isPresent pm item) then st.reuse_type ||| kLoopMultipleRead
        else st.reuse_type := by
  induction items generalizing st with
  | nil => simp
  | cons a rest ih =>
    rw [List.foldl_cons]
    have h4 := (memLoopStep_cases pm extent st a).2.2.2.1
    have h5 := (memLoopStep_cases pm extent st a).2.2.2.2
    rw [ht] at h4 h5
    by_cases ha : isPresent pm a = true
    · simp only [ha, Bool.not_true, Bool.or_self, Bool.false_eq_true, if_false] at h4 h5
      rw [ih _ h4, h5, List.any_cons, ha]
      rfl
    · simp only [Bool.not_eq_true] at ha
      simp only [ha, Bool.not_false, Bool.or_true, if_true] at h4 h5
      rw [memLoop_reuse_type_tagged _ _ _ _ h4, h5, List.any_cons, ha]
      by_cases hr : rest = []
      · simp [hr]
      · simp [hr, Nat.lor_assoc]

theorem bottomupLoop_eq (pm extent : List (Var × Int)) (items : List StackItem) (acc : Int) :
    bottomupLoop pm extent items acc
      = acc * prodExtents extent (items.takeWhile (isPresent pm)) := by
  induction items generalizing acc with
  | nil => simp [bottomupLoop, prodExtents]
  | cons a rest ih =>
    by_cases ha : isPresent pm a = true
    · have ha' : (mapFind pm a.1).isSome = true := ha
      simp [bottomupLoop, ha', ih, List.takeWhile_cons, ha, prodExtents, extentOf, mul_assoc]
    · have ha' : ¬ (mapFind pm a.1).isSome = true := ha
      simp [bottomupLoop, ha', List.takeWhile_cons, ha, prodExtents]

/-! ## Lemmas on flags -/

theorem hasLoopFlag_eq_testBit (x : Nat) : hasLoopFlag x = x.testBit 0 := by
  unfold hasLoopFlag kLoopMultipleRead
  rw [Nat.and_one_is_mod, Nat.testBit_zero]
  rcases Nat.mod_two_eq_zero_or_one x with h | h <;> simp [h]

theorem hasSerialFlag_eq_testBit (x : Nat) : hasSerialFlag x = x.testBit 1 := by
  unfold hasSerialFlag kSerialMultipleRead
  have h2 : ∀ i, Nat.testBit 2 i = decide (1 = i) := fun i => by
    have := @Nat.testBit_two_pow 1 i
    simpa using this
  cases hx : x.testBit 1 with
  | true =>
    have : (x &&& 2).testBit 1 = true := by simp [hx, h2]
    have hne : x &&& 2 ≠ 0 := by
      intro h0
      rw [h0] at this
      simp at this
    simpa using hne
  | false =>
    have : x &&& 2 = 0 := by
      apply Nat.eq_of_testBit_eq
      intro i
      by_cases hi : 1 = i
      · subst hi
        simp [hx]
      · simp [h2, hi]
    simp [this]

theorem hasLoopFlag_lor_loop (x : Nat) : hasLoopFlag (x ||| kLoopMultipleRead) = true := by
  rw [hasLoopFlag_eq_testBit, Nat.testBit_or]
  simp [kLoopMultipleRead]

theorem hasLoopFlag_lor_serial (x : Nat) :
    hasLoopFlag (x ||| kSerialMultipleRead) = hasLoopFlag x := by
  rw [hasLoopFlag_eq_testBit, hasLoopFlag_eq_testBit, Nat.testBit_or]
  simp [kSerialMultipleRead]

theorem hasSerialFlag_lor_serial (x : Nat) : hasSerialFlag (x ||| kSerialMultipleRead) = true := by
  rw [hasSerialFlag_eq_testBit, Nat.testBit_or]
  have : Nat.testBit kSerialMultipleRead 1 = true := by decide
  simp [this]

theorem hasSerialFlag_lor_loop (x : Nat) :
    hasSerialFlag (x ||| kLoopMultipleRead) = hasSerialFlag x := by
  rw [hasSerialFlag_eq_testBit, hasSerialFlag_eq_testBit, Nat.testBit_or]
  have : Nat.testBit kLoopMultipleRead 1 = false := by decide
  simp [this]

/-! ## Lemmas on `EnterMem_` -/

theorem resolveBuffer_unmatched (buffer_info_ : List (Var × BufferInfo)) (s1 : List Char)
    (h : ∀ item ∈ buffer_info_, item.1.name_hint.isPrefixOf s1 = false) :
    resolveBuffer buffer_info_ s1 = {} := by
  induction buffer_info_ with
  | nil => rfl
  | cons a rest ih =>
    have ha : a.1.name_hint.isPrefixOf s1 = false := h a (List.mem_cons_self _ _)
    simp only [resolveBuffer, ha]
    exact ih (fun item hi => h item (List.mem_cons_of_mem _ hi))

/-- Two simplifiers that agree on the mutated index give the same `EnterMem_`. -/
theorem EnterMem__congr (cs1 cs2 : PrimExpr → PrimExpr) (s : TouchExtractor) (buffer_var : Var)
    (index : PrimExpr) (access_type : Nat)
    (h : cs1 (IndexMutator index) = cs2 (IndexMutator index)) :
    EnterMem_ cs1 s buffer_var index access_type = EnterMem_ cs2 s buffer_var index access_type := by
  simp only [EnterMem_, IndexParser.Parse, h]

/-! ## Access-type merge, reuse counter, reuse distance, missing metadata -/

/-- C5. Access-type merge is commutative and idempotent: within one statement,
recording a read then a write to a buffer leaves the same `access_type` in its
record as recording the write then the read (and so do any two access types),
and recording the same access type twice leaves the same `access_type` as
recording it once. -/
theorem access_type_merge_comm_idem (CanonicalSimplify : PrimExpr → PrimExpr)
    (s : TouchExtractor) (buffer_var : Var) (index1 index2 : PrimExpr) (a b : Nat) :
    (featureAt (EnterMem_ CanonicalSimplify (EnterMem_ CanonicalSimplify s buffer_var index1 kRead)
        buffer_var index2 kWrite).innermost_stmt_map s.current_stmt buffer_var.name_hint).access_type
      = (featureAt (EnterMem_ CanonicalSimplify
          (EnterMem_ CanonicalSimplify s buffer_var index2 kWrite)
          buffer_var index1 kRead).innermost_stmt_map s.current_stmt
          buffer_var.name_hint).access_type
    ∧ (featureAt (EnterMem_ CanonicalSimplify (EnterMem_ CanonicalSimplify s buffer_var index1 a)
        buffer_var index2 b).innermost_stmt_map s.current_stmt buffer_var.name_hint).access_type
      = (featureAt (EnterMem_ CanonicalSimplify (EnterMem_ CanonicalSimplify s buffer_var index2 b)
          buffer_var index1 a).innermost_stmt_map s.current_stmt buffer_var.name_hint).access_type
    ∧ (featureAt (EnterMem_ CanonicalSimplify (EnterMem_ CanonicalSimplify s buffer_var index1 a)
        buffer_var index2 a).innermost_stmt_map s.current_stmt buffer_var.name_hint).access_type
      = (featureAt (EnterMem_ CanonicalSimplify s buffer_var index1 a).innermost_stmt_map
          s.current_stmt buffer_var.name_hint).access_type := by
  have key : ∀ (t : TouchExtractor) (index : PrimExpr) (c : Nat),
      (featureAt (EnterMem_ CanonicalSimplify t buffer_var index c).innermost_stmt_map
        t.current_stmt buffer_var.name_hint).access_type
      = (featureAt t.innermost_stmt_map t.current_stmt buffer_var.name_hint).access_type ||| c := by
    intro t index c
    rw [featureAt_EnterMem_]
    rfl
  have two : ∀ (i1 i2 : PrimExpr) (c d : Nat),
      (featureAt (EnterMem_ CanonicalSimplify (EnterMem_ CanonicalSimplify s buffer_var i1 c)
        buffer_var i2 d).innermost_stmt_map s.current_stmt buffer_var.name_hint).access_type
      = ((featureAt s.innermost_stmt_map s.current_stmt buffer_var.name_hint).access_type ||| c)
          ||| d := by
    intro i1 i2 c d
    have h := key (EnterMem_ CanonicalSimplify s buffer_var i1 c) i2 d
    have hc : (EnterMem_ CanonicalSimplify s buffer_var i1 c).current_stmt = s.current_stmt := rfl
    rw [hc, key s i1 c] at h
    exact h
  refine ⟨?_, ?_, ?_⟩
  · rw [two, two, Nat.lor_assoc, Nat.lor_assoc, Nat.lor_comm kRead kWrite]
  · rw [two, two, Nat.lor_assoc, Nat.lor_assoc, Nat.lor_comm a b]
  · rw [two, key, Nat.lor_assoc, Nat.or_self]


/-! ## Products that stay within `int64_t` -/

/-- When every intermediate product fits, so does the final one. -/
theorem productsFit_prod (xs : List Int) (init : Int) (h : productsFit init xs = true) :
    fitsInt64 (init * xs.prod) = true := by
  induction xs generalizing init with
  | nil =>
    simp only [productsFit, List.all_nil, List.scanl, List.all_cons, Bool.and_true,
      Bool.true_and] at h
    simpa using h
  | cons x rest ih =>
    have hrest : productsFit (init * x) rest = true := by
      simp only [productsFit, List.all_cons, List.scanl, Bool.and_eq_true] at h ⊢
      exact ⟨h.1.2, h.2.2⟩
    have := ih (init * x) hrest
    rw [List.prod_cons, ← mul_assoc]
    exact this

theorem extentsFit_prod (extent : List (Var × Int)) (init : Int) (items : List StackItem)
    (h : extentsFit extent init items = true) :
    fitsInt64 (init * prodExtents extent items) = true :=
  productsFit_prod _ _ h

/-- C7 (as stated, refuted). With one loop `i` of extent 4 and a constant
index, the second access to the same buffer in the same statement leaves
`reuse_counter = 8`, while the product of the extents of the scopes absent
from the stride map is 4. -/
theorem reuse_counter_repeated_access_counterexample :
    (featureAt (EnterMem_ id (EnterMem_ id exLoop exB (.intImm 0) kRead) exB (.intImm 0)
        kRead).innermost_stmt_map (some 0) exB.name_hint).reuse_counter = 8
    ∧ prodExtents (EnterMem_ id exLoop exB (.intImm 0) kRead).extent
        ((EnterMem_ id exLoop exB (.intImm 0) kRead).itervar_stack_.filter
          (fun item => !isPresent (parsedMap id (.intImm 0)) item)) = 4
    ∧ (EnterMem_ id exLoop exB (.intImm 0) kRead).current_stmt = some 0
    ∧ (featureAt (EnterMem_ id (EnterMem_ id exLoop exB (.intImm 0) kRead) exB (.intImm 0)
        kRead).innermost_stmt_map (some 0) exB.name_hint).reuse_counter
      ≠ prodExtents (EnterMem_ id exLoop exB (.intImm 0) kRead).extent
        ((EnterMem_ id exLoop exB (.intImm 0) kRead).itervar_stack_.filter
          (fun item => !isPresent (parsedMap id (.intImm 0)) item)) := by
  decide

/-- C7 (amended). Every `EnterMem_` call adds to the `reuse_counter` of the
record of the current statement and the accessed buffer the product of the
extents of all enclosing scopes whose variable is absent from the parsed stride
map (so the counter accumulates over repeated accesses), provided that this
product, built up one scope at a time, and the sum stay within `int64_t`
(`hprod` and `hsum`: no multiplication or addition of the source overflows); and
as soon as one enclosing scope has its variable absent the record is marked
loop-multiple-read. -/
theorem reuse_counter_accumulates (CanonicalSimplify : PrimExpr → PrimExpr) (s : TouchExtractor)
    (buffer_var : Var) (index : PrimExpr) (access_type : Nat)
    (hprod : extentsFit s.extent 1 (s.itervar_stack_.filter
        (fun item => !isPresent (parsedMap CanonicalSimplify index) item)) = true)
    (hsum : fitsInt64
        ((featureAt s.innermost_stmt_map s.current_stmt buffer_var.name_hint).reuse_counter
          + prodExtents s.extent (s.itervar_stack_.filter
              (fun item => !isPresent (parsedMap CanonicalSimplify index) item))) = true) :
    (featureAt (EnterMem_ CanonicalSimplify s buffer_var index access_type).innermost_stmt_map
        s.current_stmt buffer_var.name_hint).reuse_counter
      = (featureAt s.innermost_stmt_map s.current_stmt buffer_var.name_hint).reuse_counter
        + prodExtents s.extent (s.itervar_stack_.filter
            (fun item => !isPresent (parsedMap CanonicalSimplify index) item))
    ∧ fitsInt64 (prodExtents s.extent (s.itervar_stack_.filter
          (fun item => !isPresent (parsedMap CanonicalSimplify index) item))) = true
    ∧ fitsInt64 (featureAt
          (EnterMem_ CanonicalSimplify s buffer_var index access_type).innermost_stmt_map
          s.current_stmt buffer_var.name_hint).reuse_counter = true
    ∧ (∀ item ∈ s.itervar_stack_, isPresent (parsedMap CanonicalSimplify index) item = false →
        hasLoopFlag (featureAt
          (EnterMem_ CanonicalSimplify s buffer_var index access_type).innermost_stmt_map
          s.current_stmt buffer_var.name_hint).reuse_type = true) := by
  have hc : (featureAt
      (EnterMem_ CanonicalSimplify s buffer_var index access_type).innermost_stmt_map
        s.current_stmt buffer_var.name_hint).reuse_counter
      = (featureAt s.innermost_stmt_map s.current_stmt buffer_var.name_hint).reuse_counter
        + prodExtents s.extent (s.itervar_stack_.filter
            (fun item => !isPresent (parsedMap CanonicalSimplify index) item)) := by
    rw [featureAt_EnterMem_]
    simp [recordAfterMem, memLoop_reuse_counter]
  have hrep := extentsFit_prod _ _ _ hprod
  rw [one_mul] at hrep
  refine ⟨hc, hrep, by rw [hc]; exact hsum, ?_⟩
  intro item hmem habs
  have hany : (s.itervar_stack_.any
      (fun item => !isPresent (parsedMap CanonicalSimplify index) item)) = true := by
    rw [List.any_eq_true]
    exact ⟨item, hmem, by simp [habs]⟩
  rw [featureAt_EnterMem_]
  simp only [recordAfterMem]
  rw [memLoop_reuse_type _ _ _ _ rfl, hany]
  simp only [if_true]
  split_ifs <;> simp [hasLoopFlag_lor_serial, hasLoopFlag_lor_loop]

/-- C7 (amended), at one loop of extent 4 and a constant index, on the second
access: the counter goes from 4 to 8, and the record has the flag. -/
theorem reuse_counter_accumulates_witness :
    extentsFit (EnterMem_ id exLoop exB (.intImm 0) kRead).extent 1
        ((EnterMem_ id exLoop exB (.intImm 0) kRead).itervar_stack_.filter
          (fun item => !isPresent (parsedMap id (.intImm 0)) item)) = true
    ∧ (featureAt (EnterMem_ id exLoop exB (.intImm 0) kRead).innermost_stmt_map
        (EnterMem_ id exLoop exB (.intImm 0) kRead).current_stmt exB.name_hint).reuse_counter = 4
    ∧ prodExtents (EnterMem_ id exLoop exB (.intImm 0) kRead).extent
        ((EnterMem_ id exLoop exB (.intImm 0) kRead).itervar_stack_.filter
          (fun item => !isPresent (parsedMap id (.intImm 0)) item)) = 4
    ∧ (featureAt (EnterMem_ id (EnterMem_ id exLoop exB (.intImm 0) kRead) exB (.intImm 0)
        kRead).innermost_stmt_map (EnterMem_ id exLoop exB (.intImm 0) kRead).current_stmt
        exB.name_hint).reuse_counter
      = (featureAt (EnterMem_ id exLoop exB (.intImm 0) kRead).innermost_stmt_map
          (EnterMem_ id exLoop exB (.intImm 0) kRead).current_stmt exB.name_hint).reuse_counter
        + prodExtents (EnterMem_ id exLoop exB (.intImm 0) kRead).extent
          ((EnterMem_ id exLoop exB (.intImm 0) kRead).itervar_stack_.filter
            (fun item => !isPresent (parsedMap id (.intImm 0)) item)) :=
  ⟨by decide, by decide, by decide,
    (reuse_counter_accumulates id (EnterMem_ id exLoop exB (.intImm 0) kRead) exB (.intImm 0)
      kRead (by decide) (by decide)).1⟩

/-- C8 (as stated, refuted). With one loop `i` of extent 4 and a constant index
(empty stride map), `reuse_distance` is 1, not the product 4 of the extents of
the innermost run of scopes absent from the stride map. -/
theorem reuse_distance_constant_index_counterexample :
    parsedMap id (.intImm 0) = []
    ∧ (featureAt (EnterMem_ id exLoop exB (.intImm 0) kRead).innermost_stmt_map
        (some 0) exB.name_hint).reuse_distance = 1
    ∧ prodExtents exLoop.extent (exLoop.itervar_stack_.reverse.takeWhile
        (fun item => !isPresent (parsedMap id (.intImm 0)) item)) = 4
    ∧ prodExtents exLoop.extent exLoop.itervar_stack_ = 4
    ∧ (featureAt (EnterMem_ id exLoop exB (.intImm 0) kRead).innermost_stmt_map
        (some 0) exB.name_hint).reuse_distance
      ≠ prodExtents exLoop.extent (exLoop.itervar_stack_.reverse.takeWhile
        (fun item => !isPresent (parsedMap id (.intImm 0)) item)) := by
  decide

/-- C8 (amended). For every access in which at least one enclosing scope
variable is absent from the stride map, `EnterMem_` sets `reuse_distance` to the
product of the extents of the innermost contiguous run of scopes whose variable
is present in the stride map, scanning from the innermost scope outward and
stopping at the first scope whose variable is absent, provided that this
product, built up one scope at a time, stays within `int64_t`; in particular,
for an empty stride map `reuse_distance` is 1. -/
theorem reuse_distance_present_run (CanonicalSimplify : PrimExpr → PrimExpr) (s : TouchExtractor)
    (buffer_var : Var) (index : PrimExpr) (access_type : Nat)
    (h : ∃ item ∈ s.itervar_stack_, isPresent (parsedMap CanonicalSimplify index) item = false)
    (hfit : extentsFit s.extent 1 (s.itervar_stack_.reverse.takeWhile
        (isPresent (parsedMap CanonicalSimplify index))) = true) :
    (featureAt (EnterMem_ CanonicalSimplify s buffer_var index access_type).innermost_stmt_map
        s.current_stmt buffer_var.name_hint).reuse_distance
      = prodExtents s.extent (s.itervar_stack_.reverse.takeWhile
          (isPresent (parsedMap CanonicalSimplify index)))
    ∧ fitsInt64 (featureAt
          (EnterMem_ CanonicalSimplify s buffer_var index access_type).innermost_stmt_map
          s.current_stmt buffer_var.name_hint).reuse_distance = true
    ∧ (parsedMap CanonicalSimplify index = [] →
        (featureAt (EnterMem_ CanonicalSimplify s buffer_var index access_type).innermost_stmt_map
          s.current_stmt buffer_var.name_hint).reuse_distance = 1) := by
  obtain ⟨item, hmem, habs⟩ := h
  have hany : (s.itervar_stack_.any
      (fun item => !isPresent (parsedMap CanonicalSimplify index) item)) = true := by
    rw [List.any_eq_true]
    exact ⟨item, hmem, by simp [habs]⟩
  have hd : (featureAt
      (EnterMem_ CanonicalSimplify s buffer_var index access_type).innermost_stmt_map
        s.current_stmt buffer_var.name_hint).reuse_distance
      = prodExtents s.extent (s.itervar_stack_.reverse.takeWhile
          (isPresent (parsedMap CanonicalSimplify index))) := by
    rw [featureAt_EnterMem_]
    simp only [recordAfterMem]
    rw [memLoop_tag, hany, bottomupLoop_eq]
    simp
  have hrep := extentsFit_prod _ _ _ hfit
  rw [one_mul] at hrep
  refine ⟨hd, by rw [hd]; exact hrep, ?_⟩
  intro hempty
  rw [hd, hempty]
  have hnone : ∀ l : List StackItem, l.takeWhile (isPresent []) = [] := by
    intro l
    cases l with
    | nil => rfl
    | cons a rest => simp [List.takeWhile_cons, isPresent, mapFind]
  rw [hnone]
  rfl

/-- C8 (amended), at the nest `i` (extent 4, absent) around `j` (extent 8,
present in the index `j`): the distance is 8. -/
theorem reuse_distance_present_run_witness :
    (∃ item ∈ (exNest id).itervar_stack_, isPresent (parsedMap id (.var exJ)) item = false)
    ∧ extentsFit (exNest id).extent 1 ((exNest id).itervar_stack_.reverse.takeWhile
        (isPresent (parsedMap id (.var exJ)))) = true
    ∧ prodExtents (exNest id).extent ((exNest id).itervar_stack_.reverse.takeWhile
          (isPresent (parsedMap id (.var exJ)))) = 8
    ∧ (featureAt (EnterMem_ id (exNest id) exB (.var exJ) kWrite).innermost_stmt_map
        (exNest id).current_stmt exB.name_hint).reuse_distance
      = prodExtents (exNest id).extent ((exNest id).itervar_stack_.reverse.takeWhile
          (isPresent (parsedMap id (.var exJ)))) :=
  ⟨⟨(exI, false, AnnotationType.kOther 0), by decide, by decide⟩, by decide, by decide,
    (reuse_distance_present_run id (exNest id) exB (.var exJ) kWrite
      ⟨(exI, false, AnnotationType.kOther 0), by decide, by decide⟩ (by decide)).1⟩

/-- C9 (as stated, refuted). In the scenario of the claim (outer loop of
extent 4 absent from the index, inner loop of extent 8 present with
coefficient 1, one write to the registered global buffer of 32 elements of 4
bytes) the record does not have `reuse_distance = 0`: the values claimed do
not hold together. -/
theorem concrete_scenario_counterexample :
    ¬ ((featureAt (EnterMem_ id (exNest id) exB (.var exJ) kWrite).innermost_stmt_map
          (some 0) exB.name_hint).bytes = 128
      ∧ (featureAt (EnterMem_ id (exNest id) exB (.var exJ) kWrite).innermost_stmt_map
          (some 0) exB.name_hint).unique_bytes = 128
      ∧ (featureAt (EnterMem_ id (exNest id) exB (.var exJ) kWrite).innermost_stmt_map
          (some 0) exB.name_hint).stride = 1
      ∧ (featureAt (EnterMem_ id (exNest id) exB (.var exJ) kWrite).innermost_stmt_map
          (some 0) exB.name_hint).reuse_counter = 4
      ∧ (featureAt (EnterMem_ id (exNest id) exB (.var exJ) kWrite).innermost_stmt_map
          (some 0) exB.name_hint).reuse_distance = 0
      ∧ (featureAt (EnterMem_ id (exNest id) exB (.var exJ) kWrite).innermost_stmt_map
          (some 0) exB.name_hint).topdown = 32) := by
  decide

/-- C9 (amended). On a fresh extractor, a single write access inside an outer
loop of extent 4 (variable not in the index) and an inner loop of extent 8
(variable in the index with coefficient 1), both ordinary loops, to a
registered global-scope buffer of 32 elements of 4 bytes, yields a record with
`bytes = 128`, `unique_bytes = 128`, `stride = 1`, `reuse_counter = 4`,
`reuse_distance = 8` and `topdown = 32`, whenever the simplifier leaves the
bare variable `j` as it is. -/
theorem concrete_scenario (CanonicalSimplify : PrimExpr → PrimExpr)
    (h : CanonicalSimplify (.var exJ) = .var exJ) :
    featureAt (run CanonicalSimplify (TouchExtractor.fresh exRegistry)
        [.enterItervar exI 0 4 false (.kOther 0), .enterItervar exJ 0 8 false (.kOther 0),
         .enterInnermostStmt 0, .enterMem exB (.var exJ) kWrite]).innermost_stmt_map
        (some 0) exB.name_hint
      = { access_type := 2, bytes := 128, unique_bytes := 128, lines := 32, unique_lines := 1,
          reuse_type := 1, reuse_distance := 8, reuse_counter := 4, stride := 1,
          topdown := 32 } := by
  have hrun : run CanonicalSimplify (TouchExtractor.fresh exRegistry)
        [.enterItervar exI 0 4 false (.kOther 0), .enterItervar exJ 0 8 false (.kOther 0),
         .enterInnermostStmt 0, .enterMem exB (.var exJ) kWrite]
      = EnterMem_ CanonicalSimplify (exNest id) exB (.var exJ) kWrite := rfl
  rw [hrun, EnterMem__congr CanonicalSimplify id (exNest id) exB (.var exJ) kWrite h]
  decide

/-- C9 (amended), with the identity as simplifier. -/
theorem concrete_scenario_witness :
    (id (PrimExpr.var exJ) = PrimExpr.var exJ)
    ∧ (featureAt (run id (TouchExtractor.fresh exRegistry)
        [.enterItervar exI 0 4 false (.kOther 0), .enterItervar exJ 0 8 false (.kOther 0),
         .enterInnermostStmt 0, .enterMem exB (.var exJ) kWrite]).innermost_stmt_map
        (some 0) exB.name_hint).reuse_distance = 8 :=
  ⟨rfl, by rw [concrete_scenario id rfl]⟩

/-- C10 (as stated, refuted). With no buffer registered and one enclosing
loop of extent 4, the first access to a buffer leaves `bytes = -4` and
`unique_bytes = -1` in its record, not zero. -/
theorem missing_metadata_counterexample :
    resolveBuffer exLoop.buffer_info_ exB.name_hint = {}
    ∧ featureAt exLoop.innermost_stmt_map (some 0) exB.name_hint = {}
    ∧ (featureAt (EnterMem_ id exLoop exB (.var exI) kRead).innermost_stmt_map
        (some 0) exB.name_hint).bytes = -4
    ∧ (featureAt (EnterMem_ id exLoop exB (.var exI) kRead).innermost_stmt_map
        (some 0) exB.name_hint).unique_bytes = -1
    ∧ (featureAt (EnterMem_ id exLoop exB (.var exI) kRead).innermost_stmt_map
        (some 0) exB.name_hint).bytes ≠ 0
    ∧ (featureAt (EnterMem_ id exLoop exB (.var exI) kRead).innermost_stmt_map
        (some 0) exB.name_hint).unique_bytes ≠ 0 := by
  decide

/-- C10 (amended). Missing metadata is tolerated: for every access whose
buffer name has no registered buffer name as a prefix, `EnterMem_` proceeds
with an empty shape, an empty scope and the element size `-1`; on a previously
fresh record it leaves `bytes` equal to minus the product of the extents of
all enclosing scopes, `unique_bytes = -1`, and `lines` and `unique_lines` zero,
for every scope stack whose product of extents, built up one scope at a time
from `-1`, stays within `int64_t`. -/
theorem missing_metadata (CanonicalSimplify : PrimExpr → PrimExpr) (s : TouchExtractor)
    (buffer_var : Var) (index : PrimExpr) (access_type : Nat)
    (hreg : ∀ item ∈ s.buffer_info_, item.1.name_hint.isPrefixOf buffer_var.name_hint = false)
    (hfresh : featureAt s.innermost_stmt_map s.current_stmt buffer_var.name_hint = {})
    (hfit : extentsFit s.extent (-1) s.itervar_stack_ = true) :
    resolveBuffer s.buffer_info_ buffer_var.name_hint
      = { buffer_shape := [], buffer_scope := [], buffer_elem_bytes := -1 }
    ∧ (featureAt (EnterMem_ CanonicalSimplify s buffer_var index access_type).innermost_stmt_map
        s.current_stmt buffer_var.name_hint).bytes = -(prodExtents s.extent s.itervar_stack_)
    ∧ fitsInt64 (featureAt
          (EnterMem_ CanonicalSimplify s buffer_var index access_type).innermost_stmt_map
          s.current_stmt buffer_var.name_hint).bytes = true
    ∧ (featureAt (EnterMem_ CanonicalSimplify s buffer_var index access_type).innermost_stmt_map
        s.current_stmt buffer_var.name_hint).unique_bytes = -1
    ∧ (featureAt (EnterMem_ CanonicalSimplify s buffer_var index access_type).innermost_stmt_map
        s.current_stmt buffer_var.name_hint).lines = 0
    ∧ (featureAt (EnterMem_ CanonicalSimplify s buffer_var index access_type).innermost_stmt_map
        s.current_stmt buffer_var.name_hint).unique_lines = 0 := by
  have hrb := resolveBuffer_unmatched s.buffer_info_ buffer_var.name_hint hreg
  have hscope : ¬ (([] : List Char) = "global".toList) := by decide
  have hbytes : (featureAt
      (EnterMem_ CanonicalSimplify s buffer_var index access_type).innermost_stmt_map
        s.current_stmt buffer_var.name_hint).bytes
      = -(prodExtents s.extent s.itervar_stack_) := by
    rw [featureAt_EnterMem_]
    simp only [recordAfterMem, hrb, hfresh, memLoop_bytes]
    simp
  have hrep := extentsFit_prod _ _ _ hfit
  rw [neg_one_mul] at hrep
  refine ⟨hrb, hbytes, by rw [hbytes]; exact hrep, ?_, ?_, ?_⟩
  · rw [featureAt_EnterMem_]
    simp only [recordAfterMem, hrb, hfresh]
    decide
  · rw [featureAt_EnterMem_]
    simp only [recordAfterMem, hrb, hfresh]
    simp [hscope]
  · rw [featureAt_EnterMem_]
    simp only [recordAfterMem, hrb, hfresh]
    simp [hscope]

/-- C10 (amended), under the loops `i` (extent 4) and `j` (extent 8) with `B`
registered and the unregistered `A` accessed: `bytes` is `-32`. -/
theorem missing_metadata_witness :
    (exNest id).buffer_info_ = exRegistry
    ∧ (∀ item ∈ (exNest id).buffer_info_, item.1.name_hint.isPrefixOf exA.name_hint = false)
    ∧ featureAt (exNest id).innermost_stmt_map (exNest id).current_stmt exA.name_hint = {}
    ∧ extentsFit (exNest id).extent (-1) (exNest id).itervar_stack_ = true
    ∧ prodExtents (exNest id).extent (exNest id).itervar_stack_ = 32
    ∧ (featureAt (EnterMem_ id (exNest id) exA (.var exI) kRead).innermost_stmt_map
        (exNest id).current_stmt exA.name_hint).bytes
      = -(prodExtents (exNest id).extent (exNest id).itervar_stack_) :=
  ⟨rfl, by decide, by decide, by decide, by decide,
    (missing_metadata id (exNest id) exA (.var exI) kRead (by decide) (by decide)
      (by decide)).2.1⟩

/-! ## Lemmas on the flattened row -/

theorem featureBlock_length (take_log : Bool) (v : BufferAccessFeature) :
    (featureBlock take_log v).length = 16 := by
  simp [featureBlock]

theorem flatMap_block_length {α : Type} (f : α → List FloatImm) (hf : ∀ x, (f x).length = 16)
    (l : List α) : (l.flatMap f).length = 16 * l.length := by
  induction l with
  | nil => rfl
  | cons a rest ih =>
    rw [List.flatMap_cons, List.length_append, hf, ih, List.length_cons]
    omega

theorem flatMap_padding (z : FloatImm) (xs : List Nat) :
    xs.flatMap (fun _ => (List.range 16).map (fun _ => z)) = List.replicate (16 * xs.length) z := by
  induction xs with
  | nil => rfl
  | cons a rest ih =>
    rw [List.flatMap_cons, ih, List.map_const', List.length_range, List.length_cons,
      ← List.replicate_add]
    congr 1
    omega

theorem take_min_length {α : Type} (l : List α) (n : Nat) : l.take (min l.length n) = l.take n := by
  by_cases h : l.length ≤ n
  · rw [Nat.min_eq_left h, List.take_of_length_le h, List.take_of_length_le (le_refl _)]
  · rw [Nat.min_eq_right (by omega)]

theorem sortedBufs_length (fea : InnermostStatementFeature) :
    (sortedBufs fea).length = fea.buffer_access_feature.length := by
  simp [sortedBufs, List.length_insertionSort, mapKeys]

/-- The row: the blocks of the first five sorted buffers, then the zero padding. -/
theorem flattenRow_eq (take_log : Bool) (fea : InnermostStatementFeature) :
    flattenRow take_log fea
      = ((sortedBufs fea).take 5).flatMap (fun k =>
            featureBlock take_log (mapAt fea.buffer_access_feature k {}))
          ++ List.replicate (16 * (5 - fea.buffer_access_feature.length)) (FloatImm.ofInt 0) := by
  have h := take_min_length (sortedBufs fea) 5
  rw [sortedBufs_length] at h
  simp only [flattenRow, flatMap_padding, List.length_range, sortedBufs_length, h]

theorem flattenRow_length (take_log : Bool) (fea : InnermostStatementFeature) :
    (flattenRow take_log fea).length = 80 := by
  rw [flattenRow_eq, List.length_append,
    flatMap_block_length _ (fun k => featureBlock_length take_log _), List.length_replicate,
    List.length_take, sortedBufs_length]
  omega

/-- The block at position `i` of a concatenation of 16-value blocks. -/
theorem block_at {α : Type} (f : α → List FloatImm) (hf : ∀ x, (f x).length = 16)
    (pad : List FloatImm) (l : List α) (i : Nat) (hi : i < l.length) :
    ((l.flatMap f ++ pad).drop (16 * i)).take 16 = f (l.get ⟨i, hi⟩) := by
  induction l generalizing i with
  | nil => simp at hi
  | cons a rest ih =>
    cases i with
    | zero =>
      simp only [Nat.mul_zero, List.drop_zero, List.flatMap_cons, List.append_assoc]
      exact List.take_left' (hf a)
    | succ j =>
      have hj : j < rest.length := by simpa using hi
      have h16 : 16 * (j + 1) = (f a).length + 16 * j := by rw [hf]; omega
      rw [List.flatMap_cons, List.append_assoc, h16, List.drop_append]
      exact ih j hj

/-- In a strictly ascending list exactly `i` elements are smaller than the one at position `i`. -/
theorem count_smaller_sorted (l : List (List Char)) (hs : l.Pairwise (fun a b => a < b)) (i : Nat)
    (hi : i < l.length) : (l.filter (fun k => decide (k < l.get ⟨i, hi⟩))).length = i := by
  induction l generalizing i with
  | nil => simp at hi
  | cons a rest ih =>
    rw [List.pairwise_cons] at hs
    cases i with
    | zero =>
      have hnone : ∀ k ∈ a :: rest, ¬ (decide (k < a) = true) := by
        intro k hk
        rcases List.mem_cons.1 hk with h | h
        · subst h
          simp
        · have := hs.1 k h
          simp [le_of_lt this]
      simp only [List.get_cons_zero, List.length_eq_zero, List.filter_eq_nil_iff]
      exact hnone
    | succ j =>
      have hj : j < rest.length := by simpa using hi
      have ha : a < rest.get ⟨j, hj⟩ := hs.1 _ (List.get_mem _ _ _)
      have := ih hs.2 j hj
      simp only [List.get_cons_succ, List.filter_cons, ha, decide_True, if_true, List.length_cons,
        this]

theorem sortedBufs_perm (fea : InnermostStatementFeature) :
    (sortedBufs fea).Perm (mapKeys fea.buffer_access_feature) :=
  List.perm_insertionSort _ _

theorem sortedBufs_sorted_lt (fea : InnermostStatementFeature)
    (hnodup : (mapKeys fea.buffer_access_feature).Nodup) :
    (sortedBufs fea).Pairwise (fun a b => a < b) := by
  have hle : (sortedBufs fea).Sorted (fun a b => a ≤ b) := List.sorted_insertionSort _ _
  have hnd : (sortedBufs fea).Nodup := (sortedBufs_perm fea).nodup_iff.2 hnodup
  exact hle.lt_of_le hnd

/-- C1. For every statement record, with any number `n` of touched buffers
and either value of `take_log`, the row emitted by
`GetInnerStatementFeatureFlatten` has exactly 80 values: `min n 5` blocks of 16
values followed by `16 * (5 - n)` zeros; a record with no buffer yields 80
zeros; and every row of the output has 80 values. -/
theorem flatten_row_has_80_values (touch_analyzer : TouchExtractor) (take_log : Bool)
    (fea : InnermostStatementFeature) :
    (flattenRow take_log fea).length = 80
    ∧ flattenRow take_log fea
        = ((sortedBufs fea).take 5).flatMap (fun k =>
              featureBlock take_log (mapAt fea.buffer_access_feature k {}))
            ++ List.replicate (16 * (5 - fea.buffer_access_feature.length)) (FloatImm.ofInt 0)
    ∧ ((sortedBufs fea).take 5).length = min fea.buffer_access_feature.length 5
    ∧ (((sortedBufs fea).take 5).flatMap (fun k =>
          featureBlock take_log (mapAt fea.buffer_access_feature k {}))).length
        = 16 * min fea.buffer_access_feature.length 5
    ∧ flattenRow take_log { fea with buffer_access_feature := [] }
        = List.replicate 80 (FloatImm.ofInt 0)
    ∧ (GetInnerStatementFeatureFlatten touch_analyzer take_log).map List.length
        = (sortedStmts touch_analyzer).map (fun _ => 80) := by
  have hlen : ((sortedBufs fea).take 5).length = min fea.buffer_access_feature.length 5 := by
    rw [List.length_take, sortedBufs_length, Nat.min_comm]
  refine ⟨flattenRow_length take_log fea, flattenRow_eq take_log fea, hlen, ?_, ?_, ?_⟩
  · rw [flatMap_block_length _ (fun k => featureBlock_length take_log _), hlen]
  · rw [flattenRow_eq]
    rfl
  · rw [GetInnerStatementFeatureFlatten, List.map_map]
    apply List.map_congr_left
    intro stmt _
    exact flattenRow_length take_log _

/-- C2. For a statement record (a map: its buffer keys are distinct), the
sorted key vector is the keys in strictly ascending order; the block at
position `i < min n 5` of the row is the block of the key at position `i` of
that vector, which is the key with exactly `i` smaller keys in the record; and
when the record has 5 buffers or more the row is exactly the blocks of the
first five keys, with no padding. -/
theorem flatten_row_blocks_in_identity_order (take_log : Bool) (fea : InnermostStatementFeature)
    (hnodup : (mapKeys fea.buffer_access_feature).Nodup) :
    (sortedBufs fea).Perm (mapKeys fea.buffer_access_feature)
    ∧ (sortedBufs fea).Pairwise (fun a b => a < b)
    ∧ (∀ (i : Nat) (hi : i < (sortedBufs fea).length), i < 5 →
        ((flattenRow take_log fea).drop (16 * i)).take 16
            = featureBlock take_log
                (mapAt fea.buffer_access_feature ((sortedBufs fea).get ⟨i, hi⟩) {})
        ∧ ((mapKeys fea.buffer_access_feature).filter
            (fun k => decide (k < (sortedBufs fea).get ⟨i, hi⟩))).length = i)
    ∧ (5 ≤ fea.buffer_access_feature.length →
        flattenRow take_log fea
          = ((sortedBufs fea).take 5).flatMap (fun k =>
              featureBlock take_log (mapAt fea.buffer_access_feature k {}))) := by
  have hsorted := sortedBufs_sorted_lt fea hnodup
  refine ⟨sortedBufs_perm fea, hsorted, ?_, ?_⟩
  · intro i hi hi5
    constructor
    · have hit : i < ((sortedBufs fea).take 5).length := by
        rw [List.length_take]
        omega
      rw [flattenRow_eq,
        block_at (fun k => featureBlock take_log (mapAt fea.buffer_access_feature k {}))
          (fun k => featureBlock_length take_log _) _ _ i hit]
      congr 2
      simp [List.getElem_take]
    · rw [← ((sortedBufs_perm fea).filter _).length_eq]
      exact count_smaller_sorted _ hsorted i hi
  · intro h5
    rw [flattenRow_eq]
    have : 5 - fea.buffer_access_feature.length = 0 := by omega
    rw [this]
    simp

/-- C2, at a record touching seven buffers: the row is the blocks of the five
smallest keys `a`, `b`, `c`, `d`, `e`, in that order, with no padding. -/
theorem flatten_row_blocks_in_identity_order_witness :
    (mapKeys exSeven.buffer_access_feature).Nodup
    ∧ 5 ≤ exSeven.buffer_access_feature.length
    ∧ (sortedBufs exSeven).take 5
        = ["a".toList, "b".toList, "c".toList, "d".toList, "e".toList]
    ∧ flattenRow false exSeven
        = ((sortedBufs exSeven).take 5).flatMap (fun k =>
            featureBlock false (mapAt exSeven.buffer_access_feature k {})) :=
  ⟨by decide, by decide, by decide,
    (flatten_row_blocks_in_identity_order false exSeven (by decide)).2.2.2 (by decide)⟩


/-! ## Lemmas on statement order -/

theorem stmtLoop_order (extent : List (Var × Int)) (items : List StackItem)
    (fea : InnermostStatementFeature) :
    (items.foldl (stmtLoopStep extent) fea).order = fea.order := by
  induction items generalizing fea with
  | nil => rfl
  | cons a rest ih =>
    rw [List.foldl_cons, ih]
    unfold stmtLoopStep
    split_ifs <;> rfl

theorem stmtLoop_buffers (extent : List (Var × Int)) (items : List StackItem)
    (fea : InnermostStatementFeature) :
    (items.foldl (stmtLoopStep extent) fea).buffer_access_feature = fea.buffer_access_feature := by
  induction items generalizing fea with
  | nil => rfl
  | cons a rest ih =>
    rw [List.foldl_cons, ih]
    unfold stmtLoopStep
    split_ifs <;> rfl

theorem mapModify_of_not_mem {κ ν : Type} [DecidableEq κ] (m : List (κ × ν)) (k : κ) (d : ν)
    (f : ν → ν) (h : k ∉ mapKeys m) : mapModify m k d f = m ++ [(k, f d)] := by
  induction m with
  | nil => rfl
  | cons p rest ih =>
    obtain ⟨k', v⟩ := p
    have hk : k' ≠ k := by
      intro e
      apply h
      simp [mapKeys, e]
    have hrest : k ∉ mapKeys rest := by
      intro hm
      apply h
      simp only [mapKeys, List.map_cons, List.mem_cons]
      exact Or.inr hm
    simp [mapModify, hk, ih hrest]

/-- Reading each key of a map with distinct keys gives the stored values in order. -/
theorem map_mapAt_of_nodup {κ ν : Type} [DecidableEq κ] (m : List (κ × ν)) (d : ν)
    (h : (mapKeys m).Nodup) (pre : List (κ × ν)) (hpre : ∀ p ∈ m, p.1 ∉ mapKeys pre) :
    m.map (fun p => mapAt (pre ++ m) p.1 d) = m.map Prod.snd := by
  induction m generalizing pre with
  | nil => rfl
  | cons p rest ih =>
    obtain ⟨k, v⟩ := p
    have hfind : ∀ (pre : List (κ × ν)), k ∉ mapKeys pre →
        mapFind (pre ++ (k, v) :: rest) k = some v := by
      intro pre hk
      induction pre with
      | nil => simp [mapFind]
      | cons q pre' ihp =>
        obtain ⟨k0, v0⟩ := q
        have h0 : k0 ≠ k := by
          intro e
          apply hk
          simp [mapKeys, e]
        have h1 : k ∉ mapKeys pre' := by
          intro hm
          apply hk
          simp only [mapKeys, List.map_cons, List.mem_cons]
          exact Or.inr hm
        simp [mapFind, h0, ihp h1]
    have hk : k ∉ mapKeys pre := hpre (k, v) (List.mem_cons_self _ _)
    simp only [mapKeys, List.map_cons, List.nodup_cons] at h
    rw [List.map_cons, List.map_cons]
    congr 1
    · simp [mapAt, hfind pre hk]
    · have := ih h.2 (pre ++ [(k, v)]) (by
        intro p hp
        simp only [mapKeys, List.map_append, List.map_cons, List.map_nil, List.mem_append,
          List.mem_singleton, not_or]
        constructor
        · exact hpre p (List.mem_cons_of_mem _ hp)
        · intro e
          apply h.1
          rw [← e]
          exact List.mem_map_of_mem _ hp)
      simpa using this

theorem assignedOrders_eq (s : TouchExtractor) (stmts : List Nat) :
    assignedOrders s stmts = List.range' s.innermost_stmt_counter_ stmts.length := by
  induction stmts generalizing s with
  | nil => rfl
  | cons a rest ih =>
    rw [assignedOrders, ih]
    simp only [EnterInnermostStmt_, mapSet, mapAt_mapModify_same, stmtLoop_order,
      List.length_cons, List.range'_succ]

/-- After entering distinct store nodes on an extractor with an empty result
map, the map lists them in entry order with the orders `0, 1, 2, ...`. -/
theorem enterAll_map (s : TouchExtractor) (pre rest : List Nat)
    (hkeys : mapKeys s.innermost_stmt_map = pre.map some)
    (hord : s.innermost_stmt_map.map (fun p => p.2.order) = List.range pre.length)
    (hcnt : s.innermost_stmt_counter_ = pre.length) (hnd : (pre ++ rest).Nodup) :
    mapKeys (enterAll s rest).innermost_stmt_map = (pre ++ rest).map some
    ∧ (enterAll s rest).innermost_stmt_map.map (fun p => p.2.order)
        = List.range (pre ++ rest).length := by
  induction rest generalizing s pre with
  | nil => simpa [enterAll] using ⟨hkeys, hord⟩
  | cons a rest ih =>
    have ha : a ∉ pre := by
      intro h
      have := List.nodup_append.1 hnd
      exact this.2.2 h (List.mem_cons_self _ _)
    have hnot : (some a) ∉ mapKeys s.innermost_stmt_map := by
      rw [hkeys]
      simpa using ha
    have hmap : (EnterInnermostStmt_ s a).innermost_stmt_map
        = s.innermost_stmt_map ++ [(some a,
            s.itervar_stack_.foldl (stmtLoopStep s.extent)
              { order := s.innermost_stmt_counter_ })] := by
      simp only [EnterInnermostStmt_, mapSet]
      exact mapModify_of_not_mem _ _ _ _ hnot
    have hnd' : ((pre ++ [a]) ++ rest).Nodup := by simpa using hnd
    have := ih (EnterInnermostStmt_ s a) (pre ++ [a])
      (by rw [hmap]; simp [mapKeys] at hkeys ⊢; exact hkeys)
      (by rw [hmap]; simp [hord, stmtLoop_order, hcnt, List.range_succ])
      (by simp [EnterInnermostStmt_, hcnt]) hnd'
    simpa [enterAll] using this

theorem orders_by_key (m : List (StmtPtr × InnermostStatementFeature))
    (h : (mapKeys m).Nodup) :
    (mapKeys m).map (fun stmt => (mapAt m stmt {}).order) = m.map (fun p => p.2.order) := by
  have h1 := map_mapAt_of_nodup m {} h [] (by intro p _; simp [mapKeys])
  simp only [List.nil_append] at h1
  have h2 := congrArg (List.map (fun fea : InnermostStatementFeature => fea.order)) h1
  simpa [mapKeys, List.map_map, Function.comp] using h2

theorem sortedStmts_of_increasing (s : TouchExtractor) (n : Nat)
    (hnd : (mapKeys s.innermost_stmt_map).Nodup)
    (hord : s.innermost_stmt_map.map (fun p => p.2.order) = List.range n) :
    sortedStmts s = mapKeys s.innermost_stmt_map ∧ outputOrders s = List.range n := by
  have hk := orders_by_key s.innermost_stmt_map hnd
  rw [hord] at hk
  have hsorted : (mapKeys s.innermost_stmt_map).Sorted (fun lhs rhs =>
      (mapAt s.innermost_stmt_map lhs {}).order ≤ (mapAt s.innermost_stmt_map rhs {}).order) := by
    have hp : ((mapKeys s.innermost_stmt_map).map
        (fun stmt => (mapAt s.innermost_stmt_map stmt {}).order)).Pairwise (fun a b => a ≤ b) := by
      rw [hk]
      exact (List.pairwise_lt_range n).imp (fun h => Nat.le_of_lt h)
    exact List.pairwise_map.1 hp
  have hs : sortedStmts s = mapKeys s.innermost_stmt_map := hsorted.insertionSort_eq
  exact ⟨hs, by rw [outputOrders, hs, hk]⟩

/-- C6 (as stated, refuted). Entering the same store node twice leaves one
record, whose order is 1: the statement at output position 0 does not have
order 0. -/
theorem order_rank_counterexample :
    assignedOrders (TouchExtractor.fresh []) [0, 0] = [0, 1]
    ∧ sortedStmts (enterAll (TouchExtractor.fresh []) [0, 0]) = [some 0]
    ∧ outputOrders (enterAll (TouchExtractor.fresh []) [0, 0]) = [1]
    ∧ outputOrders (enterAll (TouchExtractor.fresh []) [0, 0])
        ≠ List.range (outputOrders (enterAll (TouchExtractor.fresh []) [0, 0])).length := by
  decide

/-- C6 (amended). For every sequence of `EnterInnermostStmt_` calls on a
fresh extractor the order values assigned are `0, 1, 2, ...` in visitation
order, hence strictly increasing; and when the store nodes entered are
pairwise distinct, after sorting the result map by order the output lists them
in visitation order and the statement at zero-based position `k` has order
`k`. -/
theorem order_rank (buffer_info_ : List (Var × BufferInfo)) (stmts : List Nat) :
    assignedOrders (TouchExtractor.fresh buffer_info_) stmts = List.range stmts.length
    ∧ (assignedOrders (TouchExtractor.fresh buffer_info_) stmts).Pairwise (fun a b => a < b)
    ∧ (stmts.Nodup →
        sortedStmts (enterAll (TouchExtractor.fresh buffer_info_) stmts) = stmts.map some
        ∧ outputOrders (enterAll (TouchExtractor.fresh buffer_info_) stmts)
            = List.range stmts.length) := by
  have h1 : assignedOrders (TouchExtractor.fresh buffer_info_) stmts = List.range stmts.length := by
    rw [assignedOrders_eq, List.range_eq_range']
    rfl
  refine ⟨h1, ?_, ?_⟩
  · rw [h1]
    exact List.pairwise_lt_range _
  · intro hnd
    have hm := enterAll_map (TouchExtractor.fresh buffer_info_) [] stmts rfl rfl rfl
      (by simpa using hnd)
    simp only [List.nil_append] at hm
    have hkn : (mapKeys (enterAll (TouchExtractor.fresh buffer_info_) stmts).innermost_stmt_map).Nodup := by
      rw [hm.1]
      exact hnd.map (fun a b h => Option.some.inj h)
    have := sortedStmts_of_increasing _ _ hkn hm.2
    rw [hm.1] at this
    exact this

/-- C6 (amended), at three distinct store nodes entered in the order 7, 3, 5. -/
theorem order_rank_witness :
    [7, 3, 5].Nodup
    ∧ sortedStmts (enterAll (TouchExtractor.fresh []) [7, 3, 5]) = [some 7, some 3, some 5]
    ∧ outputOrders (enterAll (TouchExtractor.fresh []) [7, 3, 5]) = [0, 1, 2] :=
  ⟨by decide, (order_rank [] [7, 3, 5]).2.2 (by decide)⟩


/-! ## Lemmas on traversals and serial reuse -/

theorem mapAt_mapSet {κ ν : Type} [DecidableEq κ] (m : List (κ × ν)) (k k' : κ) (v d : ν) :
    mapAt (mapSet m k v) k' d = if k' = k then v else mapAt m k' d := by
  by_cases h : k' = k
  · subst h
    simp [mapSet, mapAt_mapModify_same]
  · simp [mapSet, mapAt_mapModify_other _ _ _ _ _ _ h, h]

theorem mem_setInsert (set : List StmtPtr) (x y : StmtPtr) :
    y ∈ setInsert set x ↔ y ∈ set ∨ y = x := by
  unfold setInsert
  split_ifs with h
  · constructor
    · exact Or.inl
    · rintro (h1 | h1)
      · exact h1
      · exact h1 ▸ h
  · simp

theorem nodup_setInsert (set : List StmtPtr) (x : StmtPtr) (h : set.Nodup) :
    (setInsert set x).Nodup := by
  unfold setInsert
  split_ifs with hx
  · exact h
  · rw [List.nodup_append]
    refine ⟨h, List.nodup_singleton _, ?_⟩
    intro a ha hb
    rw [List.mem_singleton] at hb
    exact hx (hb ▸ ha)

theorem length_setInsert_of_other (set : List StmtPtr) (x y : StmtPtr) (hy : y ∈ set)
    (hne : y ≠ x) : (setInsert set x).length > 1 := by
  unfold setInsert
  split_ifs with hx
  · match set, hy, hx with
    | [a], hy, hx =>
      simp only [List.mem_singleton] at hy hx
      exact absurd (hy.trans hx.symm) hne
    | a :: b :: rest, _, _ => simp
  · match set, hy with
    | a :: rest, _ => simp

theorem exists_other_of_length_setInsert (set : List StmtPtr) (x : StmtPtr) (hnd : set.Nodup)
    (hlen : (setInsert set x).length > 1) : ∃ y ∈ set, y ≠ x := by
  unfold setInsert at hlen
  split_ifs at hlen with hx
  · match set, hnd, hlen, hx with
    | [a], _, hlen, _ => simp at hlen
    | a :: b :: rest, hnd, _, _ =>
      by_cases ha : a = x
      · refine ⟨b, by simp, ?_⟩
        intro hb
        rw [List.nodup_cons] at hnd
        apply hnd.1
        rw [ha, ← hb]
        simp
      · exact ⟨a, by simp, ha⟩
  · match set, hlen, hx with
    | [], hlen, _ => simp at hlen
    | a :: rest, _, hx =>
      refine ⟨a, by simp, ?_⟩
      intro ha
      apply hx
      rw [← ha]
      simp

theorem featureAt_ite_other (c : Prop) [Decidable c]
    (m : List (StmtPtr × InnermostStatementFeature)) (stmt stmt' : StmtPtr)
    (buf buf' : TouchedBuffer) (f : BufferAccessFeature → BufferAccessFeature)
    (h : stmt' ≠ stmt ∨ buf' ≠ buf) :
    featureAt (if c then modifyFeature m stmt buf f else m) stmt' buf' = featureAt m stmt' buf' := by
  split_ifs
  · exact featureAt_modifyFeature_other _ _ _ _ _ _ h
  · rfl

/-- A record other than the one of the current statement and accessed buffer
changes in `EnterMem_` only by the serial-reuse mark. -/
theorem featureAt_EnterMem__other (CanonicalSimplify : PrimExpr → PrimExpr) (s : TouchExtractor)
    (buffer_var : Var) (index : PrimExpr) (access_type : Nat) (st : StmtPtr) (b : TouchedBuffer)
    (h : st ≠ s.current_stmt ∨ b ≠ buffer_var.name_hint) :
    featureAt (EnterMem_ CanonicalSimplify s buffer_var index access_type).innermost_stmt_map st b
      = if (setInsert (mapAt s.buffervar_stmt_map buffer_var []) s.current_stmt).length > 1
            ∧ b = buffer_var.name_hint
            ∧ st ∈ setInsert (mapAt s.buffervar_stmt_map buffer_var []) s.current_stmt
        then markSerial (featureAt s.innermost_stmt_map st b)
        else featureAt s.innermost_stmt_map st b := by
  have hkeep : ∀ fea : InnermostStatementFeature,
      (if access_type ||| kWrite ≠ 0 then
          { fea with output_buffer_size := (resolveBuffer s.buffer_info_ buffer_var.name_hint).buffer_shape }
        else fea).buffer_access_feature = fea.buffer_access_feature := by
    intro fea
    split_ifs <;> rfl
  simp only [EnterMem_]
  rw [featureAt_ite_other _ _ _ _ _ _ _ h, featureAt_ite_other _ _ _ _ _ _ _ h]
  by_cases hser : (setInsert (mapAt s.buffervar_stmt_map buffer_var []) s.current_stmt).length > 1
  · simp only [hser, decide_True, if_true, true_and]
    rw [featureAt_serialLoop, featureAt_modifyFeature_other _ _ _ _ _ _ h,
      featureAt_modifyFeature_other _ _ _ _ _ _ h, featureAt_mapModify_keep _ _ _ _ _ hkeep]
  · simp only [hser, decide_False, false_and, if_false, Bool.false_eq_true]
    rw [featureAt_modifyFeature_other _ _ _ _ _ _ h,
      featureAt_modifyFeature_other _ _ _ _ _ _ h, featureAt_mapModify_keep _ _ _ _ _ hkeep]

/-- The serial bit of the record of the current statement and accessed buffer after `EnterMem_`. -/
theorem serialFlag_EnterMem__current (CanonicalSimplify : PrimExpr → PrimExpr)
    (s : TouchExtractor) (buffer_var : Var) (index : PrimExpr) (access_type : Nat) :
    hasSerialFlag (featureAt
        (EnterMem_ CanonicalSimplify s buffer_var index access_type).innermost_stmt_map
        s.current_stmt buffer_var.name_hint).reuse_type
      = (decide ((setInsert (mapAt s.buffervar_stmt_map buffer_var []) s.current_stmt).length > 1)
          || hasSerialFlag
              (featureAt s.innermost_stmt_map s.current_stmt buffer_var.name_hint).reuse_type) := by
  rw [featureAt_EnterMem_]
  simp only [recordAfterMem]
  rw [memLoop_reuse_type _ _ _ _ rfl]
  split_ifs <;> simp_all [hasSerialFlag_lor_serial, hasSerialFlag_lor_loop]

theorem TraceInv_fresh (buffer_info_ : List (Var × BufferInfo)) :
    TraceInv (TouchExtractor.fresh buffer_info_) [] where
  log_sub := by
    intro st v h
    simp at h
  sub_log := by
    intro st v h
    simp [TouchExtractor.fresh, mapAt, mapFind] at h
  nodup := by
    intro v
    simp [TouchExtractor.fresh, mapAt, mapFind]
  flagged := by
    intro st name h
    have : featureAt (TouchExtractor.fresh buffer_info_).innermost_stmt_map st name = {} := rfl
    rw [this] at h
    exact absurd h (by decide)

theorem TraceInv_EnterInnermostStmt_ (s : TouchExtractor) (log : List (StmtPtr × Var))
    (innermost_stmt : Nat) (h : TraceInv s log) :
    TraceInv (EnterInnermostStmt_ s innermost_stmt) log where
  log_sub := h.log_sub
  sub_log := h.sub_log
  nodup := h.nodup
  flagged := by
    intro st name hflag
    by_cases hst : st = some innermost_stmt
    · subst hst
      have : featureAt (EnterInnermostStmt_ s innermost_stmt).innermost_stmt_map
          (some innermost_stmt) name = {} := by
        simp only [EnterInnermostStmt_, featureAt, mapAt_mapSet, if_true, stmtLoop_buffers]
        rfl
      rw [this] at hflag
      exact absurd hflag (by decide)
    · have : featureAt (EnterInnermostStmt_ s innermost_stmt).innermost_stmt_map st name
          = featureAt s.innermost_stmt_map st name := by
        simp only [EnterInnermostStmt_, featureAt, mapAt_mapSet, hst, if_false]
      rw [this] at hflag
      exact h.flagged st name hflag

theorem TraceInv_EnterMem_ (CanonicalSimplify : PrimExpr → PrimExpr) (s : TouchExtractor)
    (log : List (StmtPtr × Var)) (buffer_var : Var) (index : PrimExpr) (access_type : Nat)
    (h : TraceInv s log) :
    TraceInv (EnterMem_ CanonicalSimplify s buffer_var index access_type)
      (log ++ [(s.current_stmt, buffer_var)]) := by
  have hbsm : ∀ v, mapAt (EnterMem_ CanonicalSimplify s buffer_var index
        access_type).buffervar_stmt_map v []
      = if v = buffer_var then
          setInsert (mapAt s.buffervar_stmt_map buffer_var []) s.current_stmt
        else mapAt s.buffervar_stmt_map v [] := by
    intro v
    simp only [EnterMem_, mapAt_mapSet]
  constructor
  · intro st v hmem
    rw [hbsm]
    rcases List.mem_append.1 hmem with hl | hl
    · split_ifs with hv
      · subst hv
        exact (mem_setInsert _ _ _).2 (Or.inl (h.log_sub st v hl))
      · exact h.log_sub st v hl
    · simp only [List.mem_singleton, Prod.mk.injEq] at hl
      obtain ⟨h1, h2⟩ := hl
      subst h1 h2
      simp only [if_true]
      exact mem_setInsert_self _ _
  · intro st v hmem
    rw [hbsm] at hmem
    split_ifs at hmem with hv
    · subst hv
      rcases (mem_setInsert _ _ _).1 hmem with h1 | h1
      · exact List.mem_append.2 (Or.inl (h.sub_log st v h1))
      · subst h1
        exact List.mem_append.2 (Or.inr (List.mem_singleton.2 rfl))
    · exact List.mem_append.2 (Or.inl (h.sub_log st v hmem))
  · intro v
    rw [hbsm]
    split_ifs
    · exact nodup_setInsert _ _ (h.nodup _)
    · exact h.nodup v
  · intro st name hflag
    by_cases hcur : st = s.current_stmt ∧ name = buffer_var.name_hint
    · obtain ⟨h1, h2⟩ := hcur
      subst h1 h2
      rw [serialFlag_EnterMem__current, Bool.or_eq_true] at hflag
      rcases hflag with hlen | hold
      · obtain ⟨y, hy, hne⟩ := exists_other_of_length_setInsert _ _ (h.nodup buffer_var)
          (of_decide_eq_true hlen)
        exact ⟨buffer_var, y, rfl, List.mem_append.2 (Or.inr (List.mem_singleton.2 rfl)),
          List.mem_append.2 (Or.inl (h.sub_log y buffer_var hy)), hne⟩
      · obtain ⟨v, st', hn, h1, h2, hne⟩ := h.flagged _ _ hold
        exact ⟨v, st', hn, List.mem_append.2 (Or.inl h1), List.mem_append.2 (Or.inl h2), hne⟩
    · have hother : st ≠ s.current_stmt ∨ name ≠ buffer_var.name_hint := by
        by_cases hs : st = s.current_stmt
        · exact Or.inr (fun hn => hcur ⟨hs, hn⟩)
        · exact Or.inl hs
      rw [featureAt_EnterMem__other _ _ _ _ _ _ _ hother] at hflag
      split_ifs at hflag with hc
      · obtain ⟨_, hname, hmem⟩ := hc
        have hst : st ≠ s.current_stmt := by
          rcases hother with h1 | h1
          · exact h1
          · exact absurd hname h1
        have hold : st ∈ mapAt s.buffervar_stmt_map buffer_var [] := by
          rcases (mem_setInsert _ _ _).1 hmem with h1 | h1
          · exact h1
          · exact absurd h1 hst
        exact ⟨buffer_var, s.current_stmt, hname.symm,
          List.mem_append.2 (Or.inl (h.sub_log st buffer_var hold)),
          List.mem_append.2 (Or.inr (List.mem_singleton.2 rfl)), Ne.symm hst⟩
      · obtain ⟨v, st', hn, h1, h2, hne⟩ := h.flagged _ _ hflag
        exact ⟨v, st', hn, List.mem_append.2 (Or.inl h1), List.mem_append.2 (Or.inl h2), hne⟩

theorem TraceInv_logStep (CanonicalSimplify : PrimExpr → PrimExpr)
    (sl : TouchExtractor × List (StmtPtr × Var)) (c : Call) (h : TraceInv sl.1 sl.2) :
    TraceInv (logStep CanonicalSimplify sl c).1 (logStep CanonicalSimplify sl c).2 := by
  cases c with
  | enterItervar var min length is_attr_stmt ann =>
    exact ⟨h.log_sub, h.sub_log, h.nodup, h.flagged⟩
  | exitItervar => exact ⟨h.log_sub, h.sub_log, h.nodup, h.flagged⟩
  | enterInnermostStmt innermost_stmt => exact TraceInv_EnterInnermostStmt_ _ _ _ h
  | exitInnermostStmt => exact ⟨h.log_sub, h.sub_log, h.nodup, h.flagged⟩
  | enterMem buffer_var index access_type => exact TraceInv_EnterMem_ _ _ _ _ _ _ h

theorem logStep_foldl_fst (CanonicalSimplify : PrimExpr → PrimExpr) (calls : List Call)
    (sl : TouchExtractor × List (StmtPtr × Var)) :
    (calls.foldl (logStep CanonicalSimplify) sl).1 = run CanonicalSimplify sl.1 calls := by
  induction calls generalizing sl with
  | nil => rfl
  | cons c rest ih =>
    rw [List.foldl_cons, ih]
    rfl

theorem TraceInv_foldl (CanonicalSimplify : PrimExpr → PrimExpr) (calls : List Call)
    (sl : TouchExtractor × List (StmtPtr × Var)) (h : TraceInv sl.1 sl.2) :
    TraceInv (calls.foldl (logStep CanonicalSimplify) sl).1
      (calls.foldl (logStep CanonicalSimplify) sl).2 := by
  induction calls generalizing sl with
  | nil => exact h
  | cons c rest ih =>
    rw [List.foldl_cons]
    exact ih _ (TraceInv_logStep _ _ _ h)

/-- Every traversal of a fresh extractor keeps the invariant with its access log. -/
theorem TraceInv_run (CanonicalSimplify : PrimExpr → PrimExpr)
    (buffer_info_ : List (Var × BufferInfo)) (calls : List Call) :
    TraceInv (run CanonicalSimplify (TouchExtractor.fresh buffer_info_) calls)
      (accessLog CanonicalSimplify (TouchExtractor.fresh buffer_info_) calls) := by
  have h := TraceInv_foldl CanonicalSimplify calls (TouchExtractor.fresh buffer_info_, [])
    (TraceInv_fresh buffer_info_)
  rw [logStep_foldl_fst] at h
  exact h

theorem accessLog_snoc_enterMem (CanonicalSimplify : PrimExpr → PrimExpr) (s : TouchExtractor)
    (pre : List Call) (buffer_var : Var) (index : PrimExpr) (access_type : Nat) :
    accessLog CanonicalSimplify s (pre ++ [.enterMem buffer_var index access_type])
      = accessLog CanonicalSimplify s pre
          ++ [((run CanonicalSimplify s pre).current_stmt, buffer_var)] := by
  simp only [accessLog, List.foldl_append, List.foldl_cons, List.foldl_nil, logStep,
    logStep_foldl_fst]

theorem run_snoc (CanonicalSimplify : PrimExpr → PrimExpr) (s : TouchExtractor)
    (pre : List Call) (c : Call) :
    run CanonicalSimplify s (pre ++ [c])
      = step CanonicalSimplify (run CanonicalSimplify s pre) c := by
  simp [run, List.foldl_append]

/-- C3. Reuse propagation: in every traversal of a fresh extractor, when an
`EnterMem_` call records an access to a buffer variable that a statement other
than the current one has accessed before, then after the call the record of
that buffer in every statement that accessed it so far, the current one
included, carries the serial-multiple-read flag. -/
theorem serial_reuse_propagation (CanonicalSimplify : PrimExpr → PrimExpr)
    (buffer_info_ : List (Var × BufferInfo)) (pre : List Call) (buffer_var : Var)
    (index : PrimExpr) (access_type : Nat) (st : StmtPtr)
    (hprev : ∃ st', (st', buffer_var)
        ∈ accessLog CanonicalSimplify (TouchExtractor.fresh buffer_info_) pre
      ∧ st' ≠ (run CanonicalSimplify (TouchExtractor.fresh buffer_info_) pre).current_stmt)
    (hacc : (st, buffer_var) ∈ accessLog CanonicalSimplify (TouchExtractor.fresh buffer_info_)
        (pre ++ [.enterMem buffer_var index access_type])) :
    hasSerialFlag (featureAt (run CanonicalSimplify (TouchExtractor.fresh buffer_info_)
        (pre ++ [.enterMem buffer_var index access_type])).innermost_stmt_map st
        buffer_var.name_hint).reuse_type = true := by
  have inv := TraceInv_run CanonicalSimplify buffer_info_ pre
  obtain ⟨st', hlog, hne⟩ := hprev
  have hlen := length_setInsert_of_other _ _ _ (inv.log_sub st' buffer_var hlog) hne
  rw [accessLog_snoc_enterMem] at hacc
  have hmem : st ∈ setInsert (mapAt (run CanonicalSimplify (TouchExtractor.fresh buffer_info_)
      pre).buffervar_stmt_map buffer_var [])
      (run CanonicalSimplify (TouchExtractor.fresh buffer_info_) pre).current_stmt := by
    rw [mem_setInsert]
    rcases List.mem_append.1 hacc with h1 | h1
    · exact Or.inl (inv.log_sub st buffer_var h1)
    · simp only [List.mem_singleton, Prod.mk.injEq] at h1
      exact Or.inr h1.1
  rw [run_snoc]
  simp only [step]
  by_cases hst : st = (run CanonicalSimplify (TouchExtractor.fresh buffer_info_) pre).current_stmt
  · rw [hst, serialFlag_EnterMem__current, decide_eq_true hlen]
    rfl
  · rw [featureAt_EnterMem__other _ _ _ _ _ _ _ (Or.inl hst), if_pos ⟨hlen, rfl, hmem⟩]
    exact hasSerialFlag_lor_serial _

/-- C3, at a traversal where statement `0` read `B` and statement `1` now
accesses it: the record of `B` in statement `0` gets the flag. -/
theorem serial_reuse_propagation_witness :
    (∃ st', (st', exB) ∈ accessLog id (TouchExtractor.fresh []) exTwoStmts
      ∧ st' ≠ (run id (TouchExtractor.fresh []) exTwoStmts).current_stmt)
    ∧ (some 0, exB) ∈ accessLog id (TouchExtractor.fresh [])
        (exTwoStmts ++ [.enterMem exB (.intImm 0) kWrite])
    ∧ hasSerialFlag (featureAt (run id (TouchExtractor.fresh [])
        (exTwoStmts ++ [.enterMem exB (.intImm 0) kWrite])).innermost_stmt_map (some 0)
        exB.name_hint).reuse_type = true :=
  ⟨⟨some 0, by decide, by decide⟩, by decide,
    serial_reuse_propagation id [] exTwoStmts exB (.intImm 0) kWrite (some 0)
      ⟨some 0, by decide, by decide⟩ (by decide)⟩

/-- C4 (as stated, refuted). When `B` is read outside any store statement and
statement `0` then writes `B`, the record of `B` in statement `0` carries the
serial-multiple-read flag although statement `0` is the only statement that
accesses `B`: the access made with a null current statement counts as an
appearance. And when two variables bear the name `B`, the second one accessed
by statement `0` alone, the record of that name in statement `0` is flagged by
the accesses to the first one. -/
theorem single_statement_serial_counterexample :
    accessLog id (TouchExtractor.fresh []) exOutside = [(none, exB), (some 0, exB)]
    ∧ hasSerialFlag (featureAt (run id (TouchExtractor.fresh [])
        exOutside).innermost_stmt_map (some 0) exB.name_hint).reuse_type = true
    ∧ accessLog id (TouchExtractor.fresh []) exSameName
        = [(some 0, exB2), (some 0, exB), (some 1, exB)]
    ∧ exB2 ≠ exB
    ∧ exB2.name_hint = exB.name_hint
    ∧ hasSerialFlag (featureAt (run id (TouchExtractor.fresh [])
        exSameName).innermost_stmt_map (some 0) exB2.name_hint).reuse_type = true := by
  decide

/-- C4 (amended). In every traversal of a fresh extractor, a record carries
the serial-multiple-read flag only if a buffer variable of its name was
accessed under its statement and under another current statement, where the
accesses made outside any store statement (null current statement) count as
made under a statement of their own; hence, if all the accesses to the buffer
variables bearing one name are made under one current statement, however many
they are, no record of that name carries the flag. -/
theorem single_statement_never_serial (CanonicalSimplify : PrimExpr → PrimExpr)
    (buffer_info_ : List (Var × BufferInfo)) (calls : List Call) (name : TouchedBuffer)
    (st : StmtPtr) :
    (hasSerialFlag (featureAt (run CanonicalSimplify (TouchExtractor.fresh buffer_info_)
        calls).innermost_stmt_map st name).reuse_type = true →
      ∃ v st', v.name_hint = name
        ∧ (st, v) ∈ accessLog CanonicalSimplify (TouchExtractor.fresh buffer_info_) calls
        ∧ (st', v) ∈ accessLog CanonicalSimplify (TouchExtractor.fresh buffer_info_) calls
        ∧ st' ≠ st)
    ∧ (∀ st0 : StmtPtr,
        (∀ st' v, (st', v) ∈ accessLog CanonicalSimplify (TouchExtractor.fresh buffer_info_) calls →
          v.name_hint = name → st' = st0) →
        hasSerialFlag (featureAt (run CanonicalSimplify (TouchExtractor.fresh buffer_info_)
          calls).innermost_stmt_map st name).reuse_type = false) := by
  have inv := TraceInv_run CanonicalSimplify buffer_info_ calls
  refine ⟨inv.flagged st name, ?_⟩
  intro st0 hone
  cases hflag : hasSerialFlag (featureAt (run CanonicalSimplify
      (TouchExtractor.fresh buffer_info_) calls).innermost_stmt_map st name).reuse_type with
  | false => rfl
  | true =>
    obtain ⟨v, st', hn, h1, h2, hne⟩ := inv.flagged st name hflag
    exact absurd ((hone st' v h2 hn).trans (hone st v h1 hn).symm) hne

/-- C4 (amended), at a traversal where statement `0` alone accesses `B`, twice. -/
theorem single_statement_never_serial_witness :
    (∀ st v, (st, v) ∈ accessLog id (TouchExtractor.fresh []) exOneStmt →
      v.name_hint = exB.name_hint → st = some 0)
    ∧ hasSerialFlag (featureAt (run id (TouchExtractor.fresh [])
        exOneStmt).innermost_stmt_map (some 0) exB.name_hint).reuse_type = false :=
  have hone : ∀ st v, (st, v) ∈ accessLog id (TouchExtractor.fresh []) exOneStmt →
      v.name_hint = exB.name_hint → st = some 0 := by
    intro st v h _
    have hl : accessLog id (TouchExtractor.fresh []) exOneStmt
        = [(some 0, exB), (some 0, exB)] := by decide
    rw [hl] at h
    simp only [List.mem_cons, Prod.mk.injEq, List.mem_singleton, List.not_mem_nil, or_false,
      or_self] at h
    exact h.1
  ⟨hone,
    (single_statement_never_serial id [] exOneStmt exB.name_hint (some 0)).2 (some 0) hone⟩


/-! ## Records are maps: their buffer keys stay distinct -/

theorem mapKeys_mapModify {κ ν : Type} [DecidableEq κ] (m : List (κ × ν)) (k : κ) (d : ν)
    (f : ν → ν) :
    mapKeys (mapModify m k d f) = if k ∈ mapKeys m then mapKeys m else mapKeys m ++ [k] := by
  induction m with
  | nil => simp [mapModify, mapKeys]
  | cons p rest ih =>
    obtain ⟨k', v⟩ := p
    by_cases h : k' = k
    · subst h
      simp [mapModify, mapKeys]
    · have hne : ¬ k = k' := fun e => h e.symm
      simp only [mapModify, h, if_false, mapKeys, List.map_cons, List.mem_cons, hne, false_or,
        List.cons_append]
      simp only [mapKeys] at ih
      rw [ih]
      split_ifs <;> rfl

theorem nodup_mapKeys_mapModify {κ ν : Type} [DecidableEq κ] (m : List (κ × ν)) (k : κ) (d : ν)
    (f : ν → ν) (h : (mapKeys m).Nodup) : (mapKeys (mapModify m k d f)).Nodup := by
  rw [mapKeys_mapModify]
  split_ifs with hk
  · exact h
  · rw [List.nodup_append]
    refine ⟨h, List.nodup_singleton _, ?_⟩
    intro a ha hb
    rw [List.mem_singleton] at hb
    exact hk (hb ▸ ha)

theorem keysNodup_mapModify (m : List (StmtPtr × InnermostStatementFeature)) (stmt : StmtPtr)
    (g : InnermostStatementFeature → InnermostStatementFeature)
    (hg : ∀ fea, (mapKeys fea.buffer_access_feature).Nodup →
      (mapKeys (g fea).buffer_access_feature).Nodup)
    (h : ∀ st, (mapKeys (mapAt m st {}).buffer_access_feature).Nodup) (st : StmtPtr) :
    (mapKeys (mapAt (mapModify m stmt {} g) st {}).buffer_access_feature).Nodup := by
  by_cases hs : st = stmt
  · subst hs
    rw [mapAt_mapModify_same]
    exact hg _ (h st)
  · rw [mapAt_mapModify_other _ _ _ _ _ _ hs]
    exact h st

theorem keysNodup_modifyFeature (m : List (StmtPtr × InnermostStatementFeature)) (stmt : StmtPtr)
    (buf : TouchedBuffer) (f : BufferAccessFeature → BufferAccessFeature)
    (h : ∀ st, (mapKeys (mapAt m st {}).buffer_access_feature).Nodup) (st : StmtPtr) :
    (mapKeys (mapAt (modifyFeature m stmt buf f) st {}).buffer_access_feature).Nodup :=
  keysNodup_mapModify m stmt _ (fun _ hf => nodup_mapKeys_mapModify _ _ _ _ hf) h st

theorem keysNodup_serialLoop (appearances : List StmtPtr) (buf : TouchedBuffer)
    (m : List (StmtPtr × InnermostStatementFeature))
    (h : ∀ st, (mapKeys (mapAt m st {}).buffer_access_feature).Nodup) (st : StmtPtr) :
    (mapKeys (mapAt (appearances.foldl (fun m stmt => modifyFeature m stmt buf markSerial) m)
      st {}).buffer_access_feature).Nodup := by
  induction appearances generalizing m with
  | nil => exact h st
  | cons a rest ih =>
    rw [List.foldl_cons]
    exact ih _ (keysNodup_modifyFeature m a buf markSerial h)

theorem keysNodup_ite (c : Prop) [Decidable c]
    (m m' : List (StmtPtr × InnermostStatementFeature))
    (h : ∀ st, (mapKeys (mapAt m st {}).buffer_access_feature).Nodup)
    (h' : ∀ st, (mapKeys (mapAt m' st {}).buffer_access_feature).Nodup) (st : StmtPtr) :
    (mapKeys (mapAt (if c then m' else m) st {}).buffer_access_feature).Nodup := by
  split_ifs
  · exact h' st
  · exact h st

theorem keysNodup_EnterMem_ (CanonicalSimplify : PrimExpr → PrimExpr) (s : TouchExtractor)
    (buffer_var : Var) (index : PrimExpr) (access_type : Nat)
    (h : ∀ st, (mapKeys (mapAt s.innermost_stmt_map st {}).buffer_access_feature).Nodup)
    (st : StmtPtr) :
    (mapKeys (mapAt (EnterMem_ CanonicalSimplify s buffer_var index
      access_type).innermost_stmt_map st {}).buffer_access_feature).Nodup := by
  have h1 := keysNodup_mapModify s.innermost_stmt_map s.current_stmt
    (fun fea => if access_type ||| kWrite ≠ 0 then
        { fea with
          output_buffer_size := (resolveBuffer s.buffer_info_ buffer_var.name_hint).buffer_shape }
      else fea)
    (by intro fea hf; split_ifs <;> exact hf) h
  simp only [EnterMem_]
  apply keysNodup_ite
  · apply keysNodup_ite
    · apply keysNodup_ite
      · exact keysNodup_modifyFeature _ _ _ _ (keysNodup_modifyFeature _ _ _ _ h1)
      · exact keysNodup_serialLoop _ _ _
          (keysNodup_modifyFeature _ _ _ _ (keysNodup_modifyFeature _ _ _ _ h1))
    · apply keysNodup_modifyFeature
      apply keysNodup_ite
      · exact keysNodup_modifyFeature _ _ _ _ (keysNodup_modifyFeature _ _ _ _ h1)
      · exact keysNodup_serialLoop _ _ _
          (keysNodup_modifyFeature _ _ _ _ (keysNodup_modifyFeature _ _ _ _ h1))
  · apply keysNodup_modifyFeature
    apply keysNodup_ite
    · apply keysNodup_ite
      · exact keysNodup_modifyFeature _ _ _ _ (keysNodup_modifyFeature _ _ _ _ h1)
      · exact keysNodup_serialLoop _ _ _
          (keysNodup_modifyFeature _ _ _ _ (keysNodup_modifyFeature _ _ _ _ h1))
    · apply keysNodup_modifyFeature
      apply keysNodup_ite
      · exact keysNodup_modifyFeature _ _ _ _ (keysNodup_modifyFeature _ _ _ _ h1)
      · exact keysNodup_serialLoop _ _ _
          (keysNodup_modifyFeature _ _ _ _ (keysNodup_modifyFeature _ _ _ _ h1))

theorem keysNodup_step (CanonicalSimplify : PrimExpr → PrimExpr) (s : TouchExtractor) (c : Call)
    (h : ∀ st, (mapKeys (mapAt s.innermost_stmt_map st {}).buffer_access_feature).Nodup)
    (st : StmtPtr) :
    (mapKeys (mapAt (step CanonicalSimplify s c).innermost_stmt_map st {}).buffer_access_feature).Nodup := by
  cases c with
  | enterItervar var min length is_attr_stmt ann => exact h st
  | exitItervar => exact h st
  | enterInnermostStmt innermost_stmt =>
    simp only [step, EnterInnermostStmt_, mapAt_mapSet]
    split_ifs
    · rw [stmtLoop_buffers]
      exact List.nodup_nil
    · exact h st
  | exitInnermostStmt => exact h st
  | enterMem buffer_var index access_type => exact keysNodup_EnterMem_ _ _ _ _ _ h st

/-- In every traversal of a fresh extractor, every statement record is a map:
its buffer keys are distinct. -/
theorem keysNodup_run (CanonicalSimplify : PrimExpr → PrimExpr)
    (buffer_info_ : List (Var × BufferInfo)) (calls : List Call) (st : StmtPtr) :
    (mapKeys (mapAt (run CanonicalSimplify (TouchExtractor.fresh buffer_info_)
      calls).innermost_stmt_map st {}).buffer_access_feature).Nodup := by
  have gen : ∀ (calls : List Call) (s : TouchExtractor),
      (∀ st, (mapKeys (mapAt s.innermost_stmt_map st {}).buffer_access_feature).Nodup) →
      ∀ st, (mapKeys (mapAt (run CanonicalSimplify s calls).innermost_stmt_map st
        {}).buffer_access_feature).Nodup := by
    intro calls
    induction calls with
    | nil => intro s h; exact h
    | cons c rest ih =>
      intro s h
      exact ih _ (keysNodup_step CanonicalSimplify s c h)
  have h0 : ∀ st, (mapKeys (mapAt (TouchExtractor.fresh buffer_info_).innermost_stmt_map st
      {}).buffer_access_feature).Nodup := fun _ => List.nodup_nil
  exact gen calls _ h0 st


/-! ## Statement-level effects of `EnterMem_` -/

theorem obs_modifyFeature (m : List (StmtPtr × InnermostStatementFeature)) (stmt st : StmtPtr)
    (buf : TouchedBuffer) (f : BufferAccessFeature → BufferAccessFeature) :
    (mapAt (modifyFeature m stmt buf f) st {}).output_buffer_size
      = (mapAt m st {}).output_buffer_size := by
  by_cases hs : st = stmt
  · subst hs
    simp [modifyFeature, mapAt_mapModify_same]
  · simp [modifyFeature, mapAt_mapModify_other _ _ _ _ _ _ hs]

theorem obs_serialLoop (appearances : List StmtPtr) (buf : TouchedBuffer)
    (m : List (StmtPtr × InnermostStatementFeature)) (st : StmtPtr) :
    (mapAt (appearances.foldl (fun m stmt => modifyFeature m stmt buf markSerial) m)
        st {}).output_buffer_size
      = (mapAt m st {}).output_buffer_size := by
  induction appearances generalizing m with
  | nil => rfl
  | cons a rest ih => rw [List.foldl_cons, ih, obs_modifyFeature]

theorem obs_ite (c : Prop) [Decidable c] (m : List (StmtPtr × InnermostStatementFeature))
    (stmt st : StmtPtr) (buf : TouchedBuffer) (f : BufferAccessFeature → BufferAccessFeature) :
    (mapAt (if c then modifyFeature m stmt buf f else m) st {}).output_buffer_size
      = (mapAt m st {}).output_buffer_size := by
  split_ifs
  · exact obs_modifyFeature _ _ _ _ _
  · rfl

theorem lor_kWrite_ne_zero (access_type : Nat) : access_type ||| kWrite ≠ 0 := by
  intro h
  have h1 : (access_type ||| kWrite).testBit 1 = true := by
    rw [Nat.testBit_or]
    have : Nat.testBit kWrite 1 = true := by decide
    simp [this]
  rw [h] at h1
  simp at h1

/-- The `output_buffer_size` of the current statement after `EnterMem_`. -/
theorem obs_EnterMem_ (CanonicalSimplify : PrimExpr → PrimExpr) (s : TouchExtractor)
    (buffer_var : Var) (index : PrimExpr) (access_type : Nat) :
    (mapAt (EnterMem_ CanonicalSimplify s buffer_var index access_type).innermost_stmt_map
        s.current_stmt {}).output_buffer_size
      = (resolveBuffer s.buffer_info_ buffer_var.name_hint).buffer_shape := by
  simp only [EnterMem_]
  rw [obs_ite, obs_ite]
  have h4 : ∀ (c : Prop) [Decidable c] (m m' : List (StmtPtr × InnermostStatementFeature)),
      (mapAt m' s.current_stmt {}).output_buffer_size
        = (mapAt m s.current_stmt {}).output_buffer_size →
      (mapAt (if c then m' else m) s.current_stmt {}).output_buffer_size
        = (mapAt m s.current_stmt {}).output_buffer_size := by
    intro c _ m m' h
    split_ifs
    · exact h
    · rfl
  rw [h4 _ _ _ (obs_serialLoop _ _ _ _), obs_modifyFeature, obs_modifyFeature,
    mapAt_mapModify_same, if_pos (lor_kWrite_ne_zero access_type)]

/-- The registry loop stops at the first entry whose name is a prefix of the accessed name. -/
theorem resolveBuffer_first_match (pre rest : List (Var × BufferInfo)) (item : Var × BufferInfo)
    (s1 : List Char) (hpre : ∀ p ∈ pre, p.1.name_hint.isPrefixOf s1 = false)
    (hitem : item.1.name_hint.isPrefixOf s1 = true) :
    resolveBuffer (pre ++ item :: rest) s1
      = { buffer_shape := item.2.shape
          buffer_elem_bytes := item.2.dtype_bytes
          buffer_scope := if s1 = item.1.name_hint then item.2.scope else scopeOfName s1 } := by
  induction pre with
  | nil => simp [resolveBuffer, hitem]
  | cons a pre' ih =>
    have ha : a.1.name_hint.isPrefixOf s1 = false := hpre a (List.mem_cons_self _ _)
    simp only [List.cons_append, resolveBuffer, ha]
    exact ih (fun p hp => hpre p (List.mem_cons_of_mem _ hp))

/-- The `bytes` of the record of the current statement and accessed buffer after `EnterMem_`. -/
theorem bytes_EnterMem_ (CanonicalSimplify : PrimExpr → PrimExpr) (s : TouchExtractor)
    (buffer_var : Var) (index : PrimExpr) (access_type : Nat) :
    (featureAt (EnterMem_ CanonicalSimplify s buffer_var index access_type).innermost_stmt_map
        s.current_stmt buffer_var.name_hint).bytes
      = (featureAt s.innermost_stmt_map s.current_stmt buffer_var.name_hint).bytes
        + (resolveBuffer s.buffer_info_ buffer_var.name_hint).buffer_elem_bytes
          * prodExtents s.extent s.itervar_stack_ := by
  rw [featureAt_EnterMem_]
  simp only [recordAfterMem, memLoop_bytes]

/-- C20. `EnterMem_` overwrites the current statement's `output_buffer_size`
with the resolved shape on every access, whatever the access type: the guard
`access_type | kWrite` is non-zero for every access type; so a read recorded
after the store's write leaves the shape of the buffer that was read. -/
theorem output_buffer_size_overwritten (CanonicalSimplify : PrimExpr → PrimExpr)
    (s : TouchExtractor) (buffer_var : Var) (index : PrimExpr) (access_type : Nat) :
    access_type ||| kWrite ≠ 0
    ∧ (mapAt (EnterMem_ CanonicalSimplify s buffer_var index access_type).innermost_stmt_map
        s.current_stmt {}).output_buffer_size
      = (resolveBuffer s.buffer_info_ buffer_var.name_hint).buffer_shape
    ∧ (mapAt (run id (TouchExtractor.fresh exInOut)
          [.enterInnermostStmt 0, .enterMem exB (.intImm 0) kWrite]).innermost_stmt_map
        (some 0) {}).output_buffer_size = [32]
    ∧ (mapAt (run id (TouchExtractor.fresh exInOut)
          [.enterInnermostStmt 0, .enterMem exB (.intImm 0) kWrite,
           .enterMem exA (.intImm 0) kRead]).innermost_stmt_map
        (some 0) {}).output_buffer_size = [16] :=
  ⟨lor_kWrite_ne_zero access_type, obs_EnterMem_ _ _ _ _ _, by decide, by decide⟩

/-- C17. After every `EnterMem_` call the record's `topdown` is the product of
the extents of exactly the non-attribute scopes on the scope stack (the empty
product, 1, when there are none), whatever it was before, provided that this
product, built up one scope at a time, stays within `int64_t`; the attribute
scopes are multiplied into the `bytes` added, which take every scope, under the
same proviso for that product and the sum (under a thread-binding scope of
extent 4 around a loop of extent 8, `topdown` is 8 and the bytes of a 4-byte
element are 128). -/
theorem topdown_non_attribute_scopes (CanonicalSimplify : PrimExpr → PrimExpr)
    (s : TouchExtractor) (buffer_var : Var) (index : PrimExpr) (access_type : Nat)
    (htop : extentsFit s.extent 1 (s.itervar_stack_.filter (fun item => !item.2.1)) = true) :
    (featureAt (EnterMem_ CanonicalSimplify s buffer_var index access_type).innermost_stmt_map
        s.current_stmt buffer_var.name_hint).topdown
      = prodExtents s.extent (s.itervar_stack_.filter (fun item => !item.2.1))
    ∧ fitsInt64 (featureAt
          (EnterMem_ CanonicalSimplify s buffer_var index access_type).innermost_stmt_map
          s.current_stmt buffer_var.name_hint).topdown = true
    ∧ prodExtents s.extent [] = 1
    ∧ (extentsFit s.extent (resolveBuffer s.buffer_info_ buffer_var.name_hint).buffer_elem_bytes
          s.itervar_stack_ = true →
        fitsInt64 ((featureAt s.innermost_stmt_map s.current_stmt buffer_var.name_hint).bytes
          + (resolveBuffer s.buffer_info_ buffer_var.name_hint).buffer_elem_bytes
            * prodExtents s.extent s.itervar_stack_) = true →
        (featureAt (EnterMem_ CanonicalSimplify s buffer_var index access_type).innermost_stmt_map
          s.current_stmt buffer_var.name_hint).bytes
        = (featureAt s.innermost_stmt_map s.current_stmt buffer_var.name_hint).bytes
          + (resolveBuffer s.buffer_info_ buffer_var.name_hint).buffer_elem_bytes
            * prodExtents s.extent s.itervar_stack_)
    ∧ (featureAt (EnterMem_ id exAttrNest exB (.var exJ) kWrite).innermost_stmt_map
        (some 0) exB.name_hint).topdown = 8
    ∧ (featureAt (EnterMem_ id exAttrNest exB (.var exJ) kWrite).innermost_stmt_map
        (some 0) exB.name_hint).bytes = 128 := by
  have ht : (featureAt
      (EnterMem_ CanonicalSimplify s buffer_var index access_type).innermost_stmt_map
        s.current_stmt buffer_var.name_hint).topdown
      = prodExtents s.extent (s.itervar_stack_.filter (fun item => !item.2.1)) := by
    rw [featureAt_EnterMem_]
    simp only [recordAfterMem, memLoop_topdown, one_mul]
  have hrep := extentsFit_prod _ _ _ htop
  rw [one_mul] at hrep
  exact ⟨ht, by rw [ht]; exact hrep, rfl, fun _ _ => bytes_EnterMem_ _ _ _ _ _, by decide,
    by decide⟩

/-- C17, under a thread-binding scope `i` of extent 4 around a loop `j` of
extent 8: the non-attribute product is 8 and `topdown` is 8. -/
theorem topdown_non_attribute_scopes_witness :
    extentsFit exAttrNest.extent 1 (exAttrNest.itervar_stack_.filter (fun item => !item.2.1))
      = true
    ∧ prodExtents exAttrNest.extent (exAttrNest.itervar_stack_.filter (fun item => !item.2.1))
      = 8
    ∧ prodExtents exAttrNest.extent exAttrNest.itervar_stack_ = 32
    ∧ (featureAt (EnterMem_ id exAttrNest exB (.var exJ) kWrite).innermost_stmt_map
        exAttrNest.current_stmt exB.name_hint).topdown
      = prodExtents exAttrNest.extent (exAttrNest.itervar_stack_.filter (fun item => !item.2.1)) :=
  ⟨by decide, by decide, by decide,
    (topdown_non_attribute_scopes id exAttrNest exB (.var exJ) kWrite (by decide)).1⟩

/-- C11 (as stated, refuted). With `A` and `A.shared` both registered and
`A.shared` accessed, a registry iterated with `A` first makes `EnterMem_` use
the shape and element size of `A`, the shorter name; iterated the other way it
uses those of `A.shared`: the choice is the first match, and it depends on the
iteration order. -/
theorem longest_prefix_counterexample :
    exShortFirst.Perm exLongFirst
    ∧ exA.name_hint.isPrefixOf exAShared.name_hint = true
    ∧ exAShared.name_hint.isPrefixOf exAShared.name_hint = true
    ∧ exA.name_hint.length < exAShared.name_hint.length
    ∧ (resolveBuffer exShortFirst exAShared.name_hint).buffer_shape = [16]
    ∧ (resolveBuffer exShortFirst exAShared.name_hint).buffer_elem_bytes = 4
    ∧ (resolveBuffer exLongFirst exAShared.name_hint).buffer_shape = [8]
    ∧ (resolveBuffer exLongFirst exAShared.name_hint).buffer_elem_bytes = 2
    ∧ (mapAt (run id (TouchExtractor.fresh exShortFirst)
          [.enterInnermostStmt 0, .enterMem exAShared (.intImm 0) kRead]).innermost_stmt_map
        (some 0) {}).output_buffer_size = [16]
    ∧ (mapAt (run id (TouchExtractor.fresh exLongFirst)
          [.enterInnermostStmt 0, .enterMem exAShared (.intImm 0) kRead]).innermost_stmt_map
        (some 0) {}).output_buffer_size = [8] := by
  refine ⟨?_, by decide, by decide, by decide, by decide, by decide, by decide, by decide,
    by decide, by decide⟩
  exact List.Perm.swap _ _ _

/-- C11 (amended). Buffer metadata resolution picks the first prefix match:
for every registry and accessed name, the shape and element size used by
`EnterMem_` are those of the first registered buffer, in the order in which the
registry is iterated, whose name is a prefix of the accessed name. -/
theorem registry_first_prefix_match (CanonicalSimplify : PrimExpr → PrimExpr)
    (s : TouchExtractor) (buffer_var : Var) (index : PrimExpr) (access_type : Nat)
    (pre rest : List (Var × BufferInfo)) (item : Var × BufferInfo)
    (hreg : s.buffer_info_ = pre ++ item :: rest)
    (hpre : ∀ p ∈ pre, p.1.name_hint.isPrefixOf buffer_var.name_hint = false)
    (hitem : item.1.name_hint.isPrefixOf buffer_var.name_hint = true) :
    (resolveBuffer s.buffer_info_ buffer_var.name_hint).buffer_shape = item.2.shape
    ∧ (resolveBuffer s.buffer_info_ buffer_var.name_hint).buffer_elem_bytes = item.2.dtype_bytes
    ∧ (mapAt (EnterMem_ CanonicalSimplify s buffer_var index access_type).innermost_stmt_map
        s.current_stmt {}).output_buffer_size = item.2.shape
    ∧ (featureAt (EnterMem_ CanonicalSimplify s buffer_var index access_type).innermost_stmt_map
        s.current_stmt buffer_var.name_hint).bytes
      = (featureAt s.innermost_stmt_map s.current_stmt buffer_var.name_hint).bytes
        + item.2.dtype_bytes * prodExtents s.extent s.itervar_stack_ := by
  have h := resolveBuffer_first_match pre rest item buffer_var.name_hint hpre hitem
  rw [← hreg] at h
  refine ⟨by rw [h], by rw [h], ?_, ?_⟩
  · rw [obs_EnterMem_, h]
  · rw [bytes_EnterMem_, h]

/-- C11 (amended), at the registry listing `A` before `A.shared`: the access
to `A.shared` uses the metadata of `A`. -/
theorem registry_first_prefix_match_witness :
    (TouchExtractor.fresh exShortFirst).buffer_info_
        = [] ++ (exA, ⟨[16], 4, "global".toList⟩) :: [(exAShared, ⟨[8], 2, "shared".toList⟩)]
    ∧ exA.name_hint.isPrefixOf exAShared.name_hint = true
    ∧ (resolveBuffer (TouchExtractor.fresh exShortFirst).buffer_info_
        exAShared.name_hint).buffer_shape = [16] :=
  ⟨rfl, by decide,
    (registry_first_prefix_match id (TouchExtractor.fresh exShortFirst) exAShared (.intImm 0)
      kRead [] [(exAShared, ⟨[8], 2, "shared".toList⟩)] (exA, ⟨[16], 4, "global".toList⟩) rfl
      (by intro p hp; simp at hp) (by decide)).1⟩


/-! ## Resolved scope -/

theorem rfind_last (p suf : List Char) (c : Char) (h : c ∉ suf) :
    rfind (p ++ c :: suf) c = some p.length := by
  have hrev : (p ++ c :: suf).reverse = suf.reverse ++ c :: p.reverse := by simp
  have hidx : (p ++ c :: suf).reverse.indexOf c = suf.length := by
    rw [hrev, List.indexOf_append_of_not_mem (by simpa using h), List.indexOf_cons_self]
    simp
  unfold rfind
  simp only [hidx, List.length_append, List.length_cons]
  rw [if_pos (by omega)]
  congr 1
  omega

theorem rfind_none (s : List Char) (c : Char) (h : c ∉ s) : rfind s c = none := by
  have hidx : s.reverse.indexOf c = s.length := by
    rw [List.indexOf_of_not_mem (by simpa using h), List.length_reverse]
  unfold rfind
  simp [hidx]

theorem scopeOfName_after_last_dot (p suf : List Char) (h : '.' ∉ suf) :
    scopeOfName (p ++ '.' :: suf) = suf := by
  unfold scopeOfName
  rw [rfind_last p suf '.' h]
  simp

theorem scopeOfName_no_dot (s : List Char) (h : '.' ∉ s) : scopeOfName s = s := by
  unfold scopeOfName
  rw [rfind_none s '.' h]
  rfl

/-- C18 (as stated, refuted). With `conv` and `conv.out` both registered as
global and `conv` iterated first, the access to `conv.out`, a registered name,
does not use its registered scope: the loop stops at `conv`, whose name differs
from the accessed one, and the scope is `out`, the part after the last `.`; the
record then gets no `lines`. Iterated the other way, the registered scope
`global` is used. -/
theorem registered_scope_counterexample :
    (exConvOut, (⟨[8], 4, "global".toList⟩ : BufferInfo)) ∈ exConvFirst
    ∧ (resolveBuffer exConvFirst exConvOut.name_hint).buffer_scope = "out".toList
    ∧ (resolveBuffer exConvFirst exConvOut.name_hint).buffer_scope ≠ "global".toList
    ∧ (featureAt (run id (TouchExtractor.fresh exConvFirst)
        [.enterInnermostStmt 0, .enterMem exConvOut (.intImm 0) kWrite]).innermost_stmt_map
        (some 0) exConvOut.name_hint).lines = 0
    ∧ exConvFirst.Perm exConvOutFirst
    ∧ (resolveBuffer exConvOutFirst exConvOut.name_hint).buffer_scope = "global".toList
    ∧ (featureAt (run id (TouchExtractor.fresh exConvOutFirst)
        [.enterInnermostStmt 0, .enterMem exConvOut (.intImm 0) kWrite]).innermost_stmt_map
        (some 0) exConvOut.name_hint).lines = 1 := by
  refine ⟨by decide, by decide, by decide, by decide, ?_, by decide, by decide⟩
  exact List.Perm.swap _ _ _

/-- C18 (amended). For every access whose name has a registered prefix match,
the scope used by `EnterMem_` is decided by the first registered name, in the
order in which the registry is iterated, that is a prefix of the accessed
name: if the accessed name equals that name, the scope is the one registered
for it; otherwise, whether or not the accessed name is itself registered
further on, it is the part of the accessed name after its last `.`, and the
whole accessed name when it contains no `.` (its only dot-separated
component). -/
theorem resolved_scope (s : TouchExtractor) (buffer_var : Var)
    (pre rest : List (Var × BufferInfo)) (item : Var × BufferInfo)
    (hreg : s.buffer_info_ = pre ++ item :: rest)
    (hpre : ∀ p ∈ pre, p.1.name_hint.isPrefixOf buffer_var.name_hint = false)
    (hitem : item.1.name_hint.isPrefixOf buffer_var.name_hint = true) :
    (buffer_var.name_hint = item.1.name_hint →
      (resolveBuffer s.buffer_info_ buffer_var.name_hint).buffer_scope = item.2.scope)
    ∧ (∀ p suf : List Char, buffer_var.name_hint ≠ item.1.name_hint →
        buffer_var.name_hint = p ++ '.' :: suf → '.' ∉ suf →
        (resolveBuffer s.buffer_info_ buffer_var.name_hint).buffer_scope = suf)
    ∧ (buffer_var.name_hint ≠ item.1.name_hint → '.' ∉ buffer_var.name_hint →
        (resolveBuffer s.buffer_info_ buffer_var.name_hint).buffer_scope
          = buffer_var.name_hint) := by
  have h := resolveBuffer_first_match pre rest item buffer_var.name_hint hpre hitem
  rw [← hreg] at h
  refine ⟨?_, ?_, ?_⟩
  · intro he
    rw [h]
    simp [he]
  · intro p suf hne hs hdot
    rw [h]
    simp only [hne, if_false]
    rw [hs]
    exact scopeOfName_after_last_dot p suf hdot
  · intro hne hdot
    rw [h]
    simp only [hne, if_false]
    exact scopeOfName_no_dot _ hdot

/-- C18 (amended), at the registry listing `A` first and the access to `A.shared`: the
name differs from the registered `A`, and the scope is `shared`. -/
theorem resolved_scope_witness :
    (TouchExtractor.fresh exShortFirst).buffer_info_
        = [] ++ (exA, ⟨[16], 4, "global".toList⟩) :: [(exAShared, ⟨[8], 2, "shared".toList⟩)]
    ∧ exA.name_hint.isPrefixOf exAShared.name_hint = true
    ∧ exAShared.name_hint ≠ exA.name_hint
    ∧ exAShared.name_hint = "A".toList ++ '.' :: "shared".toList
    ∧ '.' ∉ "shared".toList
    ∧ (resolveBuffer (TouchExtractor.fresh exShortFirst).buffer_info_
        exAShared.name_hint).buffer_scope = "shared".toList :=
  ⟨rfl, by decide, by decide, by decide, by decide,
    (resolved_scope (TouchExtractor.fresh exShortFirst) exAShared []
      [(exAShared, ⟨[8], 2, "shared".toList⟩)] (exA, ⟨[16], 4, "global".toList⟩) rfl
      (by intro p hp; simp at hp) (by decide)).2.1 "A".toList "shared".toList
      (by decide) (by decide) (by decide)⟩


/-! ## Bytes, unique bytes and lines -/

theorem accessAll_frame (CanonicalSimplify : PrimExpr → PrimExpr) (s : TouchExtractor)
    (buffer_var : Var) (accesses : List (PrimExpr × Nat)) :
    (accessAll CanonicalSimplify s buffer_var accesses).current_stmt = s.current_stmt
    ∧ (accessAll CanonicalSimplify s buffer_var accesses).itervar_stack_ = s.itervar_stack_
    ∧ (accessAll CanonicalSimplify s buffer_var accesses).extent = s.extent
    ∧ (accessAll CanonicalSimplify s buffer_var accesses).buffer_info_ = s.buffer_info_ := by
  induction accesses generalizing s with
  | nil => exact ⟨rfl, rfl, rfl, rfl⟩
  | cons a rest ih =>
    have h := ih (EnterMem_ CanonicalSimplify s buffer_var a.1 a.2)
    exact h

theorem bytes_accessAll (CanonicalSimplify : PrimExpr → PrimExpr) (s : TouchExtractor)
    (buffer_var : Var) (accesses : List (PrimExpr × Nat)) :
    (featureAt (accessAll CanonicalSimplify s buffer_var accesses).innermost_stmt_map
        s.current_stmt buffer_var.name_hint).bytes
      = (featureAt s.innermost_stmt_map s.current_stmt buffer_var.name_hint).bytes
        + accesses.length * ((resolveBuffer s.buffer_info_ buffer_var.name_hint).buffer_elem_bytes
          * prodExtents s.extent s.itervar_stack_) := by
  induction accesses generalizing s with
  | nil => simp [accessAll]
  | cons a rest ih =>
    have h := ih (EnterMem_ CanonicalSimplify s buffer_var a.1 a.2)
    have hb := bytes_EnterMem_ CanonicalSimplify s buffer_var a.1 a.2
    have e1 : (EnterMem_ CanonicalSimplify s buffer_var a.1 a.2).current_stmt = s.current_stmt :=
      rfl
    have e2 : (EnterMem_ CanonicalSimplify s buffer_var a.1 a.2).buffer_info_ = s.buffer_info_ :=
      rfl
    have e3 : (EnterMem_ CanonicalSimplify s buffer_var a.1 a.2).extent = s.extent := rfl
    have e4 : (EnterMem_ CanonicalSimplify s buffer_var a.1 a.2).itervar_stack_
        = s.itervar_stack_ := rfl
    rw [e1, e2, e3, e4, hb] at h
    have hfold : accessAll CanonicalSimplify s buffer_var (a :: rest)
        = accessAll CanonicalSimplify (EnterMem_ CanonicalSimplify s buffer_var a.1 a.2)
            buffer_var rest := rfl
    rw [hfold, h, List.length_cons]
    push_cast
    ring

/-- When no partial product leaves the range of `int`, the element count is the product. -/
theorem bufferNelems_eq_prod (buffer_shape : List Int)
    (h : ∀ k, -2147483648 ≤ (buffer_shape.take k).prod ∧ (buffer_shape.take k).prod < 2147483648) :
    bufferNelems buffer_shape = buffer_shape.prod := by
  have gen : ∀ (l : List Int),
      (∀ k, -2147483648 ≤ (l.take k).prod ∧ (l.take k).prod < 2147483648) →
      l.foldl (fun acc d => wrapInt32 (acc * d)) 1 = l.prod := by
    intro l
    induction l using List.reverseRecOn with
    | nil => intro _; rfl
    | append_singleton l a ih =>
      intro hl
      have hl' : ∀ k, -2147483648 ≤ (l.take k).prod ∧ (l.take k).prod < 2147483648 := by
        intro k
        by_cases hk : k ≤ l.length
        · have := hl k
          rwa [List.take_append_of_le_length hk] at this
        · have := hl l.length
          rw [List.take_append_of_le_length (le_refl _), List.take_length] at this
          rwa [List.take_of_length_le (by omega)]
      have hall := hl (l ++ [a]).length
      rw [List.take_length, List.prod_append, List.prod_singleton] at hall
      rw [List.foldl_append, ih hl', List.foldl_cons, List.foldl_nil, List.prod_append,
        List.prod_singleton]
      unfold wrapInt32
      omega
  exact gen buffer_shape h

/-- C12 (the claim holds for `bytes`; the code breaks it for `unique_bytes` on
large shapes). Every `EnterMem_` call adds to `bytes` the element size times
the product of the extents of all enclosing scopes, so `k` accesses under the
same scope stack add `k` times that amount; `unique_bytes` is overwritten with
the element count times the element size, where the element count is
accumulated in an `int`: for a buffer of 65536 x 65536 elements of 4 bytes the
count wraps to 0 and `unique_bytes` is 0 instead of 17179869184. -/
theorem bytes_accumulate_unique_bytes_overwritten (CanonicalSimplify : PrimExpr → PrimExpr)
    (s : TouchExtractor) (buffer_var : Var) (index : PrimExpr) (access_type : Nat)
    (accesses : List (PrimExpr × Nat)) :
    (featureAt (EnterMem_ CanonicalSimplify s buffer_var index access_type).innermost_stmt_map
        s.current_stmt buffer_var.name_hint).bytes
      = (featureAt s.innermost_stmt_map s.current_stmt buffer_var.name_hint).bytes
        + (resolveBuffer s.buffer_info_ buffer_var.name_hint).buffer_elem_bytes
          * prodExtents s.extent s.itervar_stack_
    ∧ (featureAt (accessAll CanonicalSimplify s buffer_var accesses).innermost_stmt_map
        s.current_stmt buffer_var.name_hint).bytes
      = (featureAt s.innermost_stmt_map s.current_stmt buffer_var.name_hint).bytes
        + accesses.length * ((resolveBuffer s.buffer_info_ buffer_var.name_hint).buffer_elem_bytes
          * prodExtents s.extent s.itervar_stack_)
    ∧ (featureAt (EnterMem_ CanonicalSimplify s buffer_var index access_type).innermost_stmt_map
        s.current_stmt buffer_var.name_hint).unique_bytes
      = bufferNelems (resolveBuffer s.buffer_info_ buffer_var.name_hint).buffer_shape
        * (resolveBuffer s.buffer_info_ buffer_var.name_hint).buffer_elem_bytes
    ∧ bufferNelems [65536, 65536] = 0
    ∧ (featureAt (EnterMem_ id exBigStmt exB (.intImm 0) kWrite).innermost_stmt_map
        (some 0) exB.name_hint).unique_bytes = 0
    ∧ ([65536, 65536] : List Int).prod * 4 = 17179869184 := by
  refine ⟨bytes_EnterMem_ _ _ _ _ _, bytes_accessAll _ _ _ _, ?_, by decide, by decide,
    by decide⟩
  rw [featureAt_EnterMem_]
  rfl

/-- C16 (the claim holds for the frame and for `lines`; the code breaks it for
`unique_lines` on large shapes). If the resolved scope is `global`,
`EnterMem_` adds to `lines` the product of the extents of all enclosing scopes
and sets `unique_lines` to the element count times the element size, divided
by 128 toward zero; otherwise it leaves both as they were. The element count
is accumulated in an `int`: for a global buffer of 65536 x 65536 elements of 4
bytes it wraps to 0 and `unique_lines` is 0 instead of 134217728. -/
theorem lines_only_for_global (CanonicalSimplify : PrimExpr → PrimExpr)
    (s : TouchExtractor) (buffer_var : Var) (index : PrimExpr) (access_type : Nat) :
    (featureAt (EnterMem_ CanonicalSimplify s buffer_var index access_type).innermost_stmt_map
        s.current_stmt buffer_var.name_hint).lines
      = (if (resolveBuffer s.buffer_info_ buffer_var.name_hint).buffer_scope = "global".toList
          then (featureAt s.innermost_stmt_map s.current_stmt buffer_var.name_hint).lines
            + prodExtents s.extent s.itervar_stack_
          else (featureAt s.innermost_stmt_map s.current_stmt buffer_var.name_hint).lines)
    ∧ (featureAt (EnterMem_ CanonicalSimplify s buffer_var index access_type).innermost_stmt_map
        s.current_stmt buffer_var.name_hint).unique_lines
      = (if (resolveBuffer s.buffer_info_ buffer_var.name_hint).buffer_scope = "global".toList
          then Int.tdiv
            (bufferNelems (resolveBuffer s.buffer_info_ buffer_var.name_hint).buffer_shape
              * (resolveBuffer s.buffer_info_ buffer_var.name_hint).buffer_elem_bytes) 128
          else (featureAt s.innermost_stmt_map s.current_stmt
            buffer_var.name_hint).unique_lines)
    ∧ (featureAt (EnterMem_ id exBigStmt exB (.intImm 0) kWrite).innermost_stmt_map
        (some 0) exB.name_hint).unique_lines = 0
    ∧ Int.tdiv (([65536, 65536] : List Int).prod * 4) 128 = 134217728 := by
  refine ⟨?_, ?_, by decide, by decide⟩
  · rw [featureAt_EnterMem_]
    simp only [recordAfterMem]
    split_ifs <;> simp_all
  · rw [featureAt_EnterMem_]
    simp only [recordAfterMem]
    split_ifs <;> simp_all


/-! ## Statement aggregates -/

theorem lastExtent_cons (extent : List (Var × Int)) (a : StackItem) (l : List StackItem)
    (d : Int) : lastExtent extent (a :: l) d = lastExtent extent l (extentOf extent a) := by
  unfold lastExtent
  rw [List.getLast?_cons]
  cases l.getLast? <;> rfl

/-- The aggregates of `EnterInnermostStmt_` after the walk over `items`, from the record `fea`. -/
theorem stmtLoop_fields (extent : List (Var × Int)) (items : List StackItem)
    (fea : InnermostStatementFeature) :
    (items.foldl (stmtLoopStep extent) fea).num_outer_loops = fea.num_outer_loops + items.length
    ∧ (items.foldl (stmtLoopStep extent) fea).prod_outer_loops
        = fea.prod_outer_loops * prodExtents extent items
    ∧ (items.foldl (stmtLoopStep extent) fea).vectorize_loop_num
        = fea.vectorize_loop_num + (loopsWith .kVectorized items).length
    ∧ (items.foldl (stmtLoopStep extent) fea).vectorize_len_prod
        = fea.vectorize_len_prod * prodExtents extent (loopsWith .kVectorized items)
    ∧ (items.foldl (stmtLoopStep extent) fea).vectorize_len_imost
        = lastExtent extent (loopsWith .kVectorized items) fea.vectorize_len_imost
    ∧ (items.foldl (stmtLoopStep extent) fea).unroll_loop_num
        = fea.unroll_loop_num + (loopsWith .kUnrolled items).length
    ∧ (items.foldl (stmtLoopStep extent) fea).unroll_len_prod
        = fea.unroll_len_prod * prodExtents extent (loopsWith .kUnrolled items)
    ∧ (items.foldl (stmtLoopStep extent) fea).unroll_len_imost
        = lastExtent extent (loopsWith .kUnrolled items) fea.unroll_len_imost
    ∧ (items.foldl (stmtLoopStep extent) fea).parallel_loop_num
        = fea.parallel_loop_num + (loopsWith .kParallel items).length
    ∧ (items.foldl (stmtLoopStep extent) fea).parallel_len_prod
        = fea.parallel_len_prod * prodExtents extent (loopsWith .kParallel items)
    ∧ (items.foldl (stmtLoopStep extent) fea).parallel_len_imost
        = lastExtent extent (loopsWith .kParallel items) fea.parallel_len_imost
    ∧ (items.foldl (stmtLoopStep extent) fea).thread_bind_len
        = threadBinds extent items fea.thread_bind_len := by
  induction items generalizing fea with
  | nil =>
    simp [prodExtents, loopsWith, lastExtent, threadBinds]
  | cons a rest ih =>
    obtain ⟨v, attr, ann⟩ := a
    have h := ih (stmtLoopStep extent fea (v, attr, ann))
    rw [List.foldl_cons]
    cases attr with
    | true =>
      simp only [stmtLoopStep, if_true] at h
      simp only [loopsWith, threadBinds, List.filter_cons, Bool.not_true, Bool.false_and,
        Bool.false_eq_true, if_false, if_true, List.foldl_cons, prodExtents, List.map_cons,
        List.prod_cons, List.length_cons, extentOf] at h ⊢
      simp only [stmtLoopStep, if_true]
      refine ⟨by rw [h.1]; push_cast; ring, by rw [h.2.1]; ring, h.2.2.1, h.2.2.2.1,
        h.2.2.2.2.1, h.2.2.2.2.2.1, h.2.2.2.2.2.2.1, h.2.2.2.2.2.2.2.1, h.2.2.2.2.2.2.2.2.1,
        h.2.2.2.2.2.2.2.2.2.1, h.2.2.2.2.2.2.2.2.2.2.1, h.2.2.2.2.2.2.2.2.2.2.2⟩
    | false =>
      by_cases hv : ann = AnnotationType.kVectorized
      · subst hv
        simp only [stmtLoopStep, Bool.false_eq_true, if_false, if_true] at h ⊢
        simp only [loopsWith, threadBinds, List.filter_cons, Bool.not_false, Bool.true_and,
          decide_True, if_true, Bool.false_eq_true, if_false, prodExtents,
          List.map_cons, List.prod_cons, List.length_cons, extentOf,
          show decide (AnnotationType.kVectorized = AnnotationType.kUnrolled) = false from rfl,
          show decide (AnnotationType.kVectorized = AnnotationType.kParallel) = false from rfl]
          at h ⊢
        refine ⟨by rw [h.1]; push_cast; ring, by rw [h.2.1]; ring,
          by rw [h.2.2.1]; push_cast; ring, by rw [h.2.2.2.1]; ring, ?_, h.2.2.2.2.2.1,
          h.2.2.2.2.2.2.1, h.2.2.2.2.2.2.2.1, h.2.2.2.2.2.2.2.2.1, h.2.2.2.2.2.2.2.2.2.1,
          h.2.2.2.2.2.2.2.2.2.2.1, h.2.2.2.2.2.2.2.2.2.2.2⟩
        rw [h.2.2.2.2.1, lastExtent_cons]
        rfl
      · by_cases hu : ann = AnnotationType.kUnrolled
        · subst hu
          simp only [stmtLoopStep, Bool.false_eq_true, if_false, if_true,
            show ¬ (AnnotationType.kUnrolled = AnnotationType.kVectorized) from by decide] at h ⊢
          simp only [loopsWith, threadBinds, List.filter_cons, Bool.not_false, Bool.true_and,
            decide_True, if_true, Bool.false_eq_true, if_false, prodExtents,
            List.map_cons, List.prod_cons, List.length_cons, extentOf,
            show decide (AnnotationType.kUnrolled = AnnotationType.kVectorized) = false from rfl,
            show decide (AnnotationType.kUnrolled = AnnotationType.kParallel) = false from rfl]
            at h ⊢
          refine ⟨by rw [h.1]; push_cast; ring, by rw [h.2.1]; ring, h.2.2.1, h.2.2.2.1,
            h.2.2.2.2.1, by rw [h.2.2.2.2.2.1]; push_cast; ring, by rw [h.2.2.2.2.2.2.1]; ring,
            ?_, h.2.2.2.2.2.2.2.2.1, h.2.2.2.2.2.2.2.2.2.1, h.2.2.2.2.2.2.2.2.2.2.1,
            h.2.2.2.2.2.2.2.2.2.2.2⟩
          rw [h.2.2.2.2.2.2.2.1, lastExtent_cons]
          rfl
        · by_cases hp : ann = AnnotationType.kParallel
          · subst hp
            simp only [stmtLoopStep, Bool.false_eq_true, if_false, if_true,
              show ¬ (AnnotationType.kParallel = AnnotationType.kVectorized) from by decide,
              show ¬ (AnnotationType.kParallel = AnnotationType.kUnrolled) from by decide] at h ⊢
            simp only [loopsWith, threadBinds, List.filter_cons, Bool.not_false, Bool.true_and,
              decide_True, if_true, Bool.false_eq_true, if_false, prodExtents,
              List.map_cons, List.prod_cons, List.length_cons, extentOf,
              show decide (AnnotationType.kParallel = AnnotationType.kVectorized) = false from rfl,
              show decide (AnnotationType.kParallel = AnnotationType.kUnrolled) = false from rfl]
              at h ⊢
            refine ⟨by rw [h.1]; push_cast; ring, by rw [h.2.1]; ring, h.2.2.1, h.2.2.2.1,
              h.2.2.2.2.1, h.2.2.2.2.2.1, h.2.2.2.2.2.2.1, h.2.2.2.2.2.2.2.1,
              by rw [h.2.2.2.2.2.2.2.2.1]; push_cast; ring,
              by rw [h.2.2.2.2.2.2.2.2.2.1]; ring, ?_, h.2.2.2.2.2.2.2.2.2.2.2⟩
            rw [h.2.2.2.2.2.2.2.2.2.2.1, lastExtent_cons]
            rfl
          · simp only [stmtLoopStep, Bool.false_eq_true, if_false, hv, hu, hp] at h ⊢
            simp only [loopsWith, threadBinds, List.filter_cons, Bool.not_false, Bool.true_and,
              hv, hu, hp, decide_False, Bool.false_eq_true, if_false, prodExtents,
              List.map_cons, List.prod_cons, List.length_cons, extentOf] at h ⊢
            exact ⟨by rw [h.1]; push_cast; ring, by rw [h.2.1]; ring, h.2.2⟩


/-- C19. For every scope stack at the time `EnterInnermostStmt_` is called
and each annotation among vectorized, unrolled and parallel, the new statement
record's loop count is the number of non-attribute scopes with that
annotation, its length product is the product of their extents, and its
innermost length is the extent of the last such scope on the stack (the
default 0 when there is none); the attribute scopes write `thread_bind_len`
only, while `num_outer_loops` and `prod_outer_loops` count and multiply every
scope. -/
theorem statement_aggregates (s : TouchExtractor) (innermost_stmt : Nat) :
    (mapAt (EnterInnermostStmt_ s innermost_stmt).innermost_stmt_map (some innermost_stmt)
        {}).num_outer_loops = s.itervar_stack_.length
    ∧ (mapAt (EnterInnermostStmt_ s innermost_stmt).innermost_stmt_map (some innermost_stmt)
        {}).prod_outer_loops = prodExtents s.extent s.itervar_stack_
    ∧ (mapAt (EnterInnermostStmt_ s innermost_stmt).innermost_stmt_map (some innermost_stmt)
        {}).vectorize_loop_num = (loopsWith .kVectorized s.itervar_stack_).length
    ∧ (mapAt (EnterInnermostStmt_ s innermost_stmt).innermost_stmt_map (some innermost_stmt)
        {}).vectorize_len_prod = prodExtents s.extent (loopsWith .kVectorized s.itervar_stack_)
    ∧ (mapAt (EnterInnermostStmt_ s innermost_stmt).innermost_stmt_map (some innermost_stmt)
        {}).vectorize_len_imost
          = lastExtent s.extent (loopsWith .kVectorized s.itervar_stack_) 0
    ∧ (mapAt (EnterInnermostStmt_ s innermost_stmt).innermost_stmt_map (some innermost_stmt)
        {}).unroll_loop_num = (loopsWith .kUnrolled s.itervar_stack_).length
    ∧ (mapAt (EnterInnermostStmt_ s innermost_stmt).innermost_stmt_map (some innermost_stmt)
        {}).unroll_len_prod = prodExtents s.extent (loopsWith .kUnrolled s.itervar_stack_)
    ∧ (mapAt (EnterInnermostStmt_ s innermost_stmt).innermost_stmt_map (some innermost_stmt)
        {}).unroll_len_imost = lastExtent s.extent (loopsWith .kUnrolled s.itervar_stack_) 0
    ∧ (mapAt (EnterInnermostStmt_ s innermost_stmt).innermost_stmt_map (some innermost_stmt)
        {}).parallel_loop_num = (loopsWith .kParallel s.itervar_stack_).length
    ∧ (mapAt (EnterInnermostStmt_ s innermost_stmt).innermost_stmt_map (some innermost_stmt)
        {}).parallel_len_prod = prodExtents s.extent (loopsWith .kParallel s.itervar_stack_)
    ∧ (mapAt (EnterInnermostStmt_ s innermost_stmt).innermost_stmt_map (some innermost_stmt)
        {}).parallel_len_imost = lastExtent s.extent (loopsWith .kParallel s.itervar_stack_) 0
    ∧ (mapAt (EnterInnermostStmt_ s innermost_stmt).innermost_stmt_map (some innermost_stmt)
        {}).thread_bind_len = threadBinds s.extent s.itervar_stack_ []
    ∧ mapAt (EnterInnermostStmt_ exMixed 0).innermost_stmt_map (some 0) {}
        = { order := 0, num_outer_loops := 5, prod_outer_loops := 2310,
            vectorize_len_imost := 7, vectorize_len_prod := 21, vectorize_loop_num := 2,
            unroll_len_imost := 5, unroll_len_prod := 5, unroll_loop_num := 1,
            parallel_len_imost := 0, parallel_len_prod := 1, parallel_loop_num := 0,
            thread_bind_len := [(AnnotationType.kOther 3, 2)] } := by
  have hrec : mapAt (EnterInnermostStmt_ s innermost_stmt).innermost_stmt_map
      (some innermost_stmt) {}
      = s.itervar_stack_.foldl (stmtLoopStep s.extent)
          { order := s.innermost_stmt_counter_ } := by
    simp only [EnterInnermostStmt_, mapAt_mapSet, if_true]
  have h := stmtLoop_fields s.extent s.itervar_stack_ { order := s.innermost_stmt_counter_ }
  rw [hrec]
  simp only [zero_add, one_mul] at h
  exact ⟨h.1, h.2.1, h.2.2.1, h.2.2.2.1, h.2.2.2.2.1, h.2.2.2.2.2.1, h.2.2.2.2.2.2.1,
    h.2.2.2.2.2.2.2.1, h.2.2.2.2.2.2.2.2.1, h.2.2.2.2.2.2.2.2.2.1, h.2.2.2.2.2.2.2.2.2.2.1,
    h.2.2.2.2.2.2.2.2.2.2.2, by decide⟩


/-! ## Stride -/

theorem mapFind_append_of_some {κ ν : Type} [DecidableEq κ] (m m' : List (κ × ν)) (k : κ) (x : ν)
    (h : mapFind m k = some x) : mapFind (m ++ m') k = some x := by
  induction m with
  | nil => simp [mapFind] at h
  | cons p rest ih =>
    obtain ⟨k', v⟩ := p
    by_cases hk : k' = k
    · simpa [mapFind, hk] using h
    · simp only [mapFind, hk, if_false, List.cons_append] at h ⊢
      exact ih h

theorem mapFind_append_of_none {κ ν : Type} [DecidableEq κ] (m m' : List (κ × ν)) (k : κ)
    (h : mapFind m k = none) : mapFind (m ++ m') k = mapFind m' k := by
  induction m with
  | nil => rfl
  | cons p rest ih =>
    obtain ⟨k', v⟩ := p
    by_cases hk : k' = k
    · simp [mapFind, hk] at h
    · simp only [mapFind, hk, if_false, List.cons_append] at h ⊢
      exact ih h

theorem mapFind_eq_none_iff {κ ν : Type} [DecidableEq κ] (m : List (κ × ν)) (k : κ) :
    mapFind m k = none ↔ k ∉ mapKeys m := by
  induction m with
  | nil => simp [mapFind, mapKeys]
  | cons p rest ih =>
    obtain ⟨k', v⟩ := p
    by_cases hk : k' = k
    · simp [mapFind, mapKeys, hk]
    · have hk' : ¬ k = k' := fun e => hk e.symm
      simp only [mapFind, hk, if_false, mapKeys, List.map_cons, List.mem_cons, hk', false_or]
      exact ih

theorem visit_var_new (p : IndexParser) (v : Var) (h : mapFind p.pattern_map v = none) :
    IndexParser.VisitExpr p (.var v)
      = { pattern_map := p.pattern_map ++ [(v, p.next_stride_)], next_stride_ := 1 } := by
  simp [IndexParser.VisitExpr, h]

theorem visit_var_recorded (p : IndexParser) (v : Var) (x : Int)
    (h : mapFind p.pattern_map v = some x) : IndexParser.VisitExpr p (.var v) = p := by
  simp [IndexParser.VisitExpr, h]

theorem visit_mul_other (p : IndexParser) (a b : PrimExpr)
    (h1 : ∀ v c, ¬ (a = .var v ∧ b = .intImm c))
    (h2 : ∀ v m e, ¬ (a = .var v ∧ b = .floatImm m e)) :
    IndexParser.VisitExpr p (.mul a b) = IndexParser.VisitExpr (IndexParser.VisitExpr p a) b
    ∧ occurrenceStrides (.mul a b) = occurrenceStrides a ++ occurrenceStrides b := by
  cases a with
  | var v =>
    cases b with
    | intImm c => exact absurd ⟨rfl, rfl⟩ (h1 v c)
    | floatImm m e => exact absurd ⟨rfl, rfl⟩ (h2 v m e)
    | var _ => exact ⟨rfl, rfl⟩
    | mul _ _ => exact ⟨rfl, rfl⟩
    | div _ _ => exact ⟨rfl, rfl⟩
    | floordiv _ _ => exact ⟨rfl, rfl⟩
    | binop _ _ _ => exact ⟨rfl, rfl⟩
  | intImm _ => cases b <;> exact ⟨rfl, rfl⟩
  | floatImm _ _ => cases b <;> exact ⟨rfl, rfl⟩
  | mul _ _ => cases b <;> exact ⟨rfl, rfl⟩
  | div _ _ => cases b <;> exact ⟨rfl, rfl⟩
  | floordiv _ _ => cases b <;> exact ⟨rfl, rfl⟩
  | binop _ _ _ => cases b <;> exact ⟨rfl, rfl⟩

/-- The three shapes of a product for the parser. -/
theorem mul_shape (a b : PrimExpr) :
    (∃ v c, a = .var v ∧ b = .intImm c) ∨ (∃ v m e, a = .var v ∧ b = .floatImm m e)
    ∨ ((∀ v c, ¬ (a = .var v ∧ b = .intImm c)) ∧ (∀ v m e, ¬ (a = .var v ∧ b = .floatImm m e))) := by
  cases a with
  | var v =>
    cases b with
    | intImm c => exact Or.inl ⟨v, c, rfl, rfl⟩
    | floatImm m e => exact Or.inr (Or.inl ⟨v, m, e, rfl, rfl⟩)
    | var _ => exact Or.inr (Or.inr ⟨by simp, by simp⟩)
    | mul _ _ => exact Or.inr (Or.inr ⟨by simp, by simp⟩)
    | div _ _ => exact Or.inr (Or.inr ⟨by simp, by simp⟩)
    | floordiv _ _ => exact Or.inr (Or.inr ⟨by simp, by simp⟩)
    | binop _ _ _ => exact Or.inr (Or.inr ⟨by simp, by simp⟩)
  | intImm _ => exact Or.inr (Or.inr ⟨by simp, by simp⟩)
  | floatImm _ _ => exact Or.inr (Or.inr ⟨by simp, by simp⟩)
  | mul _ _ => exact Or.inr (Or.inr ⟨by simp, by simp⟩)
  | div _ _ => exact Or.inr (Or.inr ⟨by simp, by simp⟩)
  | floordiv _ _ => exact Or.inr (Or.inr ⟨by simp, by simp⟩)
  | binop _ _ _ => exact Or.inr (Or.inr ⟨by simp, by simp⟩)

/-- A product is visited as its two operands, from a parser with the same map. -/
theorem visit_mul_exists (p : IndexParser) (a b : PrimExpr) :
    ∃ p1 : IndexParser, p1.pattern_map = p.pattern_map
      ∧ IndexParser.VisitExpr p (.mul a b)
          = IndexParser.VisitExpr (IndexParser.VisitExpr p1 a) b := by
  rcases mul_shape a b with ⟨v, c, rfl, rfl⟩ | ⟨v, m, e, rfl, rfl⟩ | ⟨h1, h2⟩
  · exact ⟨{ p with next_stride_ := viaFloat c 0 }, rfl, rfl⟩
  · exact ⟨{ p with next_stride_ := viaFloat m e }, rfl, rfl⟩
  · exact ⟨p, rfl, (visit_mul_other p a b h1 h2).1⟩

/-- A variable once recorded keeps its stride for the rest of the traversal. -/
theorem visit_keeps_recorded (e : PrimExpr) (p : IndexParser) (v : Var) (x : Int)
    (h : mapFind p.pattern_map v = some x) :
    mapFind (IndexParser.VisitExpr p e).pattern_map v = some x := by
  induction e generalizing p with
  | var w =>
    cases hw : mapFind p.pattern_map w with
    | none =>
      rw [visit_var_new p w hw]
      exact mapFind_append_of_some _ _ _ _ h
    | some y =>
      rw [visit_var_recorded p w y hw]
      exact h
  | intImm _ => exact h
  | floatImm _ _ => exact h
  | mul a b iha ihb =>
    obtain ⟨p1, hp1, hv⟩ := visit_mul_exists p a b
    rw [hv]
    exact ihb _ (iha _ (by rw [hp1]; exact h))
  | div a b iha ihb => exact ihb _ (iha _ h)
  | floordiv a b iha ihb => exact ihb _ (iha _ h)
  | binop op a b iha ihb => exact ihb _ (iha _ h)

/-- Every variable occurring in the traversed expression is recorded. -/
theorem visit_records_all (e : PrimExpr) (p : IndexParser) (v : Var) (hv : v ∈ exprVars e) :
    (mapFind (IndexParser.VisitExpr p e).pattern_map v).isSome = true := by
  have both : ∀ (a b : PrimExpr) (q : IndexParser),
      (∀ q', v ∈ exprVars a → (mapFind (IndexParser.VisitExpr q' a).pattern_map v).isSome = true) →
      (∀ q', v ∈ exprVars b → (mapFind (IndexParser.VisitExpr q' b).pattern_map v).isSome = true) →
      v ∈ exprVars a ++ exprVars b →
      (mapFind (IndexParser.VisitExpr (IndexParser.VisitExpr q a) b).pattern_map v).isSome
        = true := by
    intro a b q iha ihb hmem
    rcases List.mem_append.1 hmem with h | h
    · have ha := iha q h
      cases hx : mapFind (IndexParser.VisitExpr q a).pattern_map v with
      | none => rw [hx] at ha; simp at ha
      | some x => rw [visit_keeps_recorded b _ v x hx]; rfl
    · exact ihb _ h
  induction e generalizing p with
  | var w =>
    simp only [exprVars, List.mem_singleton] at hv
    subst hv
    cases hw : mapFind p.pattern_map v with
    | none =>
      rw [visit_var_new p v hw, mapFind_append_of_none _ _ _ hw]
      simp [mapFind]
    | some y =>
      rw [visit_var_recorded p v y hw, hw]
      rfl
  | intImm _ => simp [exprVars] at hv
  | floatImm _ _ => simp [exprVars] at hv
  | mul a b iha ihb =>
    obtain ⟨p1, _, hvis⟩ := visit_mul_exists p a b
    rw [hvis]
    exact both a b p1 (fun q' h => iha q' h) (fun q' h => ihb q' h) hv
  | div a b iha ihb => exact both a b p (fun q' h => iha q' h) (fun q' h => ihb q' h) hv
  | floordiv a b iha ihb => exact both a b p (fun q' h => iha q' h) (fun q' h => ihb q' h) hv
  | binop op a b iha ihb => exact both a b p (fun q' h => iha q' h) (fun q' h => ihb q' h) hv

theorem mapKeys_append {κ ν : Type} (m m' : List (κ × ν)) :
    mapKeys (m ++ m') = mapKeys m ++ mapKeys m' := by
  simp [mapKeys]

theorem occurrenceStrides_keys (e : PrimExpr) : mapKeys (occurrenceStrides e) = exprVars e := by
  induction e with
  | var w => rfl
  | intImm _ => rfl
  | floatImm _ _ => rfl
  | mul a b iha ihb =>
    rcases mul_shape a b with ⟨v, c, rfl, rfl⟩ | ⟨v, m, e, rfl, rfl⟩ | ⟨h1, h2⟩
    · rfl
    · rfl
    · rw [(visit_mul_other {} a b h1 h2).2, mapKeys_append, iha, ihb]
      rfl
  | div a b iha ihb =>
    show mapKeys (occurrenceStrides a ++ occurrenceStrides b) = exprVars a ++ exprVars b
    rw [mapKeys_append, iha, ihb]
  | floordiv a b iha ihb =>
    show mapKeys (occurrenceStrides a ++ occurrenceStrides b) = exprVars a ++ exprVars b
    rw [mapKeys_append, iha, ihb]
  | binop op a b iha ihb =>
    show mapKeys (occurrenceStrides a ++ occurrenceStrides b) = exprVars a ++ exprVars b
    rw [mapKeys_append, iha, ihb]


/-- With no variable occurring twice, each variable gets the stride of its occurrence. -/
theorem visit_distinct (e : PrimExpr) (p : IndexParser) (hp : p.next_stride_ = 1)
    (hnd : (exprVars e).Nodup) (hnew : ∀ v ∈ exprVars e, mapFind p.pattern_map v = none) :
    (IndexParser.VisitExpr p e).pattern_map = p.pattern_map ++ occurrenceStrides e
    ∧ (IndexParser.VisitExpr p e).next_stride_ = 1 := by
  have both : ∀ (a b : PrimExpr) (q : IndexParser),
      (∀ q' : IndexParser, q'.next_stride_ = 1 → (exprVars a).Nodup →
        (∀ v ∈ exprVars a, mapFind q'.pattern_map v = none) →
        (IndexParser.VisitExpr q' a).pattern_map = q'.pattern_map ++ occurrenceStrides a
        ∧ (IndexParser.VisitExpr q' a).next_stride_ = 1) →
      (∀ q' : IndexParser, q'.next_stride_ = 1 → (exprVars b).Nodup →
        (∀ v ∈ exprVars b, mapFind q'.pattern_map v = none) →
        (IndexParser.VisitExpr q' b).pattern_map = q'.pattern_map ++ occurrenceStrides b
        ∧ (IndexParser.VisitExpr q' b).next_stride_ = 1) →
      q.next_stride_ = 1 → (exprVars a ++ exprVars b).Nodup →
      (∀ v ∈ exprVars a ++ exprVars b, mapFind q.pattern_map v = none) →
      (IndexParser.VisitExpr (IndexParser.VisitExpr q a) b).pattern_map
          = q.pattern_map ++ (occurrenceStrides a ++ occurrenceStrides b)
      ∧ (IndexParser.VisitExpr (IndexParser.VisitExpr q a) b).next_stride_ = 1 := by
    intro a b q iha ihb hq hnd' hnew'
    have hsplit := List.nodup_append.1 hnd'
    have ha := iha q hq hsplit.1 (fun v hv => hnew' v (List.mem_append.2 (Or.inl hv)))
    have hb := ihb (IndexParser.VisitExpr q a) ha.2 hsplit.2.1 (by
      intro v hv
      rw [ha.1, mapFind_append_of_none _ _ _ (hnew' v (List.mem_append.2 (Or.inr hv))),
        mapFind_eq_none_iff, occurrenceStrides_keys]
      intro hva
      exact hsplit.2.2 hva hv)
    refine ⟨?_, hb.2⟩
    rw [hb.1, ha.1, List.append_assoc]
  induction e generalizing p with
  | var w =>
    have hw : mapFind p.pattern_map w = none := hnew w (by simp [exprVars])
    rw [visit_var_new p w hw, hp]
    exact ⟨rfl, rfl⟩
  | intImm _ => exact ⟨by simp [IndexParser.VisitExpr, occurrenceStrides], hp⟩
  | floatImm _ _ => exact ⟨by simp [IndexParser.VisitExpr, occurrenceStrides], hp⟩
  | mul a b iha ihb =>
    rcases mul_shape a b with ⟨v, c, rfl, rfl⟩ | ⟨v, m, e, rfl, rfl⟩ | ⟨h1, h2⟩
    · have hv : mapFind p.pattern_map v = none := hnew v (by simp [exprVars])
      have hvis : IndexParser.VisitExpr p (.mul (.var v) (.intImm c))
          = IndexParser.VisitExpr { p with next_stride_ := viaFloat c 0 } (.var v) := rfl
      rw [hvis, visit_var_new { p with next_stride_ := viaFloat c 0 } v hv]
      exact ⟨rfl, rfl⟩
    · have hv : mapFind p.pattern_map v = none := hnew v (by simp [exprVars])
      have hvis : IndexParser.VisitExpr p (.mul (.var v) (.floatImm m e))
          = IndexParser.VisitExpr { p with next_stride_ := viaFloat m e } (.var v) := rfl
      rw [hvis, visit_var_new { p with next_stride_ := viaFloat m e } v hv]
      exact ⟨rfl, rfl⟩
    · rw [(visit_mul_other p a b h1 h2).1, (visit_mul_other p a b h1 h2).2]
      exact both a b p (fun q' => iha q') (fun q' => ihb q') hp hnd hnew
  | div a b iha ihb => exact both a b p (fun q' => iha q') (fun q' => ihb q') hp hnd hnew
  | floordiv a b iha ihb => exact both a b p (fun q' => iha q') (fun q' => ihb q') hp hnd hnew
  | binop op a b iha ihb => exact both a b p (fun q' => iha q') (fun q' => ihb q') hp hnd hnew

/-- An integer literal below `2 ^ 24` in absolute value is read back unchanged. -/
theorem viaFloat_small (c : Int) (h : c.natAbs < 16777216) : viaFloat c 0 = c := by
  have hlog : Nat.log2 c.natAbs ≤ 23 := by
    by_cases h0 : c.natAbs = 0
    · rw [h0]
      decide!
    · have := (Nat.log2_lt h0).2 (show c.natAbs < 2 ^ 24 from h)
      omega
  unfold viaFloat
  simp only [hlog, if_true, Nat.sub_eq_zero_of_le hlog, Nat.cast_zero, add_zero, le_refl,
    Int.toNat_zero, pow_zero, mul_one]
  split_ifs with hc
  · omega
  · omega


/-- Every stride that the traversal records or leaves pending is the pending
one it started with, the default 1, or that of a product `var * literal` of the
expression. -/
theorem visit_values (P : Int → Prop) (h1 : P 1) (e : PrimExpr) (p : IndexParser)
    (hl : ∀ c ∈ literalStrides e, P c)
    (hp : (∀ q ∈ p.pattern_map, P q.2) ∧ P p.next_stride_) :
    (∀ q ∈ (IndexParser.VisitExpr p e).pattern_map, P q.2)
    ∧ P (IndexParser.VisitExpr p e).next_stride_ := by
  induction e generalizing p with
  | var w =>
    cases hw : mapFind p.pattern_map w with
    | none =>
      rw [visit_var_new p w hw]
      refine ⟨?_, h1⟩
      intro q hq
      rcases List.mem_append.1 hq with h | h
      · exact hp.1 q h
      · simp only [List.mem_singleton] at h
        rw [h]
        exact hp.2
    | some y =>
      rw [visit_var_recorded p w y hw]
      exact hp
  | intImm _ => exact hp
  | floatImm _ _ => exact hp
  | mul a b iha ihb =>
    have hla : ∀ c ∈ literalStrides a, P c := fun c hc => hl c (by simp [literalStrides, hc])
    have hlb : ∀ c ∈ literalStrides b, P c := fun c hc => hl c (by simp [literalStrides, hc])
    rcases mul_shape a b with ⟨v, c, rfl, rfl⟩ | ⟨v, m, e, rfl, rfl⟩ | ⟨h1', h2'⟩
    · have hvis : IndexParser.VisitExpr p (.mul (.var v) (.intImm c))
          = IndexParser.VisitExpr { p with next_stride_ := viaFloat c 0 } (.var v) := rfl
      rw [hvis]
      exact iha _ hla ⟨hp.1, hl _ (by simp [literalStrides, pendingOf])⟩
    · have hvis : IndexParser.VisitExpr p (.mul (.var v) (.floatImm m e))
          = IndexParser.VisitExpr { p with next_stride_ := viaFloat m e } (.var v) := rfl
      rw [hvis]
      exact iha _ hla ⟨hp.1, hl _ (by simp [literalStrides, pendingOf])⟩
    · rw [(visit_mul_other p a b h1' h2').1]
      exact ihb _ hlb (iha _ hla hp)
  | div a b iha ihb =>
    exact ihb _ (fun c hc => hl c (by simp [literalStrides, hc]))
      (iha _ (fun c hc => hl c (by simp [literalStrides, hc])) hp)
  | floordiv a b iha ihb =>
    exact ihb _ (fun c hc => hl c (by simp [literalStrides, hc]))
      (iha _ (fun c hc => hl c (by simp [literalStrides, hc])) hp)
  | binop op a b iha ihb =>
    exact ihb _ (fun c hc => hl c (by simp [literalStrides, hc]))
      (iha _ (fun c hc => hl c (by simp [literalStrides, hc])) hp)

/-- Every stride of the parsed map is 1 or that of a product `var * literal`
of the simplified index. -/
theorem parsedMap_values (P : Int → Prop) (h1 : P 1) (CanonicalSimplify : PrimExpr → PrimExpr)
    (index : PrimExpr)
    (hl : ∀ c ∈ literalStrides (CanonicalSimplify (IndexMutator index)), P c) :
    ∀ q ∈ parsedMap CanonicalSimplify index, P q.2 :=
  (visit_values P h1 (CanonicalSimplify (IndexMutator index))
    { pattern_map := [], next_stride_ := 1 } hl
    ⟨fun _ hq => absurd hq (List.not_mem_nil _), h1⟩).1

/-- C15 (as stated, refuted). In `min(i, 7) + i * 4 + j` the variable `j`
occurs once, as a bare reference, yet it is given the stride 4: the literal of
the product on the already recorded `i` stays pending and goes to the next new
variable. And in `i * 16777217` the variable `i` is given 16777216, the
literal as read back from the `float` member, not the literal itself. -/
theorem first_stride_counterexample :
    parsedMap id exRepeated = [(exI, 1), (exJ, 4)]
    ∧ mapFind (occurrenceStrides exRepeated) exJ = some 1
    ∧ mapFind (parsedMap id exRepeated) exJ ≠ some 1
    ∧ parsedMap id exWide = [(exI, 16777216)]
    ∧ mapFind (parsedMap id exWide) exI ≠ some 16777217 := by
  have hl : Nat.log2 16777217 = 24 := by
    rw [Nat.log2_eq_log_two]
    exact Nat.log_eq_of_pow_le_of_lt_pow (by norm_num) (by norm_num)
  have ha : Int.natAbs 16777217 = 16777217 := rfl
  have hw : viaFloat 16777217 0 = 16777216 := by
    unfold viaFloat
    simp only [ha, hl]
    norm_num [roundHalfEven]
  have hp : parsedMap id exWide = [(exI, 16777216)] := by
    have h : parsedMap id exWide = [(exI, viaFloat 16777217 0)] := rfl
    rw [h, hw]
  refine ⟨by decide!, by decide!, by decide!, hp, ?_⟩
  rw [hp]
  decide

/-- C15 (amended). For every index expression traversed by `IndexParser`
whose literals of products `var * c` are read back from the `float` member
within `int64_t`: each variable occurring in it is recorded, with a stride
within `int64_t`, and a variable once recorded keeps its stride whatever is
visited later. When no variable occurs twice, each variable is mapped to the
stride of its occurrence: the literal `c` of a product `var * c` for its left
operand, as read back from the `float` member (c itself when `|c| < 2 ^ 24`),
and 1 for any other occurrence. A product `var * c` on an already recorded
variable leaves `c` pending, and a new variable takes the pending stride. -/
theorem first_stride_kept (CanonicalSimplify : PrimExpr → PrimExpr) (index : PrimExpr)
    (hrange : ∀ c ∈ literalStrides (CanonicalSimplify (IndexMutator index)),
      fitsInt64 c = true) :
    (∀ v ∈ exprVars (CanonicalSimplify (IndexMutator index)),
      (mapFind (parsedMap CanonicalSimplify index) v).isSome = true)
    ∧ (∀ q ∈ parsedMap CanonicalSimplify index, fitsInt64 q.2 = true)
    ∧ (∀ (p : IndexParser) (e : PrimExpr) (v : Var) (x : Int),
        mapFind p.pattern_map v = some x →
        mapFind (IndexParser.VisitExpr p e).pattern_map v = some x)
    ∧ ((exprVars (CanonicalSimplify (IndexMutator index))).Nodup →
        parsedMap CanonicalSimplify index
          = occurrenceStrides (CanonicalSimplify (IndexMutator index)))
    ∧ (∀ c : Int, c.natAbs < 16777216 → viaFloat c 0 = c)
    ∧ (∀ (p : IndexParser) (v : Var) (c x : Int), fitsInt64 (viaFloat c 0) = true →
        mapFind p.pattern_map v = some x →
        IndexParser.VisitExpr p (.mul (.var v) (.intImm c))
          = { p with next_stride_ := viaFloat c 0 })
    ∧ (∀ (p : IndexParser) (w : Var), fitsInt64 p.next_stride_ = true →
        mapFind p.pattern_map w = none →
        IndexParser.VisitExpr p (.var w)
          = { pattern_map := p.pattern_map ++ [(w, p.next_stride_)], next_stride_ := 1 }) := by
  refine ⟨?_, ?_, ?_, ?_, viaFloat_small, ?_, ?_⟩
  · intro v hv
    exact visit_records_all _ _ v hv
  · exact parsedMap_values (fun c => fitsInt64 c = true) (by decide) CanonicalSimplify index
      hrange
  · intro p e v x h
    exact visit_keeps_recorded e p v x h
  · intro hnd
    have h := visit_distinct (CanonicalSimplify (IndexMutator index))
      { pattern_map := [], next_stride_ := 1 } rfl hnd (fun _ _ => rfl)
    exact h.1
  · intro p v c x _ h
    have hvis : IndexParser.VisitExpr p (.mul (.var v) (.intImm c))
        = IndexParser.VisitExpr { p with next_stride_ := viaFloat c 0 } (.var v) := rfl
    rw [hvis, visit_var_recorded { p with next_stride_ := viaFloat c 0 } v x h]
  · intro p w _ h
    exact visit_var_new p w h

/-- C15 (amended), at the index `i * 4 + j`, where no variable occurs twice:
`i` gets the literal 4 and `j` gets 1. -/
theorem first_stride_kept_witness :
    (∀ c ∈ literalStrides (id (IndexMutator exLinear)), fitsInt64 c = true)
    ∧ literalStrides (id (IndexMutator exLinear)) = [4]
    ∧ (exprVars (id (IndexMutator exLinear))).Nodup
    ∧ occurrenceStrides (id (IndexMutator exLinear)) = [(exI, 4), (exJ, 1)]
    ∧ parsedMap id exLinear = occurrenceStrides (id (IndexMutator exLinear)) :=
  ⟨by decide!, by decide!, by decide, by decide!,
    (first_stride_kept id exLinear (by decide!)).2.2.2.1 (by decide)⟩

/-! ## Range of the flags and one-hot slots -/

theorem lor_le_three (a b : Nat) (ha : a ≤ 3) (hb : b ≤ 3) : a ||| b ≤ 3 := by
  interval_cases a <;> interval_cases b <;> decide

theorem memLoop_reuse_type_le (pm extent : List (Var × Int)) (items : List StackItem)
    (st : MemLoop) (ht : st.loop_reuse_tag = false) (h : st.reuse_type ≤ 3) :
    (items.foldl (memLoopStep pm extent) st).reuse_type ≤ 3 := by
  rw [memLoop_reuse_type pm extent items st ht]
  split_ifs
  · exact lor_le_three _ _ h (by decide)
  · exact h

/-- `EnterMem_` with an access type in 0..3 keeps the flags of every record in 0..3. -/
theorem flags_EnterMem_ (CanonicalSimplify : PrimExpr → PrimExpr) (s : TouchExtractor)
    (buffer_var : Var) (index : PrimExpr) (access_type : Nat) (hty : access_type ≤ 3)
    (h : ∀ st b, (featureAt s.innermost_stmt_map st b).access_type ≤ 3
      ∧ (featureAt s.innermost_stmt_map st b).reuse_type ≤ 3) (st : StmtPtr) (b : TouchedBuffer) :
    (featureAt (EnterMem_ CanonicalSimplify s buffer_var index access_type).innermost_stmt_map
        st b).access_type ≤ 3
    ∧ (featureAt (EnterMem_ CanonicalSimplify s buffer_var index access_type).innermost_stmt_map
        st b).reuse_type ≤ 3 := by
  by_cases hcur : st = s.current_stmt ∧ b = buffer_var.name_hint
  · obtain ⟨h1, h2⟩ := hcur
    subst h1
    subst h2
    rw [featureAt_EnterMem_]
    have hv := h s.current_stmt buffer_var.name_hint
    have hlp := memLoop_reuse_type_le (parsedMap CanonicalSimplify index) s.extent
      s.itervar_stack_
      { bytes := (resolveBuffer s.buffer_info_ buffer_var.name_hint).buffer_elem_bytes,
        stride := (featureAt s.innermost_stmt_map s.current_stmt buffer_var.name_hint).stride,
        reuse_type :=
          (featureAt s.innermost_stmt_map s.current_stmt buffer_var.name_hint).reuse_type }
      rfl hv.2
    refine ⟨lor_le_three _ _ hv.1 hty, ?_⟩
    simp only [recordAfterMem]
    split_ifs
    · exact lor_le_three _ _ hlp (by decide)
    · exact hlp
  · have hne : st ≠ s.current_stmt ∨ b ≠ buffer_var.name_hint := by
      by_cases h1 : st = s.current_stmt
      · exact Or.inr (fun h2 => hcur ⟨h1, h2⟩)
      · exact Or.inl h1
    rw [featureAt_EnterMem__other _ _ _ _ _ _ _ hne]
    split_ifs
    · exact ⟨(h st b).1, lor_le_three _ _ (h st b).2 (by decide)⟩
    · exact h st b

theorem flags_step (CanonicalSimplify : PrimExpr → PrimExpr) (s : TouchExtractor) (c : Call)
    (hty : wellTyped c = true)
    (h : ∀ st b, (featureAt s.innermost_stmt_map st b).access_type ≤ 3
      ∧ (featureAt s.innermost_stmt_map st b).reuse_type ≤ 3) (st : StmtPtr) (b : TouchedBuffer) :
    (featureAt (step CanonicalSimplify s c).innermost_stmt_map st b).access_type ≤ 3
    ∧ (featureAt (step CanonicalSimplify s c).innermost_stmt_map st b).reuse_type ≤ 3 := by
  cases c with
  | enterItervar var min length is_attr_stmt ann => exact h st b
  | exitItervar => exact h st b
  | enterInnermostStmt innermost_stmt =>
    simp only [step, EnterInnermostStmt_, featureAt, mapAt_mapSet]
    split_ifs
    · rw [stmtLoop_buffers]
      exact ⟨Nat.zero_le 3, Nat.zero_le 3⟩
    · exact h st b
  | exitInnermostStmt => exact h st b
  | enterMem buffer_var index access_type =>
    have ha : access_type ≤ 3 := by simpa [wellTyped] using hty
    exact flags_EnterMem_ _ _ _ _ _ ha h st b

/-- In every traversal of a fresh extractor with well-typed calls, the flags
of every record are in 0..3. -/
theorem flags_run (CanonicalSimplify : PrimExpr → PrimExpr)
    (buffer_info_ : List (Var × BufferInfo)) (calls : List Call)
    (hty : ∀ c ∈ calls, wellTyped c = true) (st : StmtPtr) (b : TouchedBuffer) :
    (featureAt (run CanonicalSimplify (TouchExtractor.fresh buffer_info_)
        calls).innermost_stmt_map st b).access_type ≤ 3
    ∧ (featureAt (run CanonicalSimplify (TouchExtractor.fresh buffer_info_)
        calls).innermost_stmt_map st b).reuse_type ≤ 3 := by
  have gen : ∀ (calls : List Call) (s : TouchExtractor),
      (∀ c ∈ calls, wellTyped c = true) →
      (∀ st b, (featureAt s.innermost_stmt_map st b).access_type ≤ 3
        ∧ (featureAt s.innermost_stmt_map st b).reuse_type ≤ 3) →
      ∀ st b, (featureAt (run CanonicalSimplify s calls).innermost_stmt_map st b).access_type ≤ 3
        ∧ (featureAt (run CanonicalSimplify s calls).innermost_stmt_map st b).reuse_type ≤ 3 := by
    intro calls
    induction calls with
    | nil => intro s _ h; exact h
    | cons c rest ih =>
      intro s hc h
      exact ih _ (fun c' hc' => hc c' (List.mem_cons_of_mem _ hc'))
        (flags_step CanonicalSimplify s c (hc c (List.mem_cons_self _ _)) h)
  have h0 : ∀ st b,
      (featureAt (TouchExtractor.fresh buffer_info_).innermost_stmt_map st b).access_type ≤ 3
      ∧ (featureAt (TouchExtractor.fresh buffer_info_).innermost_stmt_map st b).reuse_type ≤ 3 :=
    fun _ _ => ⟨Nat.zero_le 3, Nat.zero_le 3⟩
  exact gen calls _ hty h0 st b

/-- The slots of the block of a record whose flags are in 0..3: slot `j` of
either group is 1 exactly when `j` is the flag value, so each group is one-hot. -/
theorem featureBlock_one_hot (take_log : Bool) (v : BufferAccessFeature)
    (ha : v.access_type ≤ 3) (hr : v.reuse_type ≤ 3) :
    accessSlots (featureBlock take_log v)
        = (List.range 4).map (fun j => flagImm (decide (j = v.access_type)))
    ∧ reuseSlots (featureBlock take_log v)
        = (List.range 4).map (fun j => flagImm (decide (j = v.reuse_type)))
    ∧ oneHot (accessSlots (featureBlock take_log v)) = true
    ∧ oneHot (reuseSlots (featureBlock take_log v)) = true := by
  have h1 : accessSlots (featureBlock take_log v)
      = (List.range 4).map (fun j => flagImm (decide (j = v.access_type))) := by
    simp [accessSlots, featureBlock, List.range_succ]
  have h2 : reuseSlots (featureBlock take_log v)
      = (List.range 4).map (fun j => flagImm (decide (j = v.reuse_type))) := by
    simp [reuseSlots, featureBlock, List.range_succ]
  have hone : ∀ a : Nat, a ≤ 3 →
      oneHot ((List.range 4).map (fun j => flagImm (decide (j = a)))) = true := by
    intro a h
    interval_cases a <;> decide
  exact ⟨h1, h2, by rw [h1]; exact hone _ ha, by rw [h2]; exact hone _ hr⟩


/-- The block at position `i` of the row of a statement record is the block
of its `i`-th buffer in sorted order, for `i` below `min n 5`. -/
theorem blockAt_flattenRow (take_log : Bool) (fea : InnermostStatementFeature) (i : Nat)
    (hi : i < min fea.buffer_access_feature.length 5) :
    ∃ k, blockAt (flattenRow take_log fea) i
      = featureBlock take_log (mapAt fea.buffer_access_feature k {}) := by
  have hlen : i < ((sortedBufs fea).take 5).length := by
    rw [List.length_take, sortedBufs_length]
    omega
  refine ⟨((sortedBufs fea).take 5).get ⟨i, hlen⟩, ?_⟩
  rw [flattenRow_eq]
  unfold blockAt
  exact block_at (fun k => featureBlock take_log (mapAt fea.buffer_access_feature k {}))
    (fun k => featureBlock_length take_log _) _ _ i hlen

/-- C21. In every state reached from a fresh extractor by a sequence of calls
whose `EnterMem_` calls carry an access type among the four values 0..3, the
`access_type` and the `reuse_type` of every record are in 0..3 (values that
the bitwise or of two of them does not leave); so in every row emitted by
`GetInnerStatementFeatureFlatten`, in each 16-value block of a buffer, exactly
one of the 4 access-type slots and exactly one of the 4 reuse-type slots is 1
and the other three are 0. -/
theorem flags_in_range_one_hot (CanonicalSimplify : PrimExpr → PrimExpr)
    (buffer_info_ : List (Var × BufferInfo)) (calls : List Call) (take_log : Bool)
    (hty : ∀ c ∈ calls, wellTyped c = true) :
    (∀ st b,
      (featureAt (run CanonicalSimplify (TouchExtractor.fresh buffer_info_)
          calls).innermost_stmt_map st b).access_type ≤ 3
      ∧ (featureAt (run CanonicalSimplify (TouchExtractor.fresh buffer_info_)
          calls).innermost_stmt_map st b).reuse_type ≤ 3)
    ∧ (∀ x y : Nat, x ≤ 3 → y ≤ 3 → x ||| y ≤ 3)
    ∧ (∀ row ∈ GetInnerStatementFeatureFlatten
          (run CanonicalSimplify (TouchExtractor.fresh buffer_info_) calls) take_log,
        ∃ stmt ∈ sortedStmts (run CanonicalSimplify (TouchExtractor.fresh buffer_info_) calls),
          row = flattenRow take_log
            (mapAt (run CanonicalSimplify (TouchExtractor.fresh buffer_info_)
              calls).innermost_stmt_map stmt {})
          ∧ ∀ i, i < min (mapAt (run CanonicalSimplify (TouchExtractor.fresh buffer_info_)
              calls).innermost_stmt_map stmt {}).buffer_access_feature.length 5 →
            oneHot (accessSlots (blockAt row i)) = true
            ∧ oneHot (reuseSlots (blockAt row i)) = true) := by
  refine ⟨fun st b => flags_run CanonicalSimplify buffer_info_ calls hty st b,
    lor_le_three, ?_⟩
  intro row hrow
  unfold GetInnerStatementFeatureFlatten at hrow
  obtain ⟨stmt, hstmt, hrow⟩ := List.mem_map.1 hrow
  refine ⟨stmt, hstmt, hrow.symm, ?_⟩
  intro i hi
  obtain ⟨k, hk⟩ := blockAt_flattenRow take_log _ i hi
  have hr := flags_run CanonicalSimplify buffer_info_ calls hty stmt k
  have hb := featureBlock_one_hot take_log _ hr.1 hr.2
  rw [← hrow, hk]
  exact ⟨hb.2.2.1, hb.2.2.2⟩

/-- C21, at a traversal under a loop in which statement `0` writes and reads
`B` and statement `1` reads it: both flags of both records reach 3, and in
each of the two rows the block of `B` has its slots set to 0, 0, 0, 1. -/
theorem flags_in_range_one_hot_witness :
    (∀ c ∈ exBoth, wellTyped c = true)
    ∧ (featureAt (run id (TouchExtractor.fresh exRegistry) exBoth).innermost_stmt_map
        (some 0) exB.name_hint).access_type = 3
    ∧ (featureAt (run id (TouchExtractor.fresh exRegistry) exBoth).innermost_stmt_map
        (some 0) exB.name_hint).reuse_type = 3
    ∧ (GetInnerStatementFeatureFlatten (run id (TouchExtractor.fresh exRegistry) exBoth)
        false).map (fun row => (accessSlots (blockAt row 0), reuseSlots (blockAt row 0)))
      = [([.ofInt 0, .ofInt 0, .ofInt 0, .ofInt 1], [.ofInt 0, .ofInt 0, .ofInt 0, .ofInt 1]),
         ([.ofInt 0, .ofInt 1, .ofInt 0, .ofInt 0], [.ofInt 0, .ofInt 0, .ofInt 0, .ofInt 1])]
    ∧ (∀ st b,
      (featureAt (run id (TouchExtractor.fresh exRegistry) exBoth).innermost_stmt_map
          st b).access_type ≤ 3
      ∧ (featureAt (run id (TouchExtractor.fresh exRegistry) exBoth).innermost_stmt_map
          st b).reuse_type ≤ 3) :=
  ⟨by decide, by decide, by decide, by decide,
    (flags_in_range_one_hot id exRegistry exBoth false (by decide)).1⟩

end tg
